import Mathlib

/-!
# Verification of the graph-algorithms-comparison traversal engine

Shallow embedding of the repository's graph-search core:
the four batch traversal functions (`dijkstra`, `astar`, `bfs`, `dfs`),
their resumable step-by-step engine classes, the shared path
reconstructor, and the comparison view's race judge.

Conventions of the embedding:
* JavaScript `number` values that the engine stores are modelled as
  `WithTop ℤ` (`⊤` models `Infinity`; the spec's data model fixes
  positive integer edge weights, and no claim involves fractional
  values, so the integers suffice); a `Map.get` that can miss returns
  an `Option`, with `none` modelling `undefined`.  Comparisons and sums
  involving `undefined`/`NaN` are modelled by `jsLt`/`jsGt`/`jsAdd`,
  which return `false`/`none` whenever an operand is `none`, matching
  JavaScript's `NaN`-style comparison semantics.
* JavaScript `Map` is modelled by `Smap` (an association list with
  insertion order and in-place update, first-key-wins lookup) and
  JavaScript `Set` by `Sset` (a duplicate-free-by-construction list).
* The repository imports `MinHeap` from `src/utils/MinHeap.ts`, whose
  source is not part of the repository; it is modelled from the spec
  (section 4.2) below.
-/

/-- Extended integers: `⊤` models the JavaScript `Infinity` value. -/
abbrev QInf : Type := WithTop ℤ

/-- JavaScript `a < b` on possibly-`undefined` numbers: any comparison
with `undefined` (or `NaN`) is `false`. -/
def jsLt : Option QInf → Option QInf → Bool
  | some a, some b => decide (a < b)
  | _, _ => false

/-- JavaScript `a > b` on possibly-`undefined` numbers. -/
def jsGt (a b : Option QInf) : Bool := jsLt b a

/-- JavaScript `a + b` where an `undefined` operand poisons the sum
(producing `NaN`, which compares `false` under `jsLt`/`jsGt`). -/
def jsAdd : Option QInf → Option QInf → Option QInf
  | some a, some b => some (a + b)
  | _, _ => none

/-- Model of a JavaScript `Map` with `String` keys: an association list
in insertion order; `set` updates in place, `find?` returns the first
(unique) binding. -/
abbrev Smap (α : Type) : Type := List (String × α)

namespace Smap

/-- The empty map (`new Map()`). -/
def empty {α : Type} : Smap α := []

/-- `Map.get`: first binding for the key, `none` models `undefined`. -/
def find? {α : Type} : Smap α → String → Option α
  | [], _ => none
  | (k', v') :: rest, k => if k' = k then some v' else find? rest k

/-- `Map.set`: replace the binding in place, or append a new one. -/
def set {α : Type} : Smap α → String → α → Smap α
  | [], k, v => [(k, v)]
  | (k', v') :: rest, k, v =>
      if k' = k then (k, v) :: rest else (k', v') :: set rest k v

/-- `Map.has`. -/
def hasKey {α : Type} (m : Smap α) (k : String) : Bool := (m.find? k).isSome

end Smap

/-- Model of a JavaScript `Set` of strings: a list in insertion order,
kept duplicate-free by `add`. -/
abbrev Sset : Type := List String

namespace Sset

/-- The empty set (`new Set()`). -/
def empty : Sset := []

/-- `Set.has`. -/
def has (s : Sset) (k : String) : Bool := s.contains k

/-- `Set.add`: appends only when the element is absent, so the list
representation stays duplicate-free on every value the engine builds. -/
def add (s : Sset) (k : String) : Sset := if s.has k then s else s ++ [k]

/-- `Set.size`.  A JavaScript set is duplicate-free, so the size is the
number of distinct elements of the representing list. -/
def size (s : Sset) : Nat := s.dedup.length

end Sset

/-- `Node` from `src/types/index.ts`: id, 2D position, optional label.
Positions are modelled as integers. -/
structure Node where
  id : String
  x : ℤ
  y : ℤ
  label : Option String := none
deriving DecidableEq

/-- `Edge` from `src/types/index.ts`.  The source field names are
`from`/`to`; `from` is a reserved word in Lean, so they are rendered as
`fromId`/`toId`. -/
structure Edge where
  fromId : String
  toId : String
  weight : ℤ
deriving DecidableEq

/-- `Graph` from `src/types/index.ts`. -/
structure Graph where
  nodes : List Node
  edges : List Edge
deriving DecidableEq

/-- The set of node ids of a graph. -/
def nodeIds (g : Graph) : List String := g.nodes.map Node.id

/-- `AlgorithmConfig` from `src/algorithms/types.ts`: the three inputs
every algorithm receives. -/
structure AlgorithmConfig where
  startNode : String
  endNode : String
  graph : Graph
deriving DecidableEq

/-- `PathStep` from `src/types/index.ts`: the snapshot emitted each
time a node is finalized.  (`dfs` additionally sticks a constant empty
`distances` map on its step objects; that field is not part of the
`PathStep` interface and is omitted.) -/
structure PathStep where
  currentNode : String
  visitedNodes : Sset
  previousNodes : Smap (Option String)
  path : List String
  isComplete : Bool
deriving DecidableEq

/-- `AlgorithmResult` from `src/types/index.ts`. -/
structure AlgorithmResult where
  path : List String
  steps : List PathStep
  visitedNodes : Sset
deriving DecidableEq

/-- `previousNodes.get(current) || null`: a missing key (`undefined`),
a `null` parent, and the falsy empty-string parent all collapse to
"no parent". -/
def getParentJs (m : Smap (Option String)) (k : String) : Option String :=
  match m.find? k with
  | some (some p) => if p = "" then none else some p
  | _ => none

/-- Auxiliary: filtering with a pointwise-stronger predicate gives a
list at most as long. -/
theorem filter_imp_length_le {α : Type} (P Q : α → Bool)
    (h : ∀ a, Q a = true → P a = true) :
    ∀ l : List α, (l.filter Q).length ≤ (l.filter P).length := by
  intro l
  induction l with
  | nil => simp
  | cons a t ih =>
    by_cases hq : Q a = true
    · simp [List.filter_cons, hq, h a hq]
      omega
    · simp only [List.filter_cons]
      rw [if_neg hq]
      by_cases hp : P a = true
      · rw [if_pos hp]; simp; omega
      · rw [if_neg hp]; exact ih

/-- Auxiliary: filtering with a pointwise-stronger predicate that
additionally drops a present element gives a strictly shorter list. -/
theorem filter_imp_length_lt {α : Type} [DecidableEq α] (P Q : α → Bool)
    (h : ∀ a, Q a = true → P a = true) (c : α) (hqc : Q c = false)
    (hpc : P c = true) :
    ∀ l : List α, c ∈ l → (l.filter Q).length < (l.filter P).length := by
  intro l hmem
  induction l with
  | nil => simp at hmem
  | cons a t ih =>
    rcases List.mem_cons.mp hmem with rfl | hmem'
    · simp only [List.filter_cons, hqc, hpc]
      simp only [Bool.false_eq_true, if_false, if_true, List.length_cons]
      exact Nat.lt_succ_of_le (filter_imp_length_le P Q h t)
    · by_cases hq : Q a = true
      · simp only [List.filter_cons, hq, h a hq, if_true, List.length_cons]
        exact Nat.succ_lt_succ (ih hmem')
      · simp only [List.filter_cons]
        rw [if_neg hq]
        by_cases hp : P a = true
        · rw [if_pos hp]
          simp only [List.length_cons]
          exact Nat.lt_succ_of_lt (ih hmem')
        · rw [if_neg hp]; exact ih hmem'

/-- Auxiliary: a key on which `Smap.find?` succeeds is among the map's
keys. -/
theorem mem_keys_of_find?_eq_some {α : Type} {m : Smap α} {k : String} {v : α}
    (h : m.find? k = some v) : k ∈ m.map Prod.fst := by
  induction m with
  | nil => simp [Smap.find?] at h
  | cons hd tl ih =>
    by_cases hk : hd.1 = k
    · simp [hk]
    · simp only [Smap.find?] at h
      rw [if_neg hk] at h
      simpa using Or.inr (ih h)

/-- The backward walk of `reconstructPath` (the `while` loop of
`src/algorithms/dijkstra.ts` lines 88-95), made total by tracking the
set of already-looked-up keys: the walk is deterministic, so revisiting
a key means the JavaScript loop runs forever.  `none` models that
non-termination; `some path` is the list the loop accumulates
(`unshift` prepends, so the accumulator is built front-most-first).
The structural `fuel` only bounds the recursion: every recursive call
looks up a key of the map not yet in `seen` and adds it to `seen`, so
with the fuel `reconstructPath` supplies (map size + 2) the `seen`
test always fires before the fuel runs out, and `none` is returned
exactly on a cyclic (diverging) chain. -/
def reconstructWalk (previousNodes : Smap (Option String)) (startNode : String) :
    Nat → String → List String → List String → Option (List String)
  | 0, _, _, _ => none
  | fuel + 1, current, seen, acc =>
    let acc' := current :: acc
    if current = startNode then some acc'
    else
      match getParentJs previousNodes current with
      | none => some acc'
      | some p =>
          if seen.contains current then none
          else reconstructWalk previousNodes startNode fuel p (current :: seen) acc'

/-- `reconstructPath` from `src/algorithms/dijkstra.ts` (the identical
private copies in `astar.ts`, `bfs.ts` and the `dfs` file are shared
here): walk parents backward from `endNode`, stop at `startNode` or a
missing parent, and keep the result only if it begins at `startNode`.
On inputs where the JavaScript loop diverges (a cyclic parent chain,
which no algorithm in the repository produces) the walk yields `none`
and this total wrapper returns `[]`. -/
def reconstructPath (previousNodes : Smap (Option String)) (startNode endNode : String) :
    List String :=
  match reconstructWalk previousNodes startNode (previousNodes.length + 2) endNode [] [] with
  | some path => if path.head? = some startNode then path else []
  | none => []

/-- Modelled from the spec: the algorithms import `MinHeap` from
`src/utils/MinHeap.ts`, whose source is not part of the repository.
Spec section 4.2 Priority Frontier: `insert(score, item)`,
`extract-min()` returning the lowest-score item or an empty signal,
duplicate insertion allowed, tie-breaking between equal scores
unspecified with insertion order acceptable — modelled as a stable
queue extracting the leftmost entry of minimal score.  Scores are
`Option QInf` because `AStarStepByStep` pushes a raw `fScore.get`
result that is `undefined` when the start id is missing; comparisons
against such a score are `false` (`jsLt`), so it is never displaced. -/
structure MinHeap where
  entries : List (Option QInf × String)
deriving DecidableEq

/-- `new MinHeap()`. -/
def MinHeap.emptyHeap : MinHeap := ⟨[]⟩

/-- Spec: extract-min returns the "empty" signal iff no entries remain. -/
def MinHeap.isEmpty (h : MinHeap) : Bool := h.entries.isEmpty

/-- Spec: `insert(score, item)`; duplicates allowed. -/
def MinHeap.push (h : MinHeap) (priority : Option QInf) (data : String) : MinHeap :=
  ⟨h.entries ++ [(priority, data)]⟩

/-- Extract the leftmost minimal-score entry from a list, returning it
and the remaining entries in their original order. -/
def popMinAux : List (Option QInf × String) →
    Option ((Option QInf × String) × List (Option QInf × String))
  | [] => none
  | e :: rest =>
    match popMinAux rest with
    | none => some (e, [])
    | some (m, rest') => if jsLt m.1 e.1 then some (m, e :: rest') else some (e, rest)

/-- Spec: `extract-min()`. -/
def MinHeap.pop (h : MinHeap) : Option ((Option QInf × String) × MinHeap) :=
  match popMinAux h.entries with
  | none => none
  | some (e, rest) => some (e, ⟨rest⟩)

/-- One step of the adjacency-building `forEach` at the top of
`dijkstra` and `astar`: append both directions of one edge;
`adjacencyList.get(edge.from)?.push(...)` silently skips a direction
whose key is missing (a dangling `from`/`to`), but the pushed neighbor
id itself may be dangling. -/
def addEdgeW (m : Smap (List (String × ℤ))) (e : Edge) : Smap (List (String × ℤ)) :=
  let m1 := match m.find? e.fromId with
    | some l => m.set e.fromId (l ++ [(e.toId, e.weight)])
    | none => m
  match m1.find? e.toId with
    | some l => m1.set e.toId (l ++ [(e.fromId, e.weight)])
    | none => m1

/-- The weighted adjacency list: every node id keyed to `[]`, then both
directions of every edge appended. -/
def buildAdjacencyW (g : Graph) : Smap (List (String × ℤ)) :=
  g.edges.foldl addEdgeW (g.nodes.foldl (fun m n => m.set n.id []) Smap.empty)

/-- One step of the `bfs`/`dfs` adjacency-building `forEach` (same
skipping behavior as `addEdgeW`, weights dropped). -/
def addEdgeU (m : Smap (List String)) (e : Edge) : Smap (List String) :=
  let m1 := match m.find? e.fromId with
    | some l => m.set e.fromId (l ++ [e.toId])
    | none => m
  match m1.find? e.toId with
    | some l => m1.set e.toId (l ++ [e.fromId])
    | none => m1

/-- The unweighted adjacency list built by `bfs` and `dfs`. -/
def buildAdjacencyU (g : Graph) : Smap (List String) :=
  g.edges.foldl addEdgeU (g.nodes.foldl (fun m n => m.set n.id []) Smap.empty)

/-- Shared fuel bound for the batch `while` loops.  The source loops
run until the frontier empties; the bound strictly exceeds the number
of loop iterations any of the four algorithms can perform (each
iteration consumes one frontier entry, and the total number of frontier
insertions is bounded by the initial seed plus one insertion per
adjacency-list entry), as established by the termination lemmas below. -/
def loopFuel (g : Graph) : Nat :=
  (g.nodes.length + 2 * g.edges.length + 2) * (2 * g.edges.length + 2) + 2

/-- The mutable state of the batch `dijkstra` run. -/
structure DState where
  distances : Smap QInf
  previousNodes : Smap (Option String)
  visitedNodes : Sset
  pq : MinHeap
  steps : List PathStep
deriving DecidableEq

/-- `dijkstra` lines 7-29: initialize distances, parents and the
frontier (the adjacency list is built separately by
`buildAdjacencyW`). -/
def dijkstraInit (config : AlgorithmConfig) : DState :=
  { distances := config.graph.nodes.foldl
      (fun m n => m.set n.id (if n.id = config.startNode then (0 : QInf) else ⊤))
      Smap.empty,
    previousNodes := config.graph.nodes.foldl
      (fun m n => m.set n.id none) Smap.empty,
    visitedNodes := Sset.empty,
    pq := MinHeap.emptyHeap.push (some 0) config.startNode,
    steps := [] }

/-- `dijkstra` lines 59-71: the body of the neighbor relaxation
`forEach` for one neighbor.  The `match` on `newDistance` extracts the
value stored by `distances.set(neighborId, newDistance)`; the `none`
arm is unreachable because `jsLt none _ = false`. -/
def dijkstraRelaxOne (currentNode : String) (st : DState)
    (nb : String × ℤ) : DState :=
  if st.visitedNodes.has nb.1 then st
  else
    let newDistance := jsAdd (st.distances.find? currentNode) (some (nb.2 : QInf))
    let oldDistance := st.distances.find? nb.1
    if jsLt newDistance oldDistance then
      match newDistance with
      | some nd =>
        { st with distances := st.distances.set nb.1 nd,
                  previousNodes := st.previousNodes.set nb.1 (some currentNode),
                  pq := st.pq.push newDistance nb.1 }
      | none => st
    else st

/-- The relaxation `forEach` over the whole neighbor list. -/
def dijkstraRelax (currentNode : String) (st : DState)
    (neighbors : List (String × ℤ)) : DState :=
  neighbors.foldl (dijkstraRelaxOne currentNode) st

/-- `dijkstra` lines 31-72: the main `while (!pq.isEmpty())` loop.
Pop; skip an already-visited node; otherwise mark visited, emit the
snapshot, stop on the end node, skip relaxation for an outdated entry,
else relax the neighbors. -/
def dijkstraLoop (config : AlgorithmConfig)
    (adjacencyList : Smap (List (String × ℤ))) : Nat → DState → DState
  | 0, st => st
  | fuel + 1, st =>
    match st.pq.pop with
    | none => st
    | some (current, pq') =>
      let currentDistance := current.1
      let currentNode := current.2
      let st1 : DState := { st with pq := pq' }
      if st1.visitedNodes.has currentNode then
        dijkstraLoop config adjacencyList fuel st1
      else
        let visited' := st1.visitedNodes.add currentNode
        let step : PathStep :=
          { currentNode := currentNode,
            visitedNodes := visited',
            previousNodes := st1.previousNodes,
            path := reconstructPath st1.previousNodes config.startNode currentNode,
            isComplete := decide (currentNode = config.endNode) }
        let st2 : DState := { st1 with visitedNodes := visited', steps := st1.steps ++ [step] }
        if currentNode = config.endNode then st2
        else if jsGt currentDistance (st2.distances.find? currentNode) then
          dijkstraLoop config adjacencyList fuel st2
        else
          dijkstraLoop config adjacencyList fuel
            (dijkstraRelax currentNode st2 ((adjacencyList.find? currentNode).getD []))

/-- `dijkstra` from `src/algorithms/dijkstra.ts`. -/
def dijkstra (config : AlgorithmConfig) : AlgorithmResult :=
  let final := dijkstraLoop config (buildAdjacencyW config.graph)
    (loopFuel config.graph) (dijkstraInit config)
  { path := reconstructPath final.previousNodes config.startNode config.endNode,
    steps := final.steps,
    visitedNodes := final.visitedNodes }

/-- The mutable state of the batch `astar` run. -/
structure AState where
  gScore : Smap QInf
  fScore : Smap QInf
  previousNodes : Smap (Option String)
  visitedNodes : Sset
  openSet : MinHeap
  steps : List PathStep
deriving DecidableEq

/-- `astar` lines 7-31, with the heuristic abstracted: the source's
`heuristic(nodeId, endNode, graph)` is
`Math.sqrt(dx*dx + dy*dy) / 20` over the node's and the target's
positions (and `0` when either id is missing), an irrational real in
general; the embedding takes the per-node heuristic value `hfun` as a
parameter and instantiates it with the exact rational values of that
formula on the concrete graphs considered (chosen so that the square
roots are exact). -/
def astarInitH (hfun : String → ℤ) (config : AlgorithmConfig) : AState :=
  let fScore := config.graph.nodes.foldl
    (fun m n => m.set n.id
      (if n.id = config.startNode then ((hfun n.id : ℤ) : QInf) else ⊤))
    Smap.empty
  { gScore := config.graph.nodes.foldl
      (fun m n => m.set n.id (if n.id = config.startNode then (0 : QInf) else ⊤))
      Smap.empty,
    fScore := fScore,
    previousNodes := config.graph.nodes.foldl
      (fun m n => m.set n.id none) Smap.empty,
    visitedNodes := Sset.empty,
    openSet := MinHeap.emptyHeap.push (fScore.find? config.startNode) config.startNode,
    steps := [] }

/-- `astar` lines 61-77: the body of the neighbor relaxation `forEach`
for one neighbor. -/
def astarRelaxOneH (hfun : String → ℤ) (currentNode : String) (st : AState)
    (nb : String × ℤ) : AState :=
  if st.visitedNodes.has nb.1 then st
  else
    let tentativeG := jsAdd (st.gScore.find? currentNode) (some (nb.2 : QInf))
    if jsLt tentativeG (st.gScore.find? nb.1) then
      match tentativeG with
      | some tg =>
        let newF : QInf := tg + ((hfun nb.1 : ℤ) : QInf)
        { st with previousNodes := st.previousNodes.set nb.1 (some currentNode),
                  gScore := st.gScore.set nb.1 tg,
                  fScore := st.fScore.set nb.1 newF,
                  openSet := st.openSet.push (some newF) nb.1 }
      | none => st
    else st

/-- The A* relaxation `forEach` over the whole neighbor list. -/
def astarRelaxH (hfun : String → ℤ) (currentNode : String) (st : AState)
    (neighbors : List (String × ℤ)) : AState :=
  neighbors.foldl (astarRelaxOneH hfun currentNode) st

/-- `astar` lines 33-78: the main `while (!openSet.isEmpty())` loop. -/
def astarLoopH (hfun : String → ℤ) (config : AlgorithmConfig)
    (adjacencyList : Smap (List (String × ℤ))) : Nat → AState → AState
  | 0, st => st
  | fuel + 1, st =>
    match st.openSet.pop with
    | none => st
    | some (current, openSet') =>
      let currentF := current.1
      let currentNode := current.2
      let st1 : AState := { st with openSet := openSet' }
      if st1.visitedNodes.has currentNode then
        astarLoopH hfun config adjacencyList fuel st1
      else
        let visited' := st1.visitedNodes.add currentNode
        let step : PathStep :=
          { currentNode := currentNode,
            visitedNodes := visited',
            previousNodes := st1.previousNodes,
            path := reconstructPath st1.previousNodes config.startNode currentNode,
            isComplete := decide (currentNode = config.endNode) }
        let st2 : AState := { st1 with visitedNodes := visited', steps := st1.steps ++ [step] }
        if currentNode = config.endNode then st2
        else if jsGt currentF (st2.fScore.find? currentNode) then
          astarLoopH hfun config adjacencyList fuel st2
        else
          astarLoopH hfun config adjacencyList fuel
            (astarRelaxH hfun currentNode st2 ((adjacencyList.find? currentNode).getD []))

/-- `astar` from `src/algorithms/astar.ts`, with the heuristic
abstracted as in `astarInitH`. -/
def astarH (hfun : String → ℤ) (config : AlgorithmConfig) : AlgorithmResult :=
  let final := astarLoopH hfun config (buildAdjacencyW config.graph)
    (loopFuel config.graph) (astarInitH hfun config)
  { path := reconstructPath final.previousNodes config.startNode config.endNode,
    steps := final.steps,
    visitedNodes := final.visitedNodes }

/-- The mutable state of the batch `bfs` run. -/
structure BState where
  previousNodes : Smap (Option String)
  visitedNodes : Sset
  queue : List String
  steps : List PathStep
deriving DecidableEq

/-- `bfs` lines 6-25: parents initialized to `null` for every node,
the start marked visited immediately, the FIFO queue seeded with the
start. -/
def bfsInit (config : AlgorithmConfig) : BState :=
  { previousNodes := config.graph.nodes.foldl
      (fun m n => m.set n.id none) Smap.empty,
    visitedNodes := Sset.empty.add config.startNode,
    queue := [config.startNode],
    steps := [] }

/-- `bfs` lines 43-49: the body of the neighbor `forEach` for one
neighbor — mark visited, assign parent and enqueue when unvisited. -/
def bfsEnqueueOne (currentNode : String) (st : BState) (nb : String) : BState :=
  if st.visitedNodes.has nb then st
  else
    { st with visitedNodes := st.visitedNodes.add nb,
              previousNodes := st.previousNodes.set nb (some currentNode),
              queue := st.queue ++ [nb] }

/-- The BFS neighbor `forEach` over the whole neighbor list. -/
def bfsEnqueue (currentNode : String) (st : BState) (neighbors : List String) : BState :=
  neighbors.foldl (bfsEnqueueOne currentNode) st

/-- `bfs` lines 27-50: the main `while (queue.length > 0)` loop.
Dequeue, emit the snapshot, stop on the end node, then mark and
enqueue every unvisited neighbor (parent assigned at push time). -/
def bfsLoop (config : AlgorithmConfig) (adjacencyList : Smap (List String)) :
    Nat → BState → BState
  | 0, st => st
  | fuel + 1, st =>
    match st.queue with
    | [] => st
    | currentNode :: queue' =>
      let step : PathStep :=
        { currentNode := currentNode,
          visitedNodes := st.visitedNodes,
          previousNodes := st.previousNodes,
          path := reconstructPath st.previousNodes config.startNode currentNode,
          isComplete := decide (currentNode = config.endNode) }
      let st1 : BState := { st with queue := queue', steps := st.steps ++ [step] }
      if currentNode = config.endNode then st1
      else
        bfsLoop config adjacencyList fuel
          (bfsEnqueue currentNode st1 ((adjacencyList.find? currentNode).getD []))

/-- `bfs` from `src/algorithms/bfs.ts`. -/
def bfs (config : AlgorithmConfig) : AlgorithmResult :=
  let final := bfsLoop config (buildAdjacencyU config.graph)
    (loopFuel config.graph) (bfsInit config)
  { path := reconstructPath final.previousNodes config.startNode config.endNode,
    steps := final.steps,
    visitedNodes := final.visitedNodes }

/-- The mutable state of the batch `dfs` run.  The LIFO stack is kept
top-at-head (`Array.pop` takes the last pushed element). -/
structure FState where
  previousNodes : Smap (Option String)
  visitedNodes : Sset
  stack : List String
  steps : List PathStep
deriving DecidableEq

/-- `dfs` lines 4-14: parents initialized to `null` for every node,
the stack seeded with the start (not pre-marked visited). -/
def dfsInit (config : AlgorithmConfig) : FState :=
  { previousNodes := config.graph.nodes.foldl
      (fun m n => m.set n.id none) Smap.empty,
    visitedNodes := Sset.empty,
    stack := [config.startNode],
    steps := [] }

/-- `dfs` lines 273-280: the body of the reverse-order neighbor loop
for one neighbor — push only when unvisited AND the id is not a key of
`previousNodes` (always false for graph nodes, see `dfsLoop`). -/
def dfsPushOne (currentNode : String) (st : FState) (nb : String) : FState :=
  if ¬ st.visitedNodes.has nb ∧ ¬ st.previousNodes.hasKey nb then
    { st with previousNodes := st.previousNodes.set nb (some currentNode),
              stack := nb :: st.stack }
  else st

/-- The DFS neighbor loop over the whole list, reversed as in the
source (`for i = neighbors.length - 1; i >= 0; i--`). -/
def dfsPush (currentNode : String) (st : FState) (neighbors : List String) : FState :=
  neighbors.reverse.foldl (dfsPushOne currentNode) st

/-- `dfs` lines 22-51: the main `while (stack.length > 0)` loop.  Pop;
skip a visited node; otherwise mark visited and emit the snapshot; on
a non-end node iterate the neighbors in reverse (`for i = len-1; i >= 0`)
pushing a neighbor only when it is unvisited AND its id is not a key of
`previousNodes` — since every node id is keyed to `null` at
initialization, this `!previousNodes.has(neighborId)` test fails for
every neighbor that is a node of the graph, and succeeds only for
dangling edge-endpoint ids.  (The `distance` the source adds to its
result object is outside the `AlgorithmResult` interface and not
claimed about, and is omitted.) -/
def dfsLoop (config : AlgorithmConfig) (adjacencyList : Smap (List String)) :
    Nat → FState → FState
  | 0, st => st
  | fuel + 1, st =>
    match st.stack with
    | [] => st
    | currentNode :: stack' =>
      let st1 : FState := { st with stack := stack' }
      if st1.visitedNodes.has currentNode then
        dfsLoop config adjacencyList fuel st1
      else
        let visited' := st1.visitedNodes.add currentNode
        let step : PathStep :=
          { currentNode := currentNode,
            visitedNodes := visited',
            previousNodes := st1.previousNodes,
            path := reconstructPath st1.previousNodes config.startNode currentNode,
            isComplete := decide (currentNode = config.endNode) }
        let st2 : FState := { st1 with visitedNodes := visited', steps := st1.steps ++ [step] }
        if currentNode = config.endNode then st2
        else
          dfsLoop config adjacencyList fuel
            (dfsPush currentNode st2 ((adjacencyList.find? currentNode).getD []))

/-- `dfs` from the repository's DFS module (bundled after `astar.ts`). -/
def dfs (config : AlgorithmConfig) : AlgorithmResult :=
  let final := dfsLoop config (buildAdjacencyU config.graph)
    (loopFuel config.graph) (dfsInit config)
  { path := reconstructPath final.previousNodes config.startNode config.endNode,
    steps := final.steps,
    visitedNodes := final.visitedNodes }

/-- Popping a nonempty frontier removes exactly one entry. -/
theorem popMinAux_length {l : List (Option QInf × String)}
    {e : Option QInf × String} {rest : List (Option QInf × String)}
    (h : popMinAux l = some (e, rest)) : rest.length < l.length := by
  induction l generalizing e rest with
  | nil => simp [popMinAux] at h
  | cons a t ih =>
    simp only [popMinAux] at h
    cases ht : popMinAux t with
    | none =>
      rw [ht] at h
      cases t with
      | nil =>
        simp at h
        simp [← h.2]
      | cons b t' => simp [popMinAux] at ht; split at ht <;> simp_all
    | some p =>
      obtain ⟨m, rest'⟩ := p
      rw [ht] at h
      simp only [] at h
      by_cases hc : jsLt m.1 a.1 = true
      · rw [if_pos hc] at h
        simp only [Option.some.injEq, Prod.mk.injEq] at h
        have hlt := @ih m rest' ht
        rw [← h.2]
        simp only [List.length_cons]
        exact Nat.succ_lt_succ hlt
      · rw [if_neg hc] at h
        simp only [Option.some.injEq, Prod.mk.injEq] at h
        rw [← h.2]
        simp

/-- `MinHeap.pop` on a nonempty heap leaves a strictly smaller heap. -/
theorem MinHeap.pop_length {h : MinHeap} {e : Option QInf × String} {h' : MinHeap}
    (hp : h.pop = some (e, h')) : h'.entries.length < h.entries.length := by
  unfold MinHeap.pop at hp
  cases hm : popMinAux h.entries with
  | none => rw [hm] at hp; simp at hp
  | some p =>
    rw [hm] at hp
    cases hp
    exact popMinAux_length (by rw [hm])

/-- The state of a `DijkstraStepByStep` instance
(`src/algorithms/dijkstra.ts` lines 100-203). -/
structure DijkstraEngine where
  config : Option AlgorithmConfig := none
  distances : Smap QInf := Smap.empty
  previousNodes : Smap (Option String) := Smap.empty
  visitedNodes : Sset := Sset.empty
  adjacencyList : Smap (List (String × ℤ)) := Smap.empty
  pq : MinHeap := MinHeap.emptyHeap
  complete : Bool := false
deriving DecidableEq

/-- `DijkstraStepByStep.init`. -/
def DijkstraEngine.init (config : AlgorithmConfig) : DijkstraEngine :=
  { config := some config,
    distances := config.graph.nodes.foldl
      (fun m n => m.set n.id (if n.id = config.startNode then (0 : QInf) else ⊤))
      Smap.empty,
    previousNodes := config.graph.nodes.foldl
      (fun m n => m.set n.id none) Smap.empty,
    visitedNodes := Sset.empty,
    adjacencyList := buildAdjacencyW config.graph,
    pq := MinHeap.emptyHeap.push (some 0) config.startNode,
    complete := false }

/-- The body of the neighbor-relaxation `forEach` of
`DijkstraStepByStep.step` (lines 173-185), identical in update rules to
the batch `dijkstraRelaxOne` but acting on the engine's own fields. -/
def DijkstraEngine.relaxOne (currentNode : String) (st : DijkstraEngine)
    (nb : String × ℤ) : DijkstraEngine :=
  if st.visitedNodes.has nb.1 then st
  else
    let newDistance := jsAdd (st.distances.find? currentNode) (some (nb.2 : QInf))
    if jsLt newDistance (st.distances.find? nb.1) then
      match newDistance with
      | some nd =>
        { st with distances := st.distances.set nb.1 nd,
                  previousNodes := st.previousNodes.set nb.1 (some currentNode),
                  pq := st.pq.push newDistance nb.1 }
      | none => st
    else st

/-- The engine relaxation over the whole neighbor list. -/
def DijkstraEngine.relax (currentNode : String) (st : DijkstraEngine)
    (neighbors : List (String × ℤ)) : DijkstraEngine :=
  neighbors.foldl (DijkstraEngine.relaxOne currentNode) st

/-- `DijkstraStepByStep.step` (lines 135-188): the early-out guard, the
recursive self-skip on visited or stale pops, and the
visit/snapshot/relax unit of work.  The structural `fuel` only bounds
the `return this.step()` self-recursion, which pops one frontier entry
per nested call; the wrapper `DijkstraEngine.step` supplies one more
than the frontier size, so the zero-fuel arm is unreachable. -/
def DijkstraEngine.stepAux : Nat → DijkstraEngine → Option PathStep × DijkstraEngine
  | 0, st => (none, st)
  | fuel + 1, st =>
  match st.config with
  | none => (none, st)
  | some config =>
    if st.complete then (none, st)
    else if st.pq.isEmpty then (none, st)
    else
      match st.pq.pop with
      | none => (none, { st with complete := true })
      | some (current, pq') =>
        let currentDistance := current.1
        let currentNode := current.2
        let st1 : DijkstraEngine := { st with pq := pq' }
        if st1.visitedNodes.has currentNode then DijkstraEngine.stepAux fuel st1
        else if jsGt currentDistance (st1.distances.find? currentNode) then
          DijkstraEngine.stepAux fuel st1
        else
          let visited' := st1.visitedNodes.add currentNode
          let pathStep : PathStep :=
            { currentNode := currentNode,
              visitedNodes := visited',
              previousNodes := st1.previousNodes,
              path := reconstructPath st1.previousNodes config.startNode currentNode,
              isComplete := decide (currentNode = config.endNode) }
          let st2 : DijkstraEngine := { st1 with visitedNodes := visited' }
          if currentNode = config.endNode then
            (some pathStep, { st2 with complete := true })
          else
            (some pathStep,
              DijkstraEngine.relax currentNode st2
                ((st2.adjacencyList.find? currentNode).getD []))

/-- `DijkstraStepByStep.step`. -/
def DijkstraEngine.step (st : DijkstraEngine) : Option PathStep × DijkstraEngine :=
  DijkstraEngine.stepAux (st.pq.entries.length + 1) st

/-- The state of an `AStarStepByStep` instance
(`src/algorithms/astar.ts` lines 118-228). -/
structure AStarEngine where
  config : Option AlgorithmConfig := none
  gScore : Smap QInf := Smap.empty
  fScore : Smap QInf := Smap.empty
  previousNodes : Smap (Option String) := Smap.empty
  visitedNodes : Sset := Sset.empty
  adjacencyList : Smap (List (String × ℤ)) := Smap.empty
  openSet : MinHeap := MinHeap.emptyHeap
  complete : Bool := false
deriving DecidableEq

/-- `AStarStepByStep.init`, heuristic abstracted as in `astarInitH`. -/
def AStarEngine.init (hfun : String → ℤ) (config : AlgorithmConfig) : AStarEngine :=
  let fScore := config.graph.nodes.foldl
    (fun m n => m.set n.id
      (if n.id = config.startNode then ((hfun n.id : ℤ) : QInf) else ⊤))
    Smap.empty
  { config := some config,
    gScore := config.graph.nodes.foldl
      (fun m n => m.set n.id (if n.id = config.startNode then (0 : QInf) else ⊤))
      Smap.empty,
    fScore := fScore,
    previousNodes := config.graph.nodes.foldl
      (fun m n => m.set n.id none) Smap.empty,
    visitedNodes := Sset.empty,
    adjacencyList := buildAdjacencyW config.graph,
    openSet := MinHeap.emptyHeap.push (fScore.find? config.startNode) config.startNode,
    complete := false }

/-- The body of the neighbor-relaxation `forEach` of
`AStarStepByStep.step` (lines 193-209) for one neighbor. -/
def AStarEngine.relaxOne (hfun : String → ℤ) (currentNode : String) (st : AStarEngine)
    (nb : String × ℤ) : AStarEngine :=
  if st.visitedNodes.has nb.1 then st
  else
    let tentativeG := jsAdd (st.gScore.find? currentNode) (some (nb.2 : QInf))
    if jsLt tentativeG (st.gScore.find? nb.1) then
      match tentativeG with
      | some tg =>
        let newF : QInf := tg + ((hfun nb.1 : ℤ) : QInf)
        { st with previousNodes := st.previousNodes.set nb.1 (some currentNode),
                  gScore := st.gScore.set nb.1 tg,
                  fScore := st.fScore.set nb.1 newF,
                  openSet := st.openSet.push (some newF) nb.1 }
      | none => st
    else st

/-- The engine A* relaxation over the whole neighbor list. -/
def AStarEngine.relax (hfun : String → ℤ) (currentNode : String) (st : AStarEngine)
    (neighbors : List (String × ℤ)) : AStarEngine :=
  neighbors.foldl (AStarEngine.relaxOne hfun currentNode) st

/-- `AStarStepByStep.step` (lines 155-212), fuel bounding the
self-recursion as in `DijkstraEngine.stepAux`. -/
def AStarEngine.stepAux (hfun : String → ℤ) :
    Nat → AStarEngine → Option PathStep × AStarEngine
  | 0, st => (none, st)
  | fuel + 1, st =>
  match st.config with
  | none => (none, st)
  | some config =>
    if st.complete then (none, st)
    else if st.openSet.isEmpty then (none, st)
    else
      match st.openSet.pop with
      | none => (none, { st with complete := true })
      | some (current, openSet') =>
        let currentF := current.1
        let currentNode := current.2
        let st1 : AStarEngine := { st with openSet := openSet' }
        if st1.visitedNodes.has currentNode then AStarEngine.stepAux hfun fuel st1
        else if jsGt currentF (st1.fScore.find? currentNode) then
          AStarEngine.stepAux hfun fuel st1
        else
          let visited' := st1.visitedNodes.add currentNode
          let pathStep : PathStep :=
            { currentNode := currentNode,
              visitedNodes := visited',
              previousNodes := st1.previousNodes,
              path := reconstructPath st1.previousNodes config.startNode currentNode,
              isComplete := decide (currentNode = config.endNode) }
          let st2 : AStarEngine := { st1 with visitedNodes := visited' }
          if currentNode = config.endNode then
            (some pathStep, { st2 with complete := true })
          else
            (some pathStep,
              AStarEngine.relax hfun currentNode st2
                ((st2.adjacencyList.find? currentNode).getD []))

/-- `AStarStepByStep.step`. -/
def AStarEngine.step (hfun : String → ℤ) (st : AStarEngine) :
    Option PathStep × AStarEngine :=
  AStarEngine.stepAux hfun (st.openSet.entries.length + 1) st

/-- The state of a `BFSStepByStep` instance
(`src/algorithms/bfs.ts` lines 78-156). -/
structure BFSEngine where
  config : Option AlgorithmConfig := none
  previousNodes : Smap (Option String) := Smap.empty
  visitedNodes : Sset := Sset.empty
  adjacencyList : Smap (List String) := Smap.empty
  queue : List String := []
  complete : Bool := false
deriving DecidableEq

/-- `BFSStepByStep.init`. -/
def BFSEngine.init (config : AlgorithmConfig) : BFSEngine :=
  { config := some config,
    previousNodes := config.graph.nodes.foldl
      (fun m n => m.set n.id none) Smap.empty,
    visitedNodes := Sset.empty.add config.startNode,
    adjacencyList := buildAdjacencyU config.graph,
    queue := [config.startNode],
    complete := false }

/-- The body of the neighbor `forEach` of `BFSStepByStep.step`
(lines 132-139) for one neighbor: mark, assign parent, enqueue when
unvisited. -/
def BFSEngine.enqueueOne (currentNode : String) (st : BFSEngine)
    (nb : String) : BFSEngine :=
  if st.visitedNodes.has nb then st
  else
    { st with visitedNodes := st.visitedNodes.add nb,
              previousNodes := st.previousNodes.set nb (some currentNode),
              queue := st.queue ++ [nb] }

/-- The engine BFS neighbor `forEach` over the whole list. -/
def BFSEngine.enqueueNeighbors (currentNode : String) (st : BFSEngine)
    (neighbors : List String) : BFSEngine :=
  neighbors.foldl (BFSEngine.enqueueOne currentNode) st

/-- `BFSStepByStep.step` (lines 110-142). -/
def BFSEngine.step (st : BFSEngine) : Option PathStep × BFSEngine :=
  match st.config with
  | none => (none, st)
  | some config =>
    if st.complete then (none, st)
    else
      match st.queue with
      | [] => (none, st)
      | currentNode :: queue' =>
        let st1 : BFSEngine := { st with queue := queue' }
        let pathStep : PathStep :=
          { currentNode := currentNode,
            visitedNodes := st1.visitedNodes,
            previousNodes := st1.previousNodes,
            path := reconstructPath st1.previousNodes config.startNode currentNode,
            isComplete := decide (currentNode = config.endNode) }
        if currentNode = config.endNode then
          (some pathStep, { st1 with complete := true })
        else
          (some pathStep,
            BFSEngine.enqueueNeighbors currentNode st1
              ((st1.adjacencyList.find? currentNode).getD []))

/-- The state of a `DFSStepByStep` instance (the DFS module,
lines 324-411). -/
structure DFSEngine where
  config : Option AlgorithmConfig := none
  previousNodes : Smap (Option String) := Smap.empty
  visitedNodes : Sset := Sset.empty
  adjacencyList : Smap (List String) := Smap.empty
  stack : List String := []
  complete : Bool := false
deriving DecidableEq

/-- `DFSStepByStep.init`. -/
def DFSEngine.init (config : AlgorithmConfig) : DFSEngine :=
  { config := some config,
    previousNodes := config.graph.nodes.foldl
      (fun m n => m.set n.id none) Smap.empty,
    visitedNodes := Sset.empty,
    adjacencyList := buildAdjacencyU config.graph,
    stack := [config.startNode],
    complete := false }

/-- The body of the reverse-order neighbor push loop of
`DFSStepByStep.step` (lines 387-394) for one neighbor: push only when
it is unvisited and its `previousNodes` entry is literally `null`. -/
def DFSEngine.pushOne (currentNode : String) (st : DFSEngine)
    (nb : String) : DFSEngine :=
  if ¬ st.visitedNodes.has nb ∧ st.previousNodes.find? nb = some none then
    { st with previousNodes := st.previousNodes.set nb (some currentNode),
              stack := nb :: st.stack }
  else st

/-- The engine DFS neighbor loop over the whole list, reversed as in
the source. -/
def DFSEngine.pushNeighbors (currentNode : String) (st : DFSEngine)
    (neighbors : List String) : DFSEngine :=
  neighbors.reverse.foldl (DFSEngine.pushOne currentNode) st

/-- `DFSStepByStep.step` (lines 356-397).  The neighbor push guard here
is `!visited.has(n) && previousNodes.get(n) === null` — a strict `null`
test, satisfied by every undiscovered node of the graph but NOT by a
dangling id (whose lookup is `undefined`), unlike the batch `dfs`
guard.  The structural `fuel` only bounds the self-recursion (one stack
entry consumed per nested call); the wrapper supplies one more than the
stack size, so the zero-fuel arm is unreachable. -/
def DFSEngine.stepAux : Nat → DFSEngine → Option PathStep × DFSEngine
  | 0, st => (none, st)
  | fuel + 1, st =>
  match st.config with
  | none => (none, st)
  | some config =>
    if st.complete then (none, st)
    else
      match st.stack with
      | [] => (none, st)
      | currentNode :: stack' =>
        let st1 : DFSEngine := { st with stack := stack' }
        if st1.visitedNodes.has currentNode then DFSEngine.stepAux fuel st1
        else
          let visited' := st1.visitedNodes.add currentNode
          let pathStep : PathStep :=
            { currentNode := currentNode,
              visitedNodes := visited',
              previousNodes := st1.previousNodes,
              path := reconstructPath st1.previousNodes config.startNode currentNode,
              isComplete := decide (currentNode = config.endNode) }
          let st2 : DFSEngine := { st1 with visitedNodes := visited' }
          if currentNode = config.endNode then
            (some pathStep, { st2 with complete := true })
          else
            (some pathStep,
              DFSEngine.pushNeighbors currentNode st2
                ((st2.adjacencyList.find? currentNode).getD []))

/-- `DFSStepByStep.step`. -/
def DFSEngine.step (st : DFSEngine) : Option PathStep × DFSEngine :=
  DFSEngine.stepAux (st.stack.length + 1) st

/-- Call `step()` repeatedly, collecting the emitted `PathStep`s until
the first `null` (or until the fuel runs out, returning what was
collected). -/
def DFSEngine.runSteps : Nat → DFSEngine → List PathStep × DFSEngine
  | 0, st => ([], st)
  | n + 1, st =>
    match st.step with
    | (none, st') => ([], st')
    | (some ps, st') =>
      let r := DFSEngine.runSteps n st'
      (ps :: r.1, r.2)

/-- The race verdict (`setWinner` values `'left' | 'right' | 'tie'`). -/
inductive Verdict
  | left
  | right
  | tie
deriving DecidableEq

/-- The Race Judge of `ComparisonView.tsx` (lines 67-122) as a pure
function of the two completed step sequences and the start/end ids:
the `setWinner` effect is modelled by the returned verdict, and `none`
models the guard `leftSteps.length > 0 && rightSteps.length > 0`
failing, in which case no verdict is ever set.  (The
`currentStep >= maxSteps - 1` part of the guard is the shared replay
cursor reaching the end — UI timing, not part of the decision.) -/
def determineWinner (leftSteps rightSteps : List PathStep)
    (startNode endNode : String) : Option Verdict :=
  match leftSteps.getLast?, rightSteps.getLast? with
  | some leftFinal, some rightFinal =>
    let leftFoundPath : Bool := decide (0 < leftFinal.path.length)
      && decide (leftFinal.path.head? = some startNode)
      && decide (leftFinal.path.getLast? = some endNode)
    let rightFoundPath : Bool := decide (0 < rightFinal.path.length)
      && decide (rightFinal.path.head? = some startNode)
      && decide (rightFinal.path.getLast? = some endNode)
    if !leftFoundPath && !rightFoundPath then some .tie
    else if leftFoundPath && !rightFoundPath then some .left
    else if rightFoundPath && !leftFoundPath then some .right
    else
      let leftFinishStep := leftSteps.findIdx? fun step => step.isComplete
      let rightFinishStep := rightSteps.findIdx? fun step => step.isComplete
      let byVisited : Option Verdict :=
        if leftFinal.visitedNodes.size < rightFinal.visitedNodes.size then some .left
        else if rightFinal.visitedNodes.size < leftFinal.visitedNodes.size then some .right
        else some .tie
      match leftFinishStep, rightFinishStep with
      | some li, some ri =>
        if li < ri then some .left
        else if ri < li then some .right
        else byVisited
      | _, _ => byVisited
  | _, _ => none

/-- The Race Judge decision as spec section 4.5 words it, rules
evaluated in order: (1) exactly one side's final path runs from the
start id to the target id — that side wins; (2) neither found a valid
path — tie; (3) the side whose completion flag first became true at a
smaller step index wins; (4) at equal completion indices the smaller
final visited set wins; (5) otherwise tie.  Rules 3-5 presuppose both
sides completed; a side whose completion flag never became true (not
covered by the spec's wording, and impossible for sequences the
engines produce once rule 1 passed) falls through to rule 4.  `none`
when either sequence is empty (no verdict is meaningful). -/
def judgeSpec (leftSteps rightSteps : List PathStep)
    (startNode endNode : String) : Option Verdict :=
  match leftSteps.getLast?, rightSteps.getLast? with
  | some leftFinal, some rightFinal =>
    let validFor : PathStep → Bool := fun final =>
      decide (final.path.head? = some startNode)
        && decide (final.path.getLast? = some endNode)
        && decide (0 < final.path.length)
    let rule45 : Option Verdict :=
      if leftFinal.visitedNodes.size < rightFinal.visitedNodes.size then some .left
      else if rightFinal.visitedNodes.size < leftFinal.visitedNodes.size then some .right
      else some .tie
    if validFor leftFinal && !validFor rightFinal then some .left
    else if validFor rightFinal && !validFor leftFinal then some .right
    else if !validFor leftFinal && !validFor rightFinal then some .tie
    else
      match (leftSteps.findIdx? fun step => step.isComplete),
          (rightSteps.findIdx? fun step => step.isComplete) with
      | some li, some ri =>
        if li < ri then some .left
        else if ri < li then some .right
        else rule45
      | _, _ => rule45
  | _, _ => none

/-! ## Concrete fixtures -/

/-- The triangle graph of the spec's concrete scenario A: nodes
`a`, `b`, `c`; edges `a-b` (1), `b-c` (1), `a-c` (5). -/
def triangleGraph : Graph :=
  { nodes := [{ id := "a", x := 0, y := 0 }, { id := "b", x := 1, y := 0 },
              { id := "c", x := 2, y := 0 }],
    edges := [{ fromId := "a", toId := "b", weight := 1 },
              { fromId := "b", toId := "c", weight := 1 },
              { fromId := "a", toId := "c", weight := 5 }] }

/-- Scenario A's run configuration: start `a`, end `c`. -/
def triangleConfig : AlgorithmConfig :=
  { startNode := "a", endNode := "c", graph := triangleGraph }

/-! ## C1 -/

/-- C1: the batch/step-by-step equivalence fails for DFS.  On the
triangle graph the batch `dfs` emits exactly one PathStep (its
`!previousNodes.has(neighborId)` push guard is false for every graph
node, since init keys them all to `null`) and an empty final path,
while `DFSStepByStep` under the same config emits three PathSteps
before `step()` first returns the no-more-work signal, the last
reporting the path `[a, c]`; the two step sequences differ. -/
theorem c1_dfs_batch_vs_step_on_triangle :
    (dfs triangleConfig).steps ≠
      (DFSEngine.runSteps 10 (DFSEngine.init triangleConfig)).1 ∧
    (dfs triangleConfig).steps.length = 1 ∧
    (DFSEngine.runSteps 10 (DFSEngine.init triangleConfig)).1.length = 3 ∧
    ((DFSEngine.runSteps 10 (DFSEngine.init triangleConfig)).2.step).1 = none ∧
    (dfs triangleConfig).path = [] ∧
    (((DFSEngine.runSteps 10 (DFSEngine.init triangleConfig)).1.getLast?).map
      PathStep.path) = some ["a", "c"] := by
  decide

/-! ## C3 -/

/-- Auxiliary Bool identity: the two judges test the same three
conditions of a valid final path in different order. -/
theorem bool_and_rot (a b c : Bool) : (a && b && c) = (b && c && a) := by
  cases a <;> cases b <;> cases c <;> rfl

/-- Race scenario C: only the left side found a valid `s`→`t` path, and
it took three steps against the right side's one. -/
def scenarioCLeft : List PathStep :=
  [{ currentNode := "s", visitedNodes := ["s"], previousNodes := [],
     path := ["s"], isComplete := false },
   { currentNode := "m", visitedNodes := ["s", "m"], previousNodes := [],
     path := ["s", "m"], isComplete := false },
   { currentNode := "t", visitedNodes := ["s", "m", "t"], previousNodes := [],
     path := ["s", "m", "t"], isComplete := true }]

/-- Race scenario C, right side: one step, no valid path found. -/
def scenarioCRight : List PathStep :=
  [{ currentNode := "s", visitedNodes := ["s"], previousNodes := [],
     path := [], isComplete := false }]

/-- Race scenario D, left side: completes at step index 1 with a
two-element visited set. -/
def scenarioDLeft : List PathStep :=
  [{ currentNode := "s", visitedNodes := ["s"], previousNodes := [],
     path := ["s"], isComplete := false },
   { currentNode := "t", visitedNodes := ["s", "t"], previousNodes := [],
     path := ["s", "t"], isComplete := true }]

/-- Race scenario D, right side: also completes at step index 1 with a
two-element visited set (found the other equal-cost route). -/
def scenarioDRight : List PathStep :=
  [{ currentNode := "s", visitedNodes := ["s"], previousNodes := [],
     path := ["s"], isComplete := false },
   { currentNode := "t", visitedNodes := ["s", "u"], previousNodes := [],
     path := ["s", "u", "t"], isComplete := true }]

/-- C3: the race judge follows the spec's five-rule precedence: for
every pair of completed step sequences `determineWinner` agrees with
`judgeSpec` (the decision tree written from the spec's numbered
rules); in particular a lone valid path wins regardless of step counts
(scenario C) and equal completion index with equal visited sizes is a
tie (scenario D). -/
theorem c3_race_judge_five_rules :
    (∀ (leftSteps rightSteps : List PathStep) (startNode endNode : String),
      determineWinner leftSteps rightSteps startNode endNode =
        judgeSpec leftSteps rightSteps startNode endNode) ∧
    determineWinner scenarioCLeft scenarioCRight "s" "t" = some Verdict.left ∧
    determineWinner scenarioDLeft scenarioDRight "s" "t" = some Verdict.tie := by
  refine ⟨?_, by decide, by decide⟩
  intro l r s e
  unfold determineWinner judgeSpec
  cases hl : l.getLast? with
  | none => cases hr : r.getLast? <;> rfl
  | some lf =>
    cases hr : r.getLast? with
    | none => rfl
    | some rf =>
      simp only [bool_and_rot (decide (0 < lf.path.length)), bool_and_rot
        (decide (0 < rf.path.length))]
      by_cases hlv : (decide (lf.path.head? = some s) && decide (lf.path.getLast? = some e)
          && decide (0 < lf.path.length)) = true <;>
        by_cases hrv : (decide (rf.path.head? = some s) && decide (rf.path.getLast? = some e)
            && decide (0 < rf.path.length)) = true <;>
          simp [hlv, hrv]

/-! ## C7 -/

/-- A parent map whose backward chain from `x` is the 2-cycle
`x → y → x` and never reaches the start id `s`. -/
def cyclicParentMap : Smap (Option String) :=
  [("x", some "y"), ("y", some "x")]

/-- C7 counterexample: on the cyclic parent map the `reconstructPath`
`while` loop never terminates (the walk returns the divergence marker
`none`), so the function does not return the empty sequence — or
anything else — contradicting the claim's "returns the empty sequence
when following parent links backward never reaches the start id". -/
theorem c7_counterexample_cyclic_chain :
    reconstructWalk cyclicParentMap "s" (cyclicParentMap.length + 2) "x" [] [] = none := by
  decide

/-- The accumulator discipline of the backward walk: a terminating walk
returns a list ending exactly where the accumulated suffix ends (for
the top-level call, at the queried node). -/
theorem reconstructWalk_getLast? (previousNodes : Smap (Option String))
    (startNode : String) :
    ∀ (fuel : Nat) (current : String) (seen acc : List String) (p : List String),
      reconstructWalk previousNodes startNode fuel current seen acc = some p →
      p.getLast? = (current :: acc).getLast? := by
  intro fuel
  induction fuel with
  | zero => intro c seen acc p h; simp [reconstructWalk] at h
  | succ n ih =>
    intro c seen acc p h
    unfold reconstructWalk at h
    by_cases hc : c = startNode
    · rw [if_pos hc] at h
      simp only [Option.some.injEq] at h
      rw [← h]
    · rw [if_neg hc] at h
      cases hp : getParentJs previousNodes c with
      | none =>
        rw [hp] at h
        simp only [Option.some.injEq] at h
        rw [← h]
      | some parent =>
        rw [hp] at h
        simp only [] at h
        by_cases hseen : List.contains seen c = true
        · rw [if_pos hseen] at h; simp at h
        · rw [if_neg hseen] at h
          have := ih parent (c :: seen) (c :: acc) p h
          rw [this]
          rfl

/-- C7 amended: for every parent map, start id and queried id on which
the reconstruction loop terminates (the backward walk revisits no key
— `reconstructWalk` returns `some`), `reconstructPath` returns that
walk unchanged when it begins at the start id — a sequence whose first
element is the start id and whose last element is the queried id — and
the empty sequence otherwise (the walk stopped at a missing/`null`
parent without reaching the start).  On a cyclic chain (see the
counterexample) the loop simply never returns. -/
theorem c7_reconstruct_terminating_chains
    (previousNodes : Smap (Option String)) (startNode endNode : String)
    (p : List String)
    (h : reconstructWalk previousNodes startNode (previousNodes.length + 2)
      endNode [] [] = some p) :
    (p.head? = some startNode →
      reconstructPath previousNodes startNode endNode = p ∧
      p.getLast? = some endNode) ∧
    (p.head? ≠ some startNode →
      reconstructPath previousNodes startNode endNode = []) := by
  constructor
  · intro hhead
    constructor
    · unfold reconstructPath
      rw [h]
      simp only []
      rw [if_pos hhead]
    · have := reconstructWalk_getLast? previousNodes startNode _ endNode [] [] p h
      simpa using this
  · intro hhead
    unfold reconstructPath
    rw [h]
    simp only []
    rw [if_neg hhead]

/-- C7 witness: on the parent map `b ↦ a` with start `a` and query `b`
the walk terminates with `[a, b]`, which begins at the start id, so
`reconstructPath` returns it, ending at the queried id. -/
theorem c7_witness :
    reconstructWalk [("b", some "a")] "a" 4 "b" [] [] = some ["a", "b"] ∧
    reconstructPath [("b", some "a")] "a" "b" = ["a", "b"] ∧
    (["a", "b"] : List String).getLast? = some "b" := by
  refine ⟨by decide, ?_⟩
  have h := c7_reconstruct_terminating_chains [("b", some "a")] "a" "b"
    ["a", "b"] (by decide)
  have := h.1 (by decide)
  exact ⟨this.1, this.2⟩

/-! ## C9 -/

/-- `popMinAux` fails only on the empty list. -/
theorem popMinAux_eq_none_iff (l : List (Option QInf × String)) :
    popMinAux l = none ↔ l = [] := by
  cases l with
  | nil => simp [popMinAux]
  | cons a t =>
    simp only [popMinAux]
    cases popMinAux t with
    | none => simp
    | some p =>
      obtain ⟨m, rest'⟩ := p
      simp only []
      split <;> simp

/-- `MinHeap.pop` fails exactly when the heap is empty. -/
theorem MinHeap.pop_eq_none_iff (h : MinHeap) :
    h.pop = none ↔ h.isEmpty = true := by
  unfold MinHeap.pop MinHeap.isEmpty
  cases hm : popMinAux h.entries with
  | none =>
    simp only []
    rw [List.isEmpty_iff]
    simpa using (popMinAux_eq_none_iff h.entries).mp hm
  | some p =>
    simp only []
    constructor
    · intro hc; cases hc
    · intro he
      rw [List.isEmpty_iff] at he
      rw [(popMinAux_eq_none_iff h.entries).mpr he] at hm
      cases hm

/-- A terminated `DijkstraStepByStep` (target finalized or frontier
exhausted) returns the no-work signal without touching any state. -/
theorem dijkstraStep_terminated (st : DijkstraEngine)
    (h : st.complete = true ∨ st.pq.isEmpty = true) :
    st.step = (none, st) := by
  have : ∀ fuel, DijkstraEngine.stepAux fuel st = (none, st) := by
    intro fuel
    cases fuel with
    | zero => rfl
    | succ n =>
      unfold DijkstraEngine.stepAux
      cases hcfg : st.config with
      | none => rfl
      | some config =>
        simp only []
        rcases h with hc | he
        · rw [if_pos hc]
        · by_cases hc : st.complete = true
          · rw [if_pos hc]
          · rw [if_neg hc, if_pos he]
  exact this _

/-- A terminated `AStarStepByStep` returns the no-work signal without
touching any state. -/
theorem astarStep_terminated (hfun : String → ℤ) (st : AStarEngine)
    (h : st.complete = true ∨ st.openSet.isEmpty = true) :
    st.step hfun = (none, st) := by
  have : ∀ fuel, AStarEngine.stepAux hfun fuel st = (none, st) := by
    intro fuel
    cases fuel with
    | zero => rfl
    | succ n =>
      unfold AStarEngine.stepAux
      cases hcfg : st.config with
      | none => rfl
      | some config =>
        simp only []
        rcases h with hc | he
        · rw [if_pos hc]
        · by_cases hc : st.complete = true
          · rw [if_pos hc]
          · rw [if_neg hc, if_pos he]
  exact this _

/-- A terminated `BFSStepByStep` returns the no-work signal without
touching any state. -/
theorem bfsStep_terminated (st : BFSEngine)
    (h : st.complete = true ∨ st.queue = []) :
    st.step = (none, st) := by
  unfold BFSEngine.step
  cases hcfg : st.config with
  | none => rfl
  | some config =>
    simp only []
    rcases h with hc | he
    · rw [if_pos hc]
    · by_cases hc : st.complete = true
      · rw [if_pos hc]
      · rw [if_neg hc, he]

/-- A terminated `DFSStepByStep` returns the no-work signal without
touching any state. -/
theorem dfsStep_terminated (st : DFSEngine)
    (h : st.complete = true ∨ st.stack = []) :
    st.step = (none, st) := by
  have : ∀ fuel, DFSEngine.stepAux fuel st = (none, st) := by
    intro fuel
    cases fuel with
    | zero => rfl
    | succ n =>
      unfold DFSEngine.stepAux
      cases hcfg : st.config with
      | none => rfl
      | some config =>
        simp only []
        rcases h with hc | he
        · rw [if_pos hc]
        · by_cases hc : st.complete = true
          · rw [if_pos hc]
          · rw [if_neg hc, he]
  exact this _

/-- C9: for each of the four step-by-step engines, once termination is
reached — the completion flag is set (target finalized) or the frontier
is exhausted — `step()` returns the no-more-work signal `null` and
leaves the entire engine state unchanged, so repeated calls behave
identically. -/
theorem c9_step_past_completion_idempotent :
    (∀ st : DijkstraEngine, st.complete = true ∨ st.pq.isEmpty = true →
      st.step = (none, st)) ∧
    (∀ (hfun : String → ℤ) (st : AStarEngine),
      st.complete = true ∨ st.openSet.isEmpty = true →
      st.step hfun = (none, st)) ∧
    (∀ st : BFSEngine, st.complete = true ∨ st.queue = [] →
      st.step = (none, st)) ∧
    (∀ st : DFSEngine, st.complete = true ∨ st.stack = [] →
      st.step = (none, st)) := by
  exact ⟨dijkstraStep_terminated, astarStep_terminated,
    bfsStep_terminated, dfsStep_terminated⟩

/-- C9 witness: concrete terminated engines (completion flag set, and a
DFS engine with an exhausted stack) all return `null` unchanged. -/
theorem c9_witness :
    ({ complete := true } : DijkstraEngine).step =
      (none, { complete := true }) ∧
    (({ complete := true } : AStarEngine).step (fun _ => 0) =
      (none, { complete := true })) ∧
    ({ complete := true } : BFSEngine).step = (none, { complete := true }) ∧
    ({ config := some triangleConfig, stack := [] } : DFSEngine).step =
      (none, { config := some triangleConfig, stack := [] }) := by
  exact ⟨c9_step_past_completion_idempotent.1 _ (Or.inl rfl),
    c9_step_past_completion_idempotent.2.1 _ _ (Or.inl rfl),
    c9_step_past_completion_idempotent.2.2.1 _ (Or.inl rfl),
    c9_step_past_completion_idempotent.2.2.2 _ (Or.inr rfl)⟩

/-! ## C10 -/

/-- Apply `step()` `n` times, collecting every call's return value. -/
def DijkstraEngine.iter : Nat → DijkstraEngine → List (Option PathStep) × DijkstraEngine
  | 0, st => ([], st)
  | n + 1, st =>
    let r := st.step
    let rest := DijkstraEngine.iter n r.2
    (r.1 :: rest.1, rest.2)

/-- Apply `step()` `n` times, collecting every call's return value. -/
def AStarEngine.iter (hfun : String → ℤ) :
    Nat → AStarEngine → List (Option PathStep) × AStarEngine
  | 0, st => ([], st)
  | n + 1, st =>
    let r := st.step hfun
    let rest := AStarEngine.iter hfun n r.2
    (r.1 :: rest.1, rest.2)

/-- Apply `step()` `n` times, collecting every call's return value. -/
def BFSEngine.iter : Nat → BFSEngine → List (Option PathStep) × BFSEngine
  | 0, st => ([], st)
  | n + 1, st =>
    let r := st.step
    let rest := BFSEngine.iter n r.2
    (r.1 :: rest.1, rest.2)

/-- Apply `step()` `n` times, collecting every call's return value. -/
def DFSEngine.iter : Nat → DFSEngine → List (Option PathStep) × DFSEngine
  | 0, st => ([], st)
  | n + 1, st =>
    let r := st.step
    let rest := DFSEngine.iter n r.2
    (r.1 :: rest.1, rest.2)

/-- The engine relaxation never touches the completion flag or the
stored config. -/
theorem dijkstraEngineRelaxOne_fields (currentNode : String) (st : DijkstraEngine)
    (nb : String × ℤ) :
    (DijkstraEngine.relaxOne currentNode st nb).complete = st.complete ∧
    (DijkstraEngine.relaxOne currentNode st nb).config = st.config := by
  unfold DijkstraEngine.relaxOne
  split
  · exact ⟨rfl, rfl⟩
  · simp only []
    split
    · split <;> exact ⟨rfl, rfl⟩
    · exact ⟨rfl, rfl⟩

/-- The engine relaxation over a neighbor list never touches the
completion flag or the stored config. -/
theorem dijkstraEngineRelax_fields (currentNode : String)
    (neighbors : List (String × ℤ)) :
    ∀ st : DijkstraEngine,
      (DijkstraEngine.relax currentNode st neighbors).complete = st.complete ∧
      (DijkstraEngine.relax currentNode st neighbors).config = st.config := by
  induction neighbors with
  | nil => intro st; exact ⟨rfl, rfl⟩
  | cons nb t ih =>
    intro st
    have h1 := dijkstraEngineRelaxOne_fields currentNode st nb
    have h2 := ih (DijkstraEngine.relaxOne currentNode st nb)
    exact ⟨h2.1.trans h1.1, h2.2.trans h1.2⟩

/-- After any number of skip-recursions, one `step()` call leaves the
config untouched and sets the completion flag exactly if it was
already set or the call's returned snapshot finalized the end node. -/
theorem dijkstraStepAux_complete (cfg : AlgorithmConfig) :
    ∀ (fuel : Nat) (st : DijkstraEngine), st.config = some cfg →
      (DijkstraEngine.stepAux fuel st).2.config = some cfg ∧
      ((DijkstraEngine.stepAux fuel st).2.complete = true ↔
        (st.complete = true ∨
          ∃ ps, (DijkstraEngine.stepAux fuel st).1 = some ps ∧
            ps.currentNode = cfg.endNode)) := by
  intro fuel
  induction fuel with
  | zero =>
    intro st hcfg
    refine ⟨hcfg, ?_⟩
    simp [DijkstraEngine.stepAux]
  | succ n ih =>
    intro st hcfg
    obtain ⟨cfg0, dist0, prev0, vis0, adj0, pq0, comp0⟩ := st
    simp only [] at hcfg
    subst hcfg
    unfold DijkstraEngine.stepAux
    simp only []
    split
    · next hc => exact ⟨rfl, by simp [hc]⟩
    · next hc =>
      split
      · next he =>
        refine ⟨rfl, ?_⟩
        simp only []
        constructor
        · intro hcon; exact Or.inl hcon
        · intro hor
          rcases hor with hl | ⟨ps, hps, _⟩
          · exact hl
          · cases hps
      · next he =>
        split
        · next hpop =>
          exact absurd ((MinHeap.pop_eq_none_iff _).mp hpop) he
        · next current pq' hpop =>
          skip
          split
          · next hv => exact ih _ rfl
          · next hv =>
            split
            · next hstale => exact ih _ rfl
            · next hstale =>
              split
              · next hend =>
                refine ⟨rfl, ?_⟩
                simp only []
                constructor
                · intro _; exact Or.inr ⟨_, rfl, hend⟩
                · intro _; trivial
              · next hend =>
                have hrelax := dijkstraEngineRelax_fields current.2
                  ((Smap.find? adj0 current.2).getD [])
                  { config := some cfg, distances := dist0, previousNodes := prev0,
                    visitedNodes := vis0.add current.2, adjacencyList := adj0,
                    pq := pq', complete := comp0 }
                refine ⟨hrelax.2, ?_⟩
                rw [hrelax.1]
                constructor
                · intro hcon
                  exact Or.inl hcon
                · intro hor
                  rcases hor with hl | ⟨ps, hps, hpsend⟩
                  · exact hl
                  · simp only [Option.some.injEq] at hps
                    rw [← hps] at hpsend
                    simp only [] at hpsend
                    exact absurd hpsend hend

/-- The A* engine relaxation never touches the completion flag or the
stored config. -/
theorem astarEngineRelaxOne_fields (hfun : String → ℤ) (currentNode : String)
    (st : AStarEngine) (nb : String × ℤ) :
    (AStarEngine.relaxOne hfun currentNode st nb).complete = st.complete ∧
    (AStarEngine.relaxOne hfun currentNode st nb).config = st.config := by
  unfold AStarEngine.relaxOne
  split
  · exact ⟨rfl, rfl⟩
  · simp only []
    split
    · split <;> exact ⟨rfl, rfl⟩
    · exact ⟨rfl, rfl⟩

/-- The A* engine relaxation over a neighbor list never touches the
completion flag or the stored config. -/
theorem astarEngineRelax_fields (hfun : String → ℤ) (currentNode : String)
    (neighbors : List (String × ℤ)) :
    ∀ st : AStarEngine,
      (AStarEngine.relax hfun currentNode st neighbors).complete = st.complete ∧
      (AStarEngine.relax hfun currentNode st neighbors).config = st.config := by
  induction neighbors with
  | nil => intro st; exact ⟨rfl, rfl⟩
  | cons nb t ih =>
    intro st
    have h1 := astarEngineRelaxOne_fields hfun currentNode st nb
    have h2 := ih (AStarEngine.relaxOne hfun currentNode st nb)
    exact ⟨h2.1.trans h1.1, h2.2.trans h1.2⟩

/-- One A* `step()` call: config untouched; the completion flag is set
exactly if it was already set or the returned snapshot finalized the
end node. -/
theorem astarStepAux_complete (hfun : String → ℤ) (cfg : AlgorithmConfig) :
    ∀ (fuel : Nat) (st : AStarEngine), st.config = some cfg →
      (AStarEngine.stepAux hfun fuel st).2.config = some cfg ∧
      ((AStarEngine.stepAux hfun fuel st).2.complete = true ↔
        (st.complete = true ∨
          ∃ ps, (AStarEngine.stepAux hfun fuel st).1 = some ps ∧
            ps.currentNode = cfg.endNode)) := by
  intro fuel
  induction fuel with
  | zero =>
    intro st hcfg
    refine ⟨hcfg, ?_⟩
    simp [AStarEngine.stepAux]
  | succ n ih =>
    intro st hcfg
    obtain ⟨cfg0, g0, f0, prev0, vis0, adj0, open0, comp0⟩ := st
    simp only [] at hcfg
    subst hcfg
    unfold AStarEngine.stepAux
    simp only []
    split
    · next hc => exact ⟨rfl, by simp [hc]⟩
    · next hc =>
      split
      · next he =>
        refine ⟨rfl, ?_⟩
        constructor
        · intro hcon; exact Or.inl hcon
        · intro hor
          rcases hor with hl | ⟨ps, hps, _⟩
          · exact hl
          · cases hps
      · next he =>
        split
        · next hpop =>
          exact absurd ((MinHeap.pop_eq_none_iff _).mp hpop) he
        · next current open' hpop =>
          skip
          split
          · next hv => exact ih _ rfl
          · next hv =>
            split
            · next hstale => exact ih _ rfl
            · next hstale =>
              split
              · next hend =>
                refine ⟨rfl, ?_⟩
                constructor
                · intro _; exact Or.inr ⟨_, rfl, hend⟩
                · intro _; trivial
              · next hend =>
                have hrelax := astarEngineRelax_fields hfun current.2
                  ((Smap.find? adj0 current.2).getD [])
                  { config := some cfg, gScore := g0, fScore := f0,
                    previousNodes := prev0,
                    visitedNodes := vis0.add current.2, adjacencyList := adj0,
                    openSet := open', complete := comp0 }
                refine ⟨hrelax.2, ?_⟩
                rw [hrelax.1]
                constructor
                · intro hcon
                  exact Or.inl hcon
                · intro hor
                  rcases hor with hl | ⟨ps, hps, hpsend⟩
                  · exact hl
                  · simp only [Option.some.injEq] at hps
                    rw [← hps] at hpsend
                    simp only [] at hpsend
                    exact absurd hpsend hend

/-- The BFS neighbor processing never touches the completion flag or
the stored config. -/
theorem bfsEngineEnqueueOne_fields (currentNode : String) (st : BFSEngine)
    (nb : String) :
    (BFSEngine.enqueueOne currentNode st nb).complete = st.complete ∧
    (BFSEngine.enqueueOne currentNode st nb).config = st.config := by
  unfold BFSEngine.enqueueOne
  split <;> exact ⟨rfl, rfl⟩

/-- The BFS neighbor processing over a list never touches the
completion flag or the stored config. -/
theorem bfsEngineEnqueue_fields (currentNode : String) (neighbors : List String) :
    ∀ st : BFSEngine,
      (BFSEngine.enqueueNeighbors currentNode st neighbors).complete = st.complete ∧
      (BFSEngine.enqueueNeighbors currentNode st neighbors).config = st.config := by
  induction neighbors with
  | nil => intro st; exact ⟨rfl, rfl⟩
  | cons nb t ih =>
    intro st
    have h1 := bfsEngineEnqueueOne_fields currentNode st nb
    have h2 := ih (BFSEngine.enqueueOne currentNode st nb)
    exact ⟨h2.1.trans h1.1, h2.2.trans h1.2⟩

/-- One BFS `step()` call: config untouched; the completion flag is set
exactly if it was already set or the returned snapshot finalized the
end node. -/
theorem bfsStep_complete (cfg : AlgorithmConfig) (st : BFSEngine)
    (hcfg : st.config = some cfg) :
    (st.step).2.config = some cfg ∧
    ((st.step).2.complete = true ↔
      (st.complete = true ∨
        ∃ ps, (st.step).1 = some ps ∧ ps.currentNode = cfg.endNode)) := by
  obtain ⟨cfg0, prev0, vis0, adj0, q0, comp0⟩ := st
  simp only [] at hcfg
  subst hcfg
  unfold BFSEngine.step
  simp only []
  split
  · next hc => exact ⟨rfl, by simp [hc]⟩
  · next hc =>
    split
    · refine ⟨rfl, ?_⟩
      constructor
      · intro hcon; exact Or.inl hcon
      · intro hor
        rcases hor with hl | ⟨ps, hps, _⟩
        · exact hl
        · cases hps
    · next currentNode queue' =>
      split
      · next hend =>
        refine ⟨rfl, ?_⟩
        constructor
        · intro _; exact Or.inr ⟨_, rfl, hend⟩
        · intro _; trivial
      · next hend =>
        have hrelax := bfsEngineEnqueue_fields currentNode
          ((Smap.find? adj0 currentNode).getD [])
          { config := some cfg, previousNodes := prev0,
            visitedNodes := vis0, adjacencyList := adj0,
            queue := queue', complete := comp0 }
        refine ⟨hrelax.2, ?_⟩
        rw [hrelax.1]
        constructor
        · intro hcon; exact Or.inl hcon
        · intro hor
          rcases hor with hl | ⟨ps, hps, hpsend⟩
          · exact hl
          · simp only [Option.some.injEq] at hps
            rw [← hps] at hpsend
            simp only [] at hpsend
            exact absurd hpsend hend

/-- The DFS neighbor push never touches the completion flag or the
stored config. -/
theorem dfsEnginePushOne_fields (currentNode : String) (st : DFSEngine)
    (nb : String) :
    (DFSEngine.pushOne currentNode st nb).complete = st.complete ∧
    (DFSEngine.pushOne currentNode st nb).config = st.config := by
  unfold DFSEngine.pushOne
  split <;> exact ⟨rfl, rfl⟩

/-- The DFS neighbor push over a list never touches the completion
flag or the stored config. -/
theorem dfsEnginePush_fields (currentNode : String) (neighbors : List String) :
    ∀ st : DFSEngine,
      (DFSEngine.pushNeighbors currentNode st neighbors).complete = st.complete ∧
      (DFSEngine.pushNeighbors currentNode st neighbors).config = st.config := by
  have haux : ∀ (l : List String) (st : DFSEngine),
      (l.foldl (DFSEngine.pushOne currentNode) st).complete = st.complete ∧
      (l.foldl (DFSEngine.pushOne currentNode) st).config = st.config := by
    intro l
    induction l with
    | nil => intro st; exact ⟨rfl, rfl⟩
    | cons nb t ih =>
      intro st
      have h1 := dfsEnginePushOne_fields currentNode st nb
      have h2 := ih (DFSEngine.pushOne currentNode st nb)
      exact ⟨h2.1.trans h1.1, h2.2.trans h1.2⟩
  intro st
  exact haux neighbors.reverse st

/-- One DFS `step()` call: config untouched; the completion flag is set
exactly if it was already set or the returned snapshot finalized the
end node. -/
theorem dfsStepAux_complete (cfg : AlgorithmConfig) :
    ∀ (fuel : Nat) (st : DFSEngine), st.config = some cfg →
      (DFSEngine.stepAux fuel st).2.config = some cfg ∧
      ((DFSEngine.stepAux fuel st).2.complete = true ↔
        (st.complete = true ∨
          ∃ ps, (DFSEngine.stepAux fuel st).1 = some ps ∧
            ps.currentNode = cfg.endNode)) := by
  intro fuel
  induction fuel with
  | zero =>
    intro st hcfg
    refine ⟨hcfg, ?_⟩
    simp [DFSEngine.stepAux]
  | succ n ih =>
    intro st hcfg
    obtain ⟨cfg0, prev0, vis0, adj0, stk0, comp0⟩ := st
    simp only [] at hcfg
    subst hcfg
    unfold DFSEngine.stepAux
    simp only []
    split
    · next hc => exact ⟨rfl, by simp [hc]⟩
    · next hc =>
      split
      · refine ⟨rfl, ?_⟩
        constructor
        · intro hcon; exact Or.inl hcon
        · intro hor
          rcases hor with hl | ⟨ps, hps, _⟩
          · exact hl
          · cases hps
      · next currentNode stack' =>
        split
        · next hv => exact ih _ rfl
        · next hv =>
          split
          · next hend =>
            refine ⟨rfl, ?_⟩
            constructor
            · intro _; exact Or.inr ⟨_, rfl, hend⟩
            · intro _; trivial
          · next hend =>
            have hrelax := dfsEnginePush_fields currentNode
              ((Smap.find? adj0 currentNode).getD [])
              { config := some cfg, previousNodes := prev0,
                visitedNodes := vis0.add currentNode, adjacencyList := adj0,
                stack := stack', complete := comp0 }
            refine ⟨hrelax.2, ?_⟩
            rw [hrelax.1]
            constructor
            · intro hcon; exact Or.inl hcon
            · intro hor
              rcases hor with hl | ⟨ps, hps, hpsend⟩
              · exact hl
              · simp only [Option.some.injEq] at hps
                rw [← hps] at hpsend
                simp only [] at hpsend
                exact absurd hpsend hend

/-- Iterating `step()`: config untouched; the completion flag is set
exactly if it was already set or some collected snapshot finalized the
end node. -/
theorem dijkstraIter_complete (cfg : AlgorithmConfig) :
    ∀ (n : Nat) (st : DijkstraEngine), st.config = some cfg →
      (DijkstraEngine.iter n st).2.config = some cfg ∧
      ((DijkstraEngine.iter n st).2.complete = true ↔
        (st.complete = true ∨
          ∃ ps, some ps ∈ (DijkstraEngine.iter n st).1 ∧
            ps.currentNode = cfg.endNode)) := by
  intro n
  induction n with
  | zero => intro st h; exact ⟨h, by simp [DijkstraEngine.iter]⟩
  | succ m ih =>
    intro st hcfg
    have hstep : (st.step).2.config = some cfg ∧
        ((st.step).2.complete = true ↔
          (st.complete = true ∨
            ∃ ps, (st.step).1 = some ps ∧ ps.currentNode = cfg.endNode)) :=
      dijkstraStepAux_complete cfg (st.pq.entries.length + 1) st hcfg
    have hiter := ih (st.step).2 hstep.1
    refine ⟨hiter.1, ?_⟩
    have hunfold : DijkstraEngine.iter (m + 1) st =
        ((st.step).1 :: (DijkstraEngine.iter m (st.step).2).1,
          (DijkstraEngine.iter m (st.step).2).2) := rfl
    rw [hunfold]
    simp only []
    constructor
    · intro h1
      rcases hiter.2.mp h1 with h2 | ⟨ps, hmem, hend⟩
      · rcases hstep.2.mp h2 with h3 | ⟨ps, hout, hend⟩
        · exact Or.inl h3
        · exact Or.inr ⟨ps, List.mem_cons.mpr (Or.inl hout.symm), hend⟩
      · exact Or.inr ⟨ps, List.mem_cons.mpr (Or.inr hmem), hend⟩
    · intro h1
      rcases h1 with h2 | ⟨ps, hmem, hend⟩
      · exact hiter.2.mpr (Or.inl (hstep.2.mpr (Or.inl h2)))
      · rcases List.mem_cons.mp hmem with hout | hmem'
        · exact hiter.2.mpr (Or.inl (hstep.2.mpr (Or.inr ⟨ps, hout.symm, hend⟩)))
        · exact hiter.2.mpr (Or.inr ⟨ps, hmem', hend⟩)

/-- Iterating A* `step()`: config untouched; completion flag
characterization. -/
theorem astarIter_complete (hfun : String → ℤ) (cfg : AlgorithmConfig) :
    ∀ (n : Nat) (st : AStarEngine), st.config = some cfg →
      (AStarEngine.iter hfun n st).2.config = some cfg ∧
      ((AStarEngine.iter hfun n st).2.complete = true ↔
        (st.complete = true ∨
          ∃ ps, some ps ∈ (AStarEngine.iter hfun n st).1 ∧
            ps.currentNode = cfg.endNode)) := by
  intro n
  induction n with
  | zero => intro st h; exact ⟨h, by simp [AStarEngine.iter]⟩
  | succ m ih =>
    intro st hcfg
    have hstep : (st.step hfun).2.config = some cfg ∧
        ((st.step hfun).2.complete = true ↔
          (st.complete = true ∨
            ∃ ps, (st.step hfun).1 = some ps ∧ ps.currentNode = cfg.endNode)) :=
      astarStepAux_complete hfun cfg (st.openSet.entries.length + 1) st hcfg
    have hiter := ih (st.step hfun).2 hstep.1
    refine ⟨hiter.1, ?_⟩
    have hunfold : AStarEngine.iter hfun (m + 1) st =
        ((st.step hfun).1 :: (AStarEngine.iter hfun m (st.step hfun).2).1,
          (AStarEngine.iter hfun m (st.step hfun).2).2) := rfl
    rw [hunfold]
    simp only []
    constructor
    · intro h1
      rcases hiter.2.mp h1 with h2 | ⟨ps, hmem, hend⟩
      · rcases hstep.2.mp h2 with h3 | ⟨ps, hout, hend⟩
        · exact Or.inl h3
        · exact Or.inr ⟨ps, List.mem_cons.mpr (Or.inl hout.symm), hend⟩
      · exact Or.inr ⟨ps, List.mem_cons.mpr (Or.inr hmem), hend⟩
    · intro h1
      rcases h1 with h2 | ⟨ps, hmem, hend⟩
      · exact hiter.2.mpr (Or.inl (hstep.2.mpr (Or.inl h2)))
      · rcases List.mem_cons.mp hmem with hout | hmem'
        · exact hiter.2.mpr (Or.inl (hstep.2.mpr (Or.inr ⟨ps, hout.symm, hend⟩)))
        · exact hiter.2.mpr (Or.inr ⟨ps, hmem', hend⟩)

/-- Iterating BFS `step()`: config untouched; completion flag
characterization. -/
theorem bfsIter_complete (cfg : AlgorithmConfig) :
    ∀ (n : Nat) (st : BFSEngine), st.config = some cfg →
      (BFSEngine.iter n st).2.config = some cfg ∧
      ((BFSEngine.iter n st).2.complete = true ↔
        (st.complete = true ∨
          ∃ ps, some ps ∈ (BFSEngine.iter n st).1 ∧
            ps.currentNode = cfg.endNode)) := by
  intro n
  induction n with
  | zero => intro st h; exact ⟨h, by simp [BFSEngine.iter]⟩
  | succ m ih =>
    intro st hcfg
    have hstep := bfsStep_complete cfg st hcfg
    have hiter := ih (st.step).2 hstep.1
    refine ⟨hiter.1, ?_⟩
    have hunfold : BFSEngine.iter (m + 1) st =
        ((st.step).1 :: (BFSEngine.iter m (st.step).2).1,
          (BFSEngine.iter m (st.step).2).2) := rfl
    rw [hunfold]
    simp only []
    constructor
    · intro h1
      rcases hiter.2.mp h1 with h2 | ⟨ps, hmem, hend⟩
      · rcases hstep.2.mp h2 with h3 | ⟨ps, hout, hend⟩
        · exact Or.inl h3
        · exact Or.inr ⟨ps, List.mem_cons.mpr (Or.inl hout.symm), hend⟩
      · exact Or.inr ⟨ps, List.mem_cons.mpr (Or.inr hmem), hend⟩
    · intro h1
      rcases h1 with h2 | ⟨ps, hmem, hend⟩
      · exact hiter.2.mpr (Or.inl (hstep.2.mpr (Or.inl h2)))
      · rcases List.mem_cons.mp hmem with hout | hmem'
        · exact hiter.2.mpr (Or.inl (hstep.2.mpr (Or.inr ⟨ps, hout.symm, hend⟩)))
        · exact hiter.2.mpr (Or.inr ⟨ps, hmem', hend⟩)

/-- Iterating DFS `step()`: config untouched; completion flag
characterization. -/
theorem dfsIter_complete (cfg : AlgorithmConfig) :
    ∀ (n : Nat) (st : DFSEngine), st.config = some cfg →
      (DFSEngine.iter n st).2.config = some cfg ∧
      ((DFSEngine.iter n st).2.complete = true ↔
        (st.complete = true ∨
          ∃ ps, some ps ∈ (DFSEngine.iter n st).1 ∧
            ps.currentNode = cfg.endNode)) := by
  intro n
  induction n with
  | zero => intro st h; exact ⟨h, by simp [DFSEngine.iter]⟩
  | succ m ih =>
    intro st hcfg
    have hstep : (st.step).2.config = some cfg ∧
        ((st.step).2.complete = true ↔
          (st.complete = true ∨
            ∃ ps, (st.step).1 = some ps ∧ ps.currentNode = cfg.endNode)) :=
      dfsStepAux_complete cfg (st.stack.length + 1) st hcfg
    have hiter := ih (st.step).2 hstep.1
    refine ⟨hiter.1, ?_⟩
    have hunfold : DFSEngine.iter (m + 1) st =
        ((st.step).1 :: (DFSEngine.iter m (st.step).2).1,
          (DFSEngine.iter m (st.step).2).2) := rfl
    rw [hunfold]
    simp only []
    constructor
    · intro h1
      rcases hiter.2.mp h1 with h2 | ⟨ps, hmem, hend⟩
      · rcases hstep.2.mp h2 with h3 | ⟨ps, hout, hend⟩
        · exact Or.inl h3
        · exact Or.inr ⟨ps, List.mem_cons.mpr (Or.inl hout.symm), hend⟩
      · exact Or.inr ⟨ps, List.mem_cons.mpr (Or.inr hmem), hend⟩
    · intro h1
      rcases h1 with h2 | ⟨ps, hmem, hend⟩
      · exact hiter.2.mpr (Or.inl (hstep.2.mpr (Or.inl h2)))
      · rcases List.mem_cons.mp hmem with hout | hmem'
        · exact hiter.2.mpr (Or.inl (hstep.2.mpr (Or.inr ⟨ps, hout.symm, hend⟩)))
        · exact hiter.2.mpr (Or.inr ⟨ps, hmem', hend⟩)

/-- An exhausted but not-completed Dijkstra engine stays frozen under
iteration: every call returns `null` and the state never changes. -/
theorem dijkstraIter_exhausted (st : DijkstraEngine)
    (hc : st.complete = false) (he : st.pq.isEmpty = true) :
    ∀ m, DijkstraEngine.iter m st = (List.replicate m none, st) := by
  intro m
  induction m with
  | zero => rfl
  | succ k ih =>
    have hterm := dijkstraStep_terminated st (Or.inr he)
    have : DijkstraEngine.iter (k + 1) st =
        ((st.step).1 :: (DijkstraEngine.iter k (st.step).2).1,
          (DijkstraEngine.iter k (st.step).2).2) := rfl
    rw [this, hterm]
    simp only [ih]
    rw [List.replicate_succ]

/-- An exhausted but not-completed A* engine stays frozen under
iteration. -/
theorem astarIter_exhausted (hfun : String → ℤ) (st : AStarEngine)
    (hc : st.complete = false) (he : st.openSet.isEmpty = true) :
    ∀ m, AStarEngine.iter hfun m st = (List.replicate m none, st) := by
  intro m
  induction m with
  | zero => rfl
  | succ k ih =>
    have hterm := astarStep_terminated hfun st (Or.inr he)
    have : AStarEngine.iter hfun (k + 1) st =
        ((st.step hfun).1 :: (AStarEngine.iter hfun k (st.step hfun).2).1,
          (AStarEngine.iter hfun k (st.step hfun).2).2) := rfl
    rw [this, hterm]
    simp only [ih]
    rw [List.replicate_succ]

/-- An exhausted but not-completed BFS engine stays frozen under
iteration. -/
theorem bfsIter_exhausted (st : BFSEngine)
    (hc : st.complete = false) (he : st.queue = []) :
    ∀ m, BFSEngine.iter m st = (List.replicate m none, st) := by
  intro m
  induction m with
  | zero => rfl
  | succ k ih =>
    have hterm := bfsStep_terminated st (Or.inr he)
    have : BFSEngine.iter (k + 1) st =
        ((st.step).1 :: (BFSEngine.iter k (st.step).2).1,
          (BFSEngine.iter k (st.step).2).2) := rfl
    rw [this, hterm]
    simp only [ih]
    rw [List.replicate_succ]

/-- An exhausted but not-completed DFS engine stays frozen under
iteration. -/
theorem dfsIter_exhausted (st : DFSEngine)
    (hc : st.complete = false) (he : st.stack = []) :
    ∀ m, DFSEngine.iter m st = (List.replicate m none, st) := by
  intro m
  induction m with
  | zero => rfl
  | succ k ih =>
    have hterm := dfsStep_terminated st (Or.inr he)
    have : DFSEngine.iter (k + 1) st =
        ((st.step).1 :: (DFSEngine.iter k (st.step).2).1,
          (DFSEngine.iter k (st.step).2).2) := rfl
    rw [this, hterm]
    simp only [ih]
    rw [List.replicate_succ]

/-- C10: for each initialized step-by-step engine, `isComplete()` is
true after `n` calls to `step()` exactly when one of those calls
returned a snapshot finalizing the end node; and an engine whose
frontier is exhausted without the completion flag set returns `null`
from every further `step()` while `isComplete()` stays false forever
(the state, flag included, never changes again) — so `isComplete()`
alone cannot distinguish an unreachable-target termination from a run
that has not finished. -/
theorem c10_isComplete_only_on_target :
    ((∀ (cfg : AlgorithmConfig) (n : Nat),
      ((DijkstraEngine.iter n (DijkstraEngine.init cfg)).2.complete = true ↔
        ∃ ps, some ps ∈ (DijkstraEngine.iter n (DijkstraEngine.init cfg)).1 ∧
          ps.currentNode = cfg.endNode)) ∧
     (∀ st : DijkstraEngine, st.complete = false → st.pq.isEmpty = true →
       ∀ m, DijkstraEngine.iter m st = (List.replicate m none, st))) ∧
    ((∀ (hfun : String → ℤ) (cfg : AlgorithmConfig) (n : Nat),
      ((AStarEngine.iter hfun n (AStarEngine.init hfun cfg)).2.complete = true ↔
        ∃ ps, some ps ∈ (AStarEngine.iter hfun n (AStarEngine.init hfun cfg)).1 ∧
          ps.currentNode = cfg.endNode)) ∧
     (∀ (hfun : String → ℤ) (st : AStarEngine),
       st.complete = false → st.openSet.isEmpty = true →
       ∀ m, AStarEngine.iter hfun m st = (List.replicate m none, st))) ∧
    ((∀ (cfg : AlgorithmConfig) (n : Nat),
      ((BFSEngine.iter n (BFSEngine.init cfg)).2.complete = true ↔
        ∃ ps, some ps ∈ (BFSEngine.iter n (BFSEngine.init cfg)).1 ∧
          ps.currentNode = cfg.endNode)) ∧
     (∀ st : BFSEngine, st.complete = false → st.queue = [] →
       ∀ m, BFSEngine.iter m st = (List.replicate m none, st))) ∧
    ((∀ (cfg : AlgorithmConfig) (n : Nat),
      ((DFSEngine.iter n (DFSEngine.init cfg)).2.complete = true ↔
        ∃ ps, some ps ∈ (DFSEngine.iter n (DFSEngine.init cfg)).1 ∧
          ps.currentNode = cfg.endNode)) ∧
     (∀ st : DFSEngine, st.complete = false → st.stack = [] →
       ∀ m, DFSEngine.iter m st = (List.replicate m none, st))) := by
  refine ⟨⟨?_, dijkstraIter_exhausted⟩, ⟨?_, astarIter_exhausted⟩,
    ⟨?_, bfsIter_exhausted⟩, ⟨?_, dfsIter_exhausted⟩⟩
  · intro cfg n
    have h := (dijkstraIter_complete cfg n (DijkstraEngine.init cfg) rfl).2
    rw [h]
    simp [DijkstraEngine.init]
  · intro hfun cfg n
    have h := (astarIter_complete hfun cfg n (AStarEngine.init hfun cfg) rfl).2
    rw [h]
    simp [AStarEngine.init]
  · intro cfg n
    have h := (bfsIter_complete cfg n (BFSEngine.init cfg) rfl).2
    rw [h]
    simp [BFSEngine.init]
  · intro cfg n
    have h := (dfsIter_complete cfg n (DFSEngine.init cfg) rfl).2
    rw [h]
    simp [DFSEngine.init]

/-- C10 witness: on the triangle graph, after three Dijkstra engine
steps the flag is set because the third snapshot finalized `c`; a
default (exhausted, incomplete) engine stays frozen for two further
calls. -/
theorem c10_witness :
    ((DijkstraEngine.iter 3 (DijkstraEngine.init triangleConfig)).2.complete = true ↔
      ∃ ps, some ps ∈ (DijkstraEngine.iter 3 (DijkstraEngine.init triangleConfig)).1 ∧
        ps.currentNode = "c") ∧
    DijkstraEngine.iter 2 { } = ([none, none], ({ } : DijkstraEngine)) := by
  constructor
  · exact c10_isComplete_only_on_target.1.1 triangleConfig 3
  · exact c10_isComplete_only_on_target.1.2 { } rfl rfl 2

/-! ## C5 -/

/-- `Map.set` then `Map.get` on the same key. -/
theorem Smap.find?_set_self {α : Type} (m : Smap α) (k : String) (v : α) :
    (m.set k v).find? k = some v := by
  induction m with
  | nil => simp [Smap.set, Smap.find?]
  | cons hd tl ih =>
    obtain ⟨k', v'⟩ := hd
    by_cases h : k' = k
    · simp [Smap.set, h, Smap.find?]
    · simp only [Smap.set, Smap.find?]
      rw [if_neg h]
      simp only [Smap.find?]
      rw [if_neg h]
      exact ih

/-- `Map.set` leaves other keys' lookups unchanged. -/
theorem Smap.find?_set_ne {α : Type} (m : Smap α) {k k' : String} (v : α)
    (h : k ≠ k') : (m.set k v).find? k' = m.find? k' := by
  induction m with
  | nil => simp [Smap.set, Smap.find?, h]
  | cons hd tl ih =>
    obtain ⟨k0, v0⟩ := hd
    by_cases h0 : k0 = k
    · simp only [Smap.set]
      rw [if_pos h0]
      simp only [Smap.find?]
      rw [if_neg h, if_neg (h0 ▸ h)]
    · simp only [Smap.set]
      rw [if_neg h0]
      simp only [Smap.find?]
      by_cases h1 : k0 = k'
      · rw [if_pos h1, if_pos h1]
      · rw [if_neg h1, if_neg h1]
        exact ih

/-- A per-node initialization fold leaves absent keys' lookups
unchanged. -/
theorem find?_nodesFold_notmem {α : Type} (f : Node → α) (k : String) :
    ∀ (nodes : List Node) (m : Smap α), k ∉ nodes.map Node.id →
      (nodes.foldl (fun m n => m.set n.id (f n)) m).find? k = m.find? k := by
  intro nodes
  induction nodes with
  | nil => intro m _; rfl
  | cons nd tl ih =>
    intro m hk
    simp only [List.map_cons, List.mem_cons, not_or] at hk
    have := ih (m.set nd.id (f nd)) hk.2
    rw [List.foldl_cons, this, Smap.find?_set_ne _ _ (fun hc => hk.1 hc.symm)]

/-- Lookups in the `null`-parent initialization map yield `undefined`
or `null`. -/
theorem find?_prevInit (k : String) :
    ∀ (nodes : List Node) (m : Smap (Option String)),
      ((nodes.foldl (fun m n => m.set n.id none) m).find? k = m.find? k) ∨
      ((nodes.foldl (fun m n => m.set n.id none) m).find? k = some none) := by
  intro nodes
  induction nodes with
  | nil => intro m; exact Or.inl rfl
  | cons nd tl ih =>
    intro m
    rw [List.foldl_cons]
    rcases ih (m.set nd.id none) with h | h
    · by_cases h0 : nd.id = k
      · rw [h, h0, Smap.find?_set_self]
        exact Or.inr rfl
      · rw [h, Smap.find?_set_ne _ _ h0]
        exact Or.inl rfl
    · exact Or.inr h

/-- The parent-of lookup on a freshly initialized parent map is always
"no parent". -/
theorem getParentJs_prevInit (nodes : List Node) (k : String) :
    getParentJs (nodes.foldl (fun m n => m.set n.id none) Smap.empty) k = none := by
  unfold getParentJs
  rcases find?_prevInit k nodes Smap.empty with h | h
  · rw [h]; rfl
  · rw [h]

/-- Reconstruction over a freshly initialized parent map: the walk
stops immediately, so only the trivial `start = query` path exists. -/
theorem reconstructPath_prevInit (nodes : List Node) (s e : String) :
    reconstructPath (nodes.foldl (fun m n => m.set n.id none) Smap.empty) s e =
      (if e = s then [s] else []) := by
  unfold reconstructPath
  have h2 : ∃ F, (nodes.foldl (fun m n => m.set n.id none)
      Smap.empty : Smap (Option String)).length + 2 = F + 1 := ⟨_, rfl⟩
  obtain ⟨F, hF⟩ := h2
  rw [hF]
  unfold reconstructWalk
  by_cases he : e = s
  · rw [if_pos he]
    simp [he]
  · rw [if_neg he, getParentJs_prevInit]
    simp [he]

/-- One edge-insertion step keeps an absent key absent. -/
theorem addEdgeW_preserves_none {k : String} {m : Smap (List (String × ℤ))}
    (h : m.find? k = none) (e : Edge) : (addEdgeW m e).find? k = none := by
  unfold addEdgeW
  cases h1 : m.find? e.fromId with
  | none =>
    simp only []
    cases h2 : m.find? e.toId with
    | none => exact h
    | some l =>
      have hne : e.toId ≠ k := by
        intro hc; rw [hc, h] at h2; cases h2
      rw [Smap.find?_set_ne _ _ hne]
      exact h
  | some l =>
    simp only []
    have hne1 : e.fromId ≠ k := by
      intro hc; rw [hc, h] at h1; cases h1
    have hm1 : (m.set e.fromId (l ++ [(e.toId, e.weight)])).find? k = none := by
      rw [Smap.find?_set_ne _ _ hne1]; exact h
    cases h2 : (m.set e.fromId (l ++ [(e.toId, e.weight)])).find? e.toId with
    | none => exact hm1
    | some l2 =>
      have hne2 : e.toId ≠ k := by
        intro hc
        rw [hc] at h2 hm1
        rw [hm1] at h2
        cases h2
      rw [Smap.find?_set_ne _ _ hne2]
      exact hm1

/-- One unweighted edge-insertion step keeps an absent key absent. -/
theorem addEdgeU_preserves_none {k : String} {m : Smap (List String)}
    (h : m.find? k = none) (e : Edge) : (addEdgeU m e).find? k = none := by
  unfold addEdgeU
  cases h1 : m.find? e.fromId with
  | none =>
    simp only []
    cases h2 : m.find? e.toId with
    | none => exact h
    | some l =>
      have hne : e.toId ≠ k := by
        intro hc; rw [hc, h] at h2; cases h2
      rw [Smap.find?_set_ne _ _ hne]
      exact h
  | some l =>
    simp only []
    have hne1 : e.fromId ≠ k := by
      intro hc; rw [hc, h] at h1; cases h1
    have hm1 : (m.set e.fromId (l ++ [e.toId])).find? k = none := by
      rw [Smap.find?_set_ne _ _ hne1]; exact h
    cases h2 : (m.set e.fromId (l ++ [e.toId])).find? e.toId with
    | none => exact hm1
    | some l2 =>
      have hne2 : e.toId ≠ k := by
        intro hc
        rw [hc] at h2 hm1
        rw [hm1] at h2
        cases h2
      rw [Smap.find?_set_ne _ _ hne2]
      exact hm1

/-- A key outside the node-id set is absent from the weighted
adjacency index. -/
theorem buildAdjacencyW_find?_notmem (g : Graph) (k : String)
    (hk : k ∉ nodeIds g) : (buildAdjacencyW g).find? k = none := by
  unfold buildAdjacencyW
  have hbase : (g.nodes.foldl (fun m n => m.set n.id []) Smap.empty :
      Smap (List (String × ℤ))).find? k = none :=
    find?_nodesFold_notmem (fun _ => []) k g.nodes Smap.empty hk
  have : ∀ (es : List Edge) (m : Smap (List (String × ℤ))), m.find? k = none →
      (es.foldl addEdgeW m).find? k = none := by
    intro es
    induction es with
    | nil => intro m h; exact h
    | cons e tl ih =>
      intro m h
      rw [List.foldl_cons]
      exact ih _ (addEdgeW_preserves_none h e)
  exact this g.edges _ hbase

/-- A key outside the node-id set is absent from the unweighted
adjacency index. -/
theorem buildAdjacencyU_find?_notmem (g : Graph) (k : String)
    (hk : k ∉ nodeIds g) : (buildAdjacencyU g).find? k = none := by
  unfold buildAdjacencyU
  have hbase : (g.nodes.foldl (fun m n => m.set n.id []) Smap.empty :
      Smap (List String)).find? k = none :=
    find?_nodesFold_notmem (fun _ => []) k g.nodes Smap.empty hk
  have : ∀ (es : List Edge) (m : Smap (List String)), m.find? k = none →
      (es.foldl addEdgeU m).find? k = none := by
    intro es
    induction es with
    | nil => intro m h; exact h
    | cons e tl ih =>
      intro m h
      rw [List.foldl_cons]
      exact ih _ (addEdgeU_preserves_none h e)
  exact this g.edges _ hbase

/-- A comparison against `undefined` is false whatever the left side. -/
theorem jsLt_none_right (x : Option QInf) : jsLt x none = false := by
  cases x <;> rfl

/-- A comparison against `undefined` is false whatever the right side. -/
theorem jsLt_none_left (x : Option QInf) : jsLt none x = false := by
  cases x <;> rfl

/-- The Dijkstra loop on a frontier holding only a start id that has no
distance entry and no adjacency entry: one finalizing iteration, then
exhaustion. -/
theorem dijkstraLoop_only_start (cfg : AlgorithmConfig)
    (adj : Smap (List (String × ℤ))) (F : Nat) (D : Smap QInf)
    (P : Smap (Option String)) (p0 : Option QInf)
    (hD : D.find? cfg.startNode = none)
    (hadj : adj.find? cfg.startNode = none) :
    dijkstraLoop cfg adj (F + 1 + 1)
      { distances := D, previousNodes := P, visitedNodes := [],
        pq := ⟨[(p0, cfg.startNode)]⟩, steps := [] } =
      { distances := D, previousNodes := P, visitedNodes := [cfg.startNode],
        pq := ⟨[]⟩,
        steps := [{ currentNode := cfg.startNode,
                    visitedNodes := [cfg.startNode],
                    previousNodes := P,
                    path := reconstructPath P cfg.startNode cfg.startNode,
                    isComplete := decide (cfg.startNode = cfg.endNode) }] } := by
  unfold dijkstraLoop
  have hpop : (MinHeap.pop ⟨[(p0, cfg.startNode)]⟩ :
      Option ((Option QInf × String) × MinHeap)) =
      some ((p0, cfg.startNode), ⟨[]⟩) := rfl
  rw [hpop]
  simp only []
  rw [if_neg (by simp [Sset.has])]
  by_cases he : cfg.startNode = cfg.endNode
  · rw [if_pos he]
    rfl
  · rw [if_neg he]
    have hstale : jsGt p0 (Smap.find? D cfg.startNode) = false := by
      rw [hD]
      unfold jsGt
      exact jsLt_none_left p0
    rw [hstale]
    simp only [Bool.false_eq_true, if_false]
    rw [hadj]
    simp only [Option.getD]
    unfold dijkstraLoop
    rfl

/-- The A* loop on a frontier holding only a start id that has no
fScore entry and no adjacency entry: one finalizing iteration, then
exhaustion. -/
theorem astarLoop_only_start (hfun : String → ℤ) (cfg : AlgorithmConfig)
    (adj : Smap (List (String × ℤ))) (F : Nat) (G Fs : Smap QInf)
    (P : Smap (Option String)) (p0 : Option QInf)
    (hF : Fs.find? cfg.startNode = none)
    (hadj : adj.find? cfg.startNode = none) :
    astarLoopH hfun cfg adj (F + 1 + 1)
      { gScore := G, fScore := Fs, previousNodes := P, visitedNodes := [],
        openSet := ⟨[(p0, cfg.startNode)]⟩, steps := [] } =
      { gScore := G, fScore := Fs, previousNodes := P,
        visitedNodes := [cfg.startNode], openSet := ⟨[]⟩,
        steps := [{ currentNode := cfg.startNode,
                    visitedNodes := [cfg.startNode],
                    previousNodes := P,
                    path := reconstructPath P cfg.startNode cfg.startNode,
                    isComplete := decide (cfg.startNode = cfg.endNode) }] } := by
  unfold astarLoopH
  have hpop : (MinHeap.pop ⟨[(p0, cfg.startNode)]⟩ :
      Option ((Option QInf × String) × MinHeap)) =
      some ((p0, cfg.startNode), ⟨[]⟩) := rfl
  rw [hpop]
  simp only []
  rw [if_neg (by simp [Sset.has])]
  by_cases he : cfg.startNode = cfg.endNode
  · rw [if_pos he]
    rfl
  · rw [if_neg he]
    have hstale : jsGt p0 (Smap.find? Fs cfg.startNode) = false := by
      rw [hF]
      unfold jsGt
      exact jsLt_none_left p0
    rw [hstale]
    simp only [Bool.false_eq_true, if_false]
    rw [hadj]
    simp only [Option.getD]
    unfold astarLoopH
    rfl

/-- The BFS loop on a queue holding only a start id with no adjacency
entry: one finalizing iteration, then exhaustion. -/
theorem bfsLoop_only_start (cfg : AlgorithmConfig)
    (adj : Smap (List String)) (F : Nat) (P : Smap (Option String))
    (hadj : adj.find? cfg.startNode = none) :
    bfsLoop cfg adj (F + 1 + 1)
      { previousNodes := P, visitedNodes := [cfg.startNode],
        queue := [cfg.startNode], steps := [] } =
      { previousNodes := P, visitedNodes := [cfg.startNode], queue := [],
        steps := [{ currentNode := cfg.startNode,
                    visitedNodes := [cfg.startNode],
                    previousNodes := P,
                    path := reconstructPath P cfg.startNode cfg.startNode,
                    isComplete := decide (cfg.startNode = cfg.endNode) }] } := by
  unfold bfsLoop
  simp only []
  by_cases he : cfg.startNode = cfg.endNode
  · rw [if_pos he]
    rfl
  · rw [if_neg he]
    rw [hadj]
    simp only [Option.getD]
    unfold bfsLoop
    rfl

/-- The DFS loop on a stack holding only a start id with no adjacency
entry: one finalizing iteration, then exhaustion. -/
theorem dfsLoop_only_start (cfg : AlgorithmConfig)
    (adj : Smap (List String)) (F : Nat) (P : Smap (Option String))
    (hadj : adj.find? cfg.startNode = none) :
    dfsLoop cfg adj (F + 1 + 1)
      { previousNodes := P, visitedNodes := [],
        stack := [cfg.startNode], steps := [] } =
      { previousNodes := P, visitedNodes := [cfg.startNode], stack := [],
        steps := [{ currentNode := cfg.startNode,
                    visitedNodes := [cfg.startNode],
                    previousNodes := P,
                    path := reconstructPath P cfg.startNode cfg.startNode,
                    isComplete := decide (cfg.startNode = cfg.endNode) }] } := by
  unfold dfsLoop
  simp only []
  rw [if_neg (by simp [Sset.has])]
  by_cases he : cfg.startNode = cfg.endNode
  · rw [if_pos he]
    rfl
  · rw [if_neg he]
    rw [hadj]
    simp only [Option.getD]
    unfold dfsLoop
    rfl

/-- A one-node graph used to exercise a missing start id. -/
def soloGraph : Graph := { nodes := [{ id := "a", x := 0, y := 0 }], edges := [] }

/-- C5 counterexample: with start id `z` absent from the one-node graph
`{a}`, batch Dijkstra still emits one PathStep (finalizing `z` itself)
and a singleton visited set — not the empty step sequence and empty
visited set the claim requires (the other three algorithms behave the
same way, as the amended theorem shows). -/
theorem c5_counterexample_missing_start_not_empty :
    (dijkstra { startNode := "z", endNode := "a", graph := soloGraph }).steps.length = 1 ∧
    (dijkstra { startNode := "z", endNode := "a", graph := soloGraph }).visitedNodes = ["z"] ∧
    (bfs { startNode := "z", endNode := "a", graph := soloGraph }).steps.length = 1 ∧
    (dfs { startNode := "z", endNode := "a", graph := soloGraph }).steps.length = 1 := by
  decide

/-- C5 amended: with a start id absent from the graph's node set, each
of the four algorithms finalizes exactly one node — the start id itself
(one emitted PathStep with the start as `currentNode`, visited set
`{start}`) — and the final path is `[start]` when the end id equals the
start and empty otherwise.  (The engine does "finalize" the seeded
start once before the frontier empties: the claimed empty step
sequence and empty visited set do not occur.) -/
theorem c5_missing_start_one_step (g : Graph) (s e : String) (hfun : String → ℤ)
    (hs : s ∉ nodeIds g) :
    ((dijkstra ⟨s, e, g⟩).steps.map PathStep.currentNode = [s] ∧
      (dijkstra ⟨s, e, g⟩).visitedNodes = [s] ∧
      (dijkstra ⟨s, e, g⟩).path = (if e = s then [s] else [])) ∧
    ((astarH hfun ⟨s, e, g⟩).steps.map PathStep.currentNode = [s] ∧
      (astarH hfun ⟨s, e, g⟩).visitedNodes = [s] ∧
      (astarH hfun ⟨s, e, g⟩).path = (if e = s then [s] else [])) ∧
    ((bfs ⟨s, e, g⟩).steps.map PathStep.currentNode = [s] ∧
      (bfs ⟨s, e, g⟩).visitedNodes = [s] ∧
      (bfs ⟨s, e, g⟩).path = (if e = s then [s] else [])) ∧
    ((dfs ⟨s, e, g⟩).steps.map PathStep.currentNode = [s] ∧
      (dfs ⟨s, e, g⟩).visitedNodes = [s] ∧
      (dfs ⟨s, e, g⟩).path = (if e = s then [s] else [])) := by
  obtain ⟨F, hF⟩ : ∃ F, loopFuel g = F + 1 + 1 := ⟨_, rfl⟩
  have hadjW : (buildAdjacencyW g).find? s = none := buildAdjacencyW_find?_notmem g s hs
  have hadjU : (buildAdjacencyU g).find? s = none := buildAdjacencyU_find?_notmem g s hs
  refine ⟨?_, ?_, ?_, ?_⟩
  · have hD : Smap.find? (dijkstraInit ⟨s, e, g⟩).distances s = none :=
      find?_nodesFold_notmem (fun n => if n.id = s then (0 : QInf) else ⊤) s
        g.nodes Smap.empty hs
    have hrun : dijkstraLoop ⟨s, e, g⟩ (buildAdjacencyW g) (loopFuel g)
        (dijkstraInit ⟨s, e, g⟩) =
        { distances := (dijkstraInit ⟨s, e, g⟩).distances,
          previousNodes := (dijkstraInit ⟨s, e, g⟩).previousNodes,
          visitedNodes := [s], pq := ⟨[]⟩,
          steps := [{ currentNode := s, visitedNodes := [s],
                      previousNodes := (dijkstraInit ⟨s, e, g⟩).previousNodes,
                      path := reconstructPath
                        (dijkstraInit ⟨s, e, g⟩).previousNodes s s,
                      isComplete := decide (s = e) }] } := by
      rw [hF]
      exact dijkstraLoop_only_start ⟨s, e, g⟩ (buildAdjacencyW g) F _ _ (some 0) hD hadjW
    refine ⟨?_, ?_, ?_⟩
    · show (dijkstraLoop ⟨s, e, g⟩ (buildAdjacencyW g) (loopFuel g)
        (dijkstraInit ⟨s, e, g⟩)).steps.map PathStep.currentNode = [s]
      rw [hrun]
      rfl
    · show (dijkstraLoop ⟨s, e, g⟩ (buildAdjacencyW g) (loopFuel g)
        (dijkstraInit ⟨s, e, g⟩)).visitedNodes = [s]
      rw [hrun]
    · show reconstructPath (dijkstraLoop ⟨s, e, g⟩ (buildAdjacencyW g) (loopFuel g)
        (dijkstraInit ⟨s, e, g⟩)).previousNodes s e = (if e = s then [s] else [])
      rw [hrun]
      exact reconstructPath_prevInit g.nodes s e
  · have hFs : Smap.find? (astarInitH hfun ⟨s, e, g⟩).fScore s = none :=
      find?_nodesFold_notmem
        (fun n => if n.id = s then ((hfun n.id : ℤ) : QInf) else ⊤) s
        g.nodes Smap.empty hs
    have hrun : astarLoopH hfun ⟨s, e, g⟩ (buildAdjacencyW g) (loopFuel g)
        (astarInitH hfun ⟨s, e, g⟩) =
        { gScore := (astarInitH hfun ⟨s, e, g⟩).gScore,
          fScore := (astarInitH hfun ⟨s, e, g⟩).fScore,
          previousNodes := (astarInitH hfun ⟨s, e, g⟩).previousNodes,
          visitedNodes := [s], openSet := ⟨[]⟩,
          steps := [{ currentNode := s, visitedNodes := [s],
                      previousNodes := (astarInitH hfun ⟨s, e, g⟩).previousNodes,
                      path := reconstructPath
                        (astarInitH hfun ⟨s, e, g⟩).previousNodes s s,
                      isComplete := decide (s = e) }] } := by
      rw [hF]
      exact astarLoop_only_start hfun ⟨s, e, g⟩ (buildAdjacencyW g) F _ _ _
        (Smap.find? (astarInitH hfun ⟨s, e, g⟩).fScore s) hFs hadjW
    refine ⟨?_, ?_, ?_⟩
    · show (astarLoopH hfun ⟨s, e, g⟩ (buildAdjacencyW g) (loopFuel g)
        (astarInitH hfun ⟨s, e, g⟩)).steps.map PathStep.currentNode = [s]
      rw [hrun]
      rfl
    · show (astarLoopH hfun ⟨s, e, g⟩ (buildAdjacencyW g) (loopFuel g)
        (astarInitH hfun ⟨s, e, g⟩)).visitedNodes = [s]
      rw [hrun]
    · show reconstructPath (astarLoopH hfun ⟨s, e, g⟩ (buildAdjacencyW g) (loopFuel g)
        (astarInitH hfun ⟨s, e, g⟩)).previousNodes s e = (if e = s then [s] else [])
      rw [hrun]
      exact reconstructPath_prevInit g.nodes s e
  · have hrun : bfsLoop ⟨s, e, g⟩ (buildAdjacencyU g) (loopFuel g)
        (bfsInit ⟨s, e, g⟩) =
        { previousNodes := (bfsInit ⟨s, e, g⟩).previousNodes,
          visitedNodes := [s], queue := [],
          steps := [{ currentNode := s, visitedNodes := [s],
                      previousNodes := (bfsInit ⟨s, e, g⟩).previousNodes,
                      path := reconstructPath
                        (bfsInit ⟨s, e, g⟩).previousNodes s s,
                      isComplete := decide (s = e) }] } := by
      rw [hF]
      exact bfsLoop_only_start ⟨s, e, g⟩ (buildAdjacencyU g) F _ hadjU
    refine ⟨?_, ?_, ?_⟩
    · show (bfsLoop ⟨s, e, g⟩ (buildAdjacencyU g) (loopFuel g)
        (bfsInit ⟨s, e, g⟩)).steps.map PathStep.currentNode = [s]
      rw [hrun]
      rfl
    · show (bfsLoop ⟨s, e, g⟩ (buildAdjacencyU g) (loopFuel g)
        (bfsInit ⟨s, e, g⟩)).visitedNodes = [s]
      rw [hrun]
    · show reconstructPath (bfsLoop ⟨s, e, g⟩ (buildAdjacencyU g) (loopFuel g)
        (bfsInit ⟨s, e, g⟩)).previousNodes s e = (if e = s then [s] else [])
      rw [hrun]
      exact reconstructPath_prevInit g.nodes s e
  · have hrun : dfsLoop ⟨s, e, g⟩ (buildAdjacencyU g) (loopFuel g)
        (dfsInit ⟨s, e, g⟩) =
        { previousNodes := (dfsInit ⟨s, e, g⟩).previousNodes,
          visitedNodes := [s], stack := [],
          steps := [{ currentNode := s, visitedNodes := [s],
                      previousNodes := (dfsInit ⟨s, e, g⟩).previousNodes,
                      path := reconstructPath
                        (dfsInit ⟨s, e, g⟩).previousNodes s s,
                      isComplete := decide (s = e) }] } := by
      rw [hF]
      exact dfsLoop_only_start ⟨s, e, g⟩ (buildAdjacencyU g) F _ hadjU
    refine ⟨?_, ?_, ?_⟩
    · show (dfsLoop ⟨s, e, g⟩ (buildAdjacencyU g) (loopFuel g)
        (dfsInit ⟨s, e, g⟩)).steps.map PathStep.currentNode = [s]
      rw [hrun]
      rfl
    · show (dfsLoop ⟨s, e, g⟩ (buildAdjacencyU g) (loopFuel g)
        (dfsInit ⟨s, e, g⟩)).visitedNodes = [s]
      rw [hrun]
    · show reconstructPath (dfsLoop ⟨s, e, g⟩ (buildAdjacencyU g) (loopFuel g)
        (dfsInit ⟨s, e, g⟩)).previousNodes s e = (if e = s then [s] else [])
      rw [hrun]
      exact reconstructPath_prevInit g.nodes s e

/-- C5 witness: the amended theorem applied to the one-node graph with
the missing start `z`. -/
theorem c5_witness :
    "z" ∉ nodeIds soloGraph ∧
    (dijkstra ⟨"z", "a", soloGraph⟩).steps.map PathStep.currentNode = ["z"] ∧
    (bfs ⟨"z", "a", soloGraph⟩).visitedNodes = ["z"] ∧
    (dfs ⟨"z", "a", soloGraph⟩).path = [] := by
  have h := c5_missing_start_one_step soloGraph "z" "a" (fun _ => 0) (by decide)
  refine ⟨by decide, h.1.1, h.2.2.1.2.1, ?_⟩
  have := h.2.2.2.2.2
  simpa using this

/-! ## C4 -/

/-- What extract-min returns was in the frontier, and what remains was
too. -/
theorem popMinAux_mem {l : List (Option QInf × String)}
    {e : Option QInf × String} {rest : List (Option QInf × String)}
    (h : popMinAux l = some (e, rest)) :
    e ∈ l ∧ ∀ x ∈ rest, x ∈ l := by
  induction l generalizing e rest with
  | nil => simp [popMinAux] at h
  | cons a t ih =>
    simp only [popMinAux] at h
    cases ht : popMinAux t with
    | none =>
      rw [ht] at h
      simp only [Option.some.injEq, Prod.mk.injEq] at h
      constructor
      · rw [← h.1]; exact List.mem_cons_self a t
      · intro x hx; rw [← h.2] at hx; cases hx
    | some p =>
      obtain ⟨m, rest'⟩ := p
      rw [ht] at h
      simp only [] at h
      by_cases hc : jsLt m.1 a.1 = true
      · rw [if_pos hc] at h
        simp only [Option.some.injEq, Prod.mk.injEq] at h
        have hm := @ih m rest' ht
        constructor
        · rw [← h.1]; exact List.mem_cons_of_mem a hm.1
        · intro x hx
          rw [← h.2] at hx
          rcases List.mem_cons.mp hx with h1 | hx'
          · rw [h1]; exact List.mem_cons_self _ t
          · exact List.mem_cons_of_mem a (hm.2 x hx')
      · rw [if_neg hc] at h
        simp only [Option.some.injEq, Prod.mk.injEq] at h
        constructor
        · rw [← h.1]; exact List.mem_cons_self a t
        · intro x hx; rw [← h.2] at hx; exact List.mem_cons_of_mem a hx

/-- `MinHeap.pop` returns a frontier element and a sub-frontier. -/
theorem MinHeap.pop_mem {h : MinHeap} {e : Option QInf × String} {h' : MinHeap}
    (hp : h.pop = some (e, h')) :
    e ∈ h.entries ∧ ∀ x ∈ h'.entries, x ∈ h.entries := by
  unfold MinHeap.pop at hp
  cases hm : popMinAux h.entries with
  | none => rw [hm] at hp; cases hp
  | some p =>
    rw [hm] at hp
    obtain ⟨e0, r0⟩ := p
    simp only [Option.some.injEq, Prod.mk.injEq] at hp
    obtain ⟨rfl, rfl⟩ := hp
    exact popMinAux_mem hm

/-- A lookup after `set` either hits the new key or an old binding. -/
theorem Smap.find?_set_cases {α : Type} {m : Smap α} {k0 k : String} {v0 v : α}
    (h : (m.set k0 v0).find? k = some v) : k = k0 ∨ m.find? k = some v := by
  by_cases hk : k0 = k
  · exact Or.inl hk.symm
  · right
    rw [Smap.find?_set_ne _ _ hk] at h
    exact h

/-- Membership after `Set.add`. -/
theorem Sset.mem_add {s : Sset} {k x : String} (h : x ∈ s.add k) :
    x ∈ s ∨ x = k := by
  unfold Sset.add at h
  by_cases hc : s.has k = true
  · rw [if_pos hc] at h; exact Or.inl h
  · rw [if_neg hc] at h
    rcases List.mem_append.mp h with h1 | h1
    · exact Or.inl h1
    · right; simpa using h1

/-- The confinement invariant of a Dijkstra run: every frontier entry,
every visited id, every emitted snapshot's `currentNode` is the start
id or a node of the graph, and every id with a recorded distance is a
node of the graph. -/
def ConfinedD (cfg : AlgorithmConfig) (st : DState) : Prop :=
  (∀ pr ∈ st.pq.entries, pr.2 ∈ cfg.startNode :: nodeIds cfg.graph) ∧
  (∀ v ∈ st.visitedNodes, v ∈ cfg.startNode :: nodeIds cfg.graph) ∧
  (∀ ps ∈ st.steps, ps.currentNode ∈ cfg.startNode :: nodeIds cfg.graph) ∧
  (∀ k v, st.distances.find? k = some v → k ∈ nodeIds cfg.graph)

/-- One relaxation step preserves confinement: a neighbor is pushed
only when its recorded distance improves, which requires the neighbor
to have a distance entry, i.e. to be a node of the graph. -/
theorem dijkstraRelaxOne_confined (cfg : AlgorithmConfig) (currentNode : String)
    (st : DState) (nb : String × ℤ) (h : ConfinedD cfg st) :
    ConfinedD cfg (dijkstraRelaxOne currentNode st nb) := by
  obtain ⟨hpq, hvis, hsteps, hdist⟩ := h
  unfold dijkstraRelaxOne
  split
  · exact ⟨hpq, hvis, hsteps, hdist⟩
  · simp only []
    split
    · next hlt =>
      have hnb : nb.1 ∈ nodeIds cfg.graph := by
        cases hfind : st.distances.find? nb.1 with
        | none =>
          rw [hfind, jsLt_none_right] at hlt
          cases hlt
        | some v => exact hdist nb.1 v hfind
      split
      · refine ⟨?_, hvis, hsteps, ?_⟩
        · intro pr hpr
          rcases List.mem_append.mp hpr with h1 | h1
          · exact hpq pr h1
          · simp only [List.mem_singleton] at h1
            rw [h1]
            exact List.mem_cons_of_mem _ hnb
        · intro k v hk
          rcases Smap.find?_set_cases hk with h1 | h1
          · rw [h1]; exact hnb
          · exact hdist k v h1
      · exact ⟨hpq, hvis, hsteps, hdist⟩
    · exact ⟨hpq, hvis, hsteps, hdist⟩

/-- Relaxation over a neighbor list preserves confinement. -/
theorem dijkstraRelax_confined (cfg : AlgorithmConfig) (currentNode : String)
    (neighbors : List (String × ℤ)) :
    ∀ st : DState, ConfinedD cfg st →
      ConfinedD cfg (dijkstraRelax currentNode st neighbors) := by
  induction neighbors with
  | nil => intro st h; exact h
  | cons nb t ih =>
    intro st h
    exact ih _ (dijkstraRelaxOne_confined cfg currentNode st nb h)

/-- The whole Dijkstra loop preserves confinement. -/
theorem dijkstraLoop_confined (cfg : AlgorithmConfig)
    (adj : Smap (List (String × ℤ))) :
    ∀ (fuel : Nat) (st : DState), ConfinedD cfg st →
      ConfinedD cfg (dijkstraLoop cfg adj fuel st) := by
  intro fuel
  induction fuel with
  | zero => intro st h; exact h
  | succ n ih =>
    intro st h
    obtain ⟨hpq, hvis, hsteps, hdist⟩ := h
    unfold dijkstraLoop
    cases hpop : st.pq.pop with
    | none => exact ⟨hpq, hvis, hsteps, hdist⟩
    | some pr =>
      obtain ⟨current, pq'⟩ := pr
      have hmem := MinHeap.pop_mem hpop
      have hcur : current.2 ∈ cfg.startNode :: nodeIds cfg.graph :=
        hpq current hmem.1
      have hpq' : ∀ x ∈ pq'.entries, x.2 ∈ cfg.startNode :: nodeIds cfg.graph :=
        fun x hx => hpq x (hmem.2 x hx)
      simp only []
      split
      · exact ih _ ⟨hpq', hvis, hsteps, hdist⟩
      · next hv =>
        have hvis' : ∀ v ∈ Sset.add st.visitedNodes current.2,
            v ∈ cfg.startNode :: nodeIds cfg.graph := by
          intro v hvm
          rcases Sset.mem_add hvm with h1 | h1
          · exact hvis v h1
          · rw [h1]; exact hcur
        have hsteps' : ∀ ps ∈ st.steps ++
            [{ currentNode := current.2,
               visitedNodes := Sset.add st.visitedNodes current.2,
               previousNodes := st.previousNodes,
               path := reconstructPath st.previousNodes cfg.startNode current.2,
               isComplete := decide (current.2 = cfg.endNode) }],
            PathStep.currentNode ps ∈ cfg.startNode :: nodeIds cfg.graph := by
          intro ps hps
          rcases List.mem_append.mp hps with h1 | h1
          · exact hsteps ps h1
          · simp only [List.mem_singleton] at h1
            rw [h1]
            exact hcur
        split
        · exact ⟨hpq', hvis', hsteps', hdist⟩
        · split
          · exact ih _ ⟨hpq', hvis', hsteps', hdist⟩
          · exact ih _ (dijkstraRelax_confined cfg current.2 _ _
              ⟨hpq', hvis', hsteps', hdist⟩)

/-- The confinement invariant of an A* run. -/
def ConfinedA (cfg : AlgorithmConfig) (st : AState) : Prop :=
  (∀ pr ∈ st.openSet.entries, pr.2 ∈ cfg.startNode :: nodeIds cfg.graph) ∧
  (∀ v ∈ st.visitedNodes, v ∈ cfg.startNode :: nodeIds cfg.graph) ∧
  (∀ ps ∈ st.steps, ps.currentNode ∈ cfg.startNode :: nodeIds cfg.graph) ∧
  (∀ k v, st.gScore.find? k = some v → k ∈ nodeIds cfg.graph)

/-- One A* relaxation step preserves confinement (the `tentativeG <
gScore.get(neighbor)` guard requires a gScore entry, i.e. a node). -/
theorem astarRelaxOne_confined (hfun : String → ℤ) (cfg : AlgorithmConfig)
    (currentNode : String) (st : AState) (nb : String × ℤ) (h : ConfinedA cfg st) :
    ConfinedA cfg (astarRelaxOneH hfun currentNode st nb) := by
  obtain ⟨hpq, hvis, hsteps, hdist⟩ := h
  unfold astarRelaxOneH
  split
  · exact ⟨hpq, hvis, hsteps, hdist⟩
  · simp only []
    split
    · next hlt =>
      have hnb : nb.1 ∈ nodeIds cfg.graph := by
        cases hfind : st.gScore.find? nb.1 with
        | none =>
          rw [hfind, jsLt_none_right] at hlt
          cases hlt
        | some v => exact hdist nb.1 v hfind
      split
      · refine ⟨?_, hvis, hsteps, ?_⟩
        · intro pr hpr
          rcases List.mem_append.mp hpr with h1 | h1
          · exact hpq pr h1
          · simp only [List.mem_singleton] at h1
            rw [h1]
            exact List.mem_cons_of_mem _ hnb
        · intro k v hk
          rcases Smap.find?_set_cases hk with h1 | h1
          · rw [h1]; exact hnb
          · exact hdist k v h1
      · exact ⟨hpq, hvis, hsteps, hdist⟩
    · exact ⟨hpq, hvis, hsteps, hdist⟩

/-- A* relaxation over a neighbor list preserves confinement. -/
theorem astarRelax_confined (hfun : String → ℤ) (cfg : AlgorithmConfig)
    (currentNode : String) (neighbors : List (String × ℤ)) :
    ∀ st : AState, ConfinedA cfg st →
      ConfinedA cfg (astarRelaxH hfun currentNode st neighbors) := by
  induction neighbors with
  | nil => intro st h; exact h
  | cons nb t ih =>
    intro st h
    exact ih _ (astarRelaxOne_confined hfun cfg currentNode st nb h)

/-- The whole A* loop preserves confinement. -/
theorem astarLoop_confined (hfun : String → ℤ) (cfg : AlgorithmConfig)
    (adj : Smap (List (String × ℤ))) :
    ∀ (fuel : Nat) (st : AState), ConfinedA cfg st →
      ConfinedA cfg (astarLoopH hfun cfg adj fuel st) := by
  intro fuel
  induction fuel with
  | zero => intro st h; exact h
  | succ n ih =>
    intro st h
    obtain ⟨hpq, hvis, hsteps, hdist⟩ := h
    unfold astarLoopH
    cases hpop : st.openSet.pop with
    | none => exact ⟨hpq, hvis, hsteps, hdist⟩
    | some pr =>
      obtain ⟨current, open'⟩ := pr
      have hmem := MinHeap.pop_mem hpop
      have hcur : current.2 ∈ cfg.startNode :: nodeIds cfg.graph :=
        hpq current hmem.1
      have hpq' : ∀ x ∈ open'.entries, x.2 ∈ cfg.startNode :: nodeIds cfg.graph :=
        fun x hx => hpq x (hmem.2 x hx)
      simp only []
      split
      · exact ih _ ⟨hpq', hvis, hsteps, hdist⟩
      · next hv =>
        have hvis' : ∀ v ∈ Sset.add st.visitedNodes current.2,
            v ∈ cfg.startNode :: nodeIds cfg.graph := by
          intro v hvm
          rcases Sset.mem_add hvm with h1 | h1
          · exact hvis v h1
          · rw [h1]; exact hcur
        have hsteps' : ∀ ps ∈ st.steps ++
            [{ currentNode := current.2,
               visitedNodes := Sset.add st.visitedNodes current.2,
               previousNodes := st.previousNodes,
               path := reconstructPath st.previousNodes cfg.startNode current.2,
               isComplete := decide (current.2 = cfg.endNode) }],
            PathStep.currentNode ps ∈ cfg.startNode :: nodeIds cfg.graph := by
          intro ps hps
          rcases List.mem_append.mp hps with h1 | h1
          · exact hsteps ps h1
          · simp only [List.mem_singleton] at h1
            rw [h1]
            exact hcur
        split
        · exact ⟨hpq', hvis', hsteps', hdist⟩
        · split
          · exact ih _ ⟨hpq', hvis', hsteps', hdist⟩
          · exact ih _ (astarRelax_confined hfun cfg current.2 _ _
              ⟨hpq', hvis', hsteps', hdist⟩)

/-- A two-node graph whose single edge dangles into the missing id
`x`. -/
def danglingGraph : Graph :=
  { nodes := [{ id := "a", x := 0, y := 0 }, { id := "b", x := 3, y := 0 }],
    edges := [{ fromId := "a", toId := "x", weight := 1 }] }

/-- C4 counterexample: `bfs` on the dangling graph enqueues, visits and
finalizes the missing id `x` — its second PathStep's `currentNode` is
`x`, which is outside the node-id set, and `x` ends up in the final
visited set; the batch `dfs` does the same.  So dangling endpoints are
not dropped by those algorithms. -/
theorem c4_counterexample_bfs_visits_dangling :
    (bfs { startNode := "a", endNode := "b", graph := danglingGraph }).steps.map
      PathStep.currentNode = ["a", "x"] ∧
    "x" ∈ (bfs { startNode := "a", endNode := "b", graph := danglingGraph }).visitedNodes ∧
    "x" ∉ nodeIds danglingGraph ∧
    (dfs { startNode := "a", endNode := "b", graph := danglingGraph }).steps.map
      PathStep.currentNode = ["a", "x"] := by
  decide

/-- C4 amended: Dijkstra and A* do tolerate dangling edge endpoints and
confine all work to real nodes — for every graph, start and end, every
emitted PathStep's `currentNode` and every visited id is the start id
or a graph node (a dangling neighbor never improves a distance entry,
so it never enters the frontier); BFS and the batch DFS, by contrast,
enqueue dangling endpoint ids and finalize them (see the
counterexample), though every algorithm still completes without
error. -/
theorem c4_dangling_confinement (cfg : AlgorithmConfig) (hfun : String → ℤ) :
    ((∀ ps ∈ (dijkstra cfg).steps,
        ps.currentNode ∈ cfg.startNode :: nodeIds cfg.graph) ∧
      (∀ v ∈ (dijkstra cfg).visitedNodes,
        v ∈ cfg.startNode :: nodeIds cfg.graph)) ∧
    ((∀ ps ∈ (astarH hfun cfg).steps,
        ps.currentNode ∈ cfg.startNode :: nodeIds cfg.graph) ∧
      (∀ v ∈ (astarH hfun cfg).visitedNodes,
        v ∈ cfg.startNode :: nodeIds cfg.graph)) := by
  have hinitD : ConfinedD cfg (dijkstraInit cfg) := by
    refine ⟨?_, ?_, ?_, ?_⟩
    · intro pr hpr
      simp only [dijkstraInit] at hpr
      rcases List.mem_append.mp hpr with h1 | h1
      · cases h1
      · simp only [List.mem_singleton] at h1
        rw [h1]
        exact List.mem_cons_self _ _
    · intro v hv; cases hv
    · intro ps hps; cases hps
    · intro k v hk
      by_contra hknot
      rw [show (dijkstraInit cfg).distances = cfg.graph.nodes.foldl
          (fun m n => m.set n.id
            (if n.id = cfg.startNode then (0 : QInf) else ⊤)) Smap.empty from rfl,
        find?_nodesFold_notmem _ k cfg.graph.nodes Smap.empty hknot] at hk
      cases hk
  have hinitA : ConfinedA cfg (astarInitH hfun cfg) := by
    refine ⟨?_, ?_, ?_, ?_⟩
    · intro pr hpr
      simp only [astarInitH] at hpr
      rcases List.mem_append.mp hpr with h1 | h1
      · cases h1
      · simp only [List.mem_singleton] at h1
        rw [h1]
        exact List.mem_cons_self _ _
    · intro v hv; cases hv
    · intro ps hps; cases hps
    · intro k v hk
      by_contra hknot
      rw [show (astarInitH hfun cfg).gScore = cfg.graph.nodes.foldl
          (fun m n => m.set n.id
            (if n.id = cfg.startNode then (0 : QInf) else ⊤)) Smap.empty from rfl,
        find?_nodesFold_notmem _ k cfg.graph.nodes Smap.empty hknot] at hk
      cases hk
  have hD := dijkstraLoop_confined cfg (buildAdjacencyW cfg.graph)
    (loopFuel cfg.graph) (dijkstraInit cfg) hinitD
  have hA := astarLoop_confined hfun cfg (buildAdjacencyW cfg.graph)
    (loopFuel cfg.graph) (astarInitH hfun cfg) hinitA
  exact ⟨⟨hD.2.2.1, hD.2.1⟩, ⟨hA.2.2.1, hA.2.1⟩⟩

/-- C4 witness: on the dangling graph, Dijkstra's visited set is
exactly `{a}`, and membership of `a` is confirmed through the
confinement theorem. -/
theorem c4_witness :
    "a" ∈ (dijkstra { startNode := "a", endNode := "b", graph := danglingGraph }).visitedNodes ∧
    "a" ∈ ("a" :: nodeIds danglingGraph) ∧
    (dijkstra { startNode := "a", endNode := "b", graph := danglingGraph }).visitedNodes = ["a"] := by
  refine ⟨by decide, ?_, by decide⟩
  exact (c4_dangling_confinement
    { startNode := "a", endNode := "b", graph := danglingGraph }
    (fun _ => 0)).1.2 "a" (by decide)

/-! ## C8 -/

/-- Snapshot-to-snapshot visited-set inclusion. -/
def StepSub (a b : PathStep) : Prop := ∀ x ∈ a.visitedNodes, x ∈ b.visitedNodes

/-- `Set.add` contains the added element. -/
theorem Sset.mem_add_self (s : Sset) (k : String) : k ∈ s.add k := by
  unfold Sset.add
  by_cases hc : s.has k = true
  · rw [if_pos hc]
    simpa [Sset.has] using hc
  · rw [if_neg hc]
    simp

/-- `Set.add` keeps the old elements. -/
theorem Sset.mem_add_of_mem {s : Sset} {x : String} (k : String) (h : x ∈ s) :
    x ∈ s.add k := by
  unfold Sset.add
  by_cases hc : s.has k = true
  · rw [if_pos hc]; exact h
  · rw [if_neg hc]; exact List.mem_append.mpr (Or.inl h)

/-- `Set.has` decides membership of the list model. -/
theorem Sset.has_iff_mem {s : Sset} {k : String} : s.has k = true ↔ k ∈ s := by
  unfold Sset.has
  simp

/-- Appending one element to a chain whose last element relates to it. -/
theorem chain'_append_single {R : PathStep → PathStep → Prop} {l : List PathStep}
    {b : PathStep} (h : List.Chain' R l)
    (h2 : ∀ a, l.getLast? = some a → R a b) : List.Chain' R (l ++ [b]) := by
  rw [List.chain'_append]
  refine ⟨h, List.chain'_singleton b, ?_⟩
  intro x hx y hy
  simp only [List.head?_cons, Option.mem_def, Option.some.injEq] at hy
  rw [← hy]
  exact h2 x (by simpa using hx)

/-- Appending one fresh element keeps a list duplicate-free. -/
theorem nodup_append_single {l : List String} {a : String} (h : l.Nodup)
    (h2 : a ∉ l) : (l ++ [a]).Nodup :=
  (List.perm_append_singleton a l).nodup_iff.mpr (List.nodup_cons.mpr ⟨h2, h⟩)

/-- The step-history invariant of a Dijkstra run: snapshots' visited
sets sit inside the live one, every snapshot's node is visited, the
snapshot chain is monotone, and no node is finalized twice. -/
def StepsInvD (st : DState) : Prop :=
  (∀ ps ∈ st.steps, ∀ x ∈ ps.visitedNodes, x ∈ st.visitedNodes) ∧
  (∀ ps ∈ st.steps, ps.currentNode ∈ st.visitedNodes) ∧
  List.Chain' StepSub st.steps ∧
  (st.steps.map PathStep.currentNode).Nodup

/-- Relaxation never touches the steps or the visited set. -/
theorem dijkstraRelaxOne_history (currentNode : String) (st : DState)
    (nb : String × ℤ) :
    (dijkstraRelaxOne currentNode st nb).steps = st.steps ∧
    (dijkstraRelaxOne currentNode st nb).visitedNodes = st.visitedNodes := by
  unfold dijkstraRelaxOne
  split
  · exact ⟨rfl, rfl⟩
  · simp only []
    split
    · split <;> exact ⟨rfl, rfl⟩
    · exact ⟨rfl, rfl⟩

/-- Relaxation over a list never touches the steps or the visited
set. -/
theorem dijkstraRelax_history (currentNode : String)
    (neighbors : List (String × ℤ)) :
    ∀ st : DState,
      (dijkstraRelax currentNode st neighbors).steps = st.steps ∧
      (dijkstraRelax currentNode st neighbors).visitedNodes = st.visitedNodes := by
  induction neighbors with
  | nil => intro st; exact ⟨rfl, rfl⟩
  | cons nb t ih =>
    intro st
    have h1 := dijkstraRelaxOne_history currentNode st nb
    have h2 := ih (dijkstraRelaxOne currentNode st nb)
    exact ⟨h2.1.trans h1.1, h2.2.trans h1.2⟩

/-- Finalizing one node preserves the step-history invariant; shared by
the Dijkstra-shaped visit branches. -/
theorem stepsInv_visit {steps : List PathStep} {visited : Sset} {c : String}
    (h1 : ∀ ps ∈ steps, ∀ x ∈ ps.visitedNodes, x ∈ visited)
    (h2 : ∀ ps ∈ steps, ps.currentNode ∈ visited)
    (h3 : List.Chain' StepSub steps)
    (h4 : (steps.map PathStep.currentNode).Nodup)
    (hc : c ∉ visited) (snap : PathStep)
    (hsc : snap.currentNode = c)
    (hsv : snap.visitedNodes = visited.add c) :
    (∀ ps ∈ steps ++ [snap], ∀ x ∈ ps.visitedNodes, x ∈ visited.add c) ∧
    (∀ ps ∈ steps ++ [snap], ps.currentNode ∈ visited.add c) ∧
    List.Chain' StepSub (steps ++ [snap]) ∧
    (((steps ++ [snap]).map PathStep.currentNode).Nodup) := by
  refine ⟨?_, ?_, ?_, ?_⟩
  · intro ps hps x hx
    rcases List.mem_append.mp hps with h | h
    · exact Sset.mem_add_of_mem c (h1 ps h x hx)
    · simp only [List.mem_singleton] at h
      rw [h, hsv] at hx
      exact hx
  · intro ps hps
    rcases List.mem_append.mp hps with h | h
    · exact Sset.mem_add_of_mem c (h2 ps h)
    · simp only [List.mem_singleton] at h
      rw [h, hsc]
      exact Sset.mem_add_self visited c
  · refine chain'_append_single h3 ?_
    intro a ha
    intro x hx
    rw [hsv]
    exact Sset.mem_add_of_mem c
      (h1 a (List.mem_of_mem_getLast? (by simpa using ha)) x hx)
  · rw [List.map_append]
    simp only [List.map_cons, List.map_nil]
    rw [hsc]
    refine nodup_append_single h4 ?_
    intro hcmem
    rcases List.mem_map.mp hcmem with ⟨ps, hps, hpc⟩
    exact hc (hpc ▸ h2 ps hps)

/-- The Dijkstra loop preserves the step-history invariant. -/
theorem dijkstraLoop_stepsInv (cfg : AlgorithmConfig)
    (adj : Smap (List (String × ℤ))) :
    ∀ (fuel : Nat) (st : DState), StepsInvD st →
      StepsInvD (dijkstraLoop cfg adj fuel st) := by
  intro fuel
  induction fuel with
  | zero => intro st h; exact h
  | succ n ih =>
    intro st h
    obtain ⟨h1, h2, h3, h4⟩ := h
    unfold dijkstraLoop
    cases hpop : st.pq.pop with
    | none => exact ⟨h1, h2, h3, h4⟩
    | some pr =>
      obtain ⟨current, pq'⟩ := pr
      simp only []
      split
      · exact ih _ ⟨h1, h2, h3, h4⟩
      · next hv =>
        have hcnot : current.2 ∉ st.visitedNodes := fun hmem =>
          hv (Sset.has_iff_mem.mpr hmem)
        have hinv := stepsInv_visit h1 h2 h3 h4 hcnot
          { currentNode := current.2,
            visitedNodes := st.visitedNodes.add current.2,
            previousNodes := st.previousNodes,
            path := reconstructPath st.previousNodes cfg.startNode current.2,
            isComplete := decide (current.2 = cfg.endNode) } rfl rfl
        split
        · exact hinv
        · split
          · exact ih _ hinv
          · refine ih _ ?_
            refine ⟨?_, ?_, ?_, ?_⟩
            · rw [(dijkstraRelax_history _ _ _).1, (dijkstraRelax_history _ _ _).2]
              exact hinv.1
            · rw [(dijkstraRelax_history _ _ _).1, (dijkstraRelax_history _ _ _).2]
              exact hinv.2.1
            · rw [(dijkstraRelax_history _ _ _).1]
              exact hinv.2.2.1
            · rw [(dijkstraRelax_history _ _ _).1]
              exact hinv.2.2.2

/-- The step-history invariant of an A* run. -/
def StepsInvA (st : AState) : Prop :=
  (∀ ps ∈ st.steps, ∀ x ∈ ps.visitedNodes, x ∈ st.visitedNodes) ∧
  (∀ ps ∈ st.steps, ps.currentNode ∈ st.visitedNodes) ∧
  List.Chain' StepSub st.steps ∧
  (st.steps.map PathStep.currentNode).Nodup

/-- A* relaxation never touches the steps or the visited set. -/
theorem astarRelaxOne_history (hfun : String → ℤ) (currentNode : String)
    (st : AState) (nb : String × ℤ) :
    (astarRelaxOneH hfun currentNode st nb).steps = st.steps ∧
    (astarRelaxOneH hfun currentNode st nb).visitedNodes = st.visitedNodes := by
  unfold astarRelaxOneH
  split
  · exact ⟨rfl, rfl⟩
  · simp only []
    split
    · split <;> exact ⟨rfl, rfl⟩
    · exact ⟨rfl, rfl⟩

/-- A* relaxation over a list never touches the steps or the visited
set. -/
theorem astarRelax_history (hfun : String → ℤ) (currentNode : String)
    (neighbors : List (String × ℤ)) :
    ∀ st : AState,
      (astarRelaxH hfun currentNode st neighbors).steps = st.steps ∧
      (astarRelaxH hfun currentNode st neighbors).visitedNodes = st.visitedNodes := by
  induction neighbors with
  | nil => intro st; exact ⟨rfl, rfl⟩
  | cons nb t ih =>
    intro st
    have h1 := astarRelaxOne_history hfun currentNode st nb
    have h2 := ih (astarRelaxOneH hfun currentNode st nb)
    exact ⟨h2.1.trans h1.1, h2.2.trans h1.2⟩

/-- The A* loop preserves the step-history invariant. -/
theorem astarLoop_stepsInv (hfun : String → ℤ) (cfg : AlgorithmConfig)
    (adj : Smap (List (String × ℤ))) :
    ∀ (fuel : Nat) (st : AState), StepsInvA st →
      StepsInvA (astarLoopH hfun cfg adj fuel st) := by
  intro fuel
  induction fuel with
  | zero => intro st h; exact h
  | succ n ih =>
    intro st h
    obtain ⟨h1, h2, h3, h4⟩ := h
    unfold astarLoopH
    cases hpop : st.openSet.pop with
    | none => exact ⟨h1, h2, h3, h4⟩
    | some pr =>
      obtain ⟨current, open'⟩ := pr
      simp only []
      split
      · exact ih _ ⟨h1, h2, h3, h4⟩
      · next hv =>
        have hcnot : current.2 ∉ st.visitedNodes := fun hmem =>
          hv (Sset.has_iff_mem.mpr hmem)
        have hinv := stepsInv_visit h1 h2 h3 h4 hcnot
          { currentNode := current.2,
            visitedNodes := st.visitedNodes.add current.2,
            previousNodes := st.previousNodes,
            path := reconstructPath st.previousNodes cfg.startNode current.2,
            isComplete := decide (current.2 = cfg.endNode) } rfl rfl
        split
        · exact hinv
        · split
          · exact ih _ hinv
          · refine ih _ ?_
            refine ⟨?_, ?_, ?_, ?_⟩
            · rw [(astarRelax_history _ _ _ _).1, (astarRelax_history _ _ _ _).2]
              exact hinv.1
            · rw [(astarRelax_history _ _ _ _).1, (astarRelax_history _ _ _ _).2]
              exact hinv.2.1
            · rw [(astarRelax_history _ _ _ _).1]
              exact hinv.2.2.1
            · rw [(astarRelax_history _ _ _ _).1]
              exact hinv.2.2.2

/-- The step-history invariant of a DFS run. -/
def StepsInvF (st : FState) : Prop :=
  (∀ ps ∈ st.steps, ∀ x ∈ ps.visitedNodes, x ∈ st.visitedNodes) ∧
  (∀ ps ∈ st.steps, ps.currentNode ∈ st.visitedNodes) ∧
  List.Chain' StepSub st.steps ∧
  (st.steps.map PathStep.currentNode).Nodup

/-- The DFS neighbor push never touches the steps or the visited set. -/
theorem dfsPushOne_history (currentNode : String) (st : FState) (nb : String) :
    (dfsPushOne currentNode st nb).steps = st.steps ∧
    (dfsPushOne currentNode st nb).visitedNodes = st.visitedNodes := by
  unfold dfsPushOne
  split <;> exact ⟨rfl, rfl⟩

/-- The DFS neighbor loop never touches the steps or the visited set. -/
theorem dfsPush_history (currentNode : String) (neighbors : List String) :
    ∀ st : FState,
      (dfsPush currentNode st neighbors).steps = st.steps ∧
      (dfsPush currentNode st neighbors).visitedNodes = st.visitedNodes := by
  have haux : ∀ (l : List String) (st : FState),
      (l.foldl (dfsPushOne currentNode) st).steps = st.steps ∧
      (l.foldl (dfsPushOne currentNode) st).visitedNodes = st.visitedNodes := by
    intro l
    induction l with
    | nil => intro st; exact ⟨rfl, rfl⟩
    | cons nb t ih =>
      intro st
      have h1 := dfsPushOne_history currentNode st nb
      have h2 := ih (dfsPushOne currentNode st nb)
      exact ⟨h2.1.trans h1.1, h2.2.trans h1.2⟩
  intro st
  exact haux neighbors.reverse st

/-- The DFS loop preserves the step-history invariant. -/
theorem dfsLoop_stepsInv (cfg : AlgorithmConfig) (adj : Smap (List String)) :
    ∀ (fuel : Nat) (st : FState), StepsInvF st →
      StepsInvF (dfsLoop cfg adj fuel st) := by
  intro fuel
  induction fuel with
  | zero => intro st h; exact h
  | succ n ih =>
    intro st h
    obtain ⟨h1, h2, h3, h4⟩ := h
    unfold dfsLoop
    cases hstk : st.stack with
    | nil => exact ⟨h1, h2, h3, h4⟩
    | cons currentNode stack' =>
      simp only []
      split
      · exact ih _ ⟨h1, h2, h3, h4⟩
      · next hv =>
        have hcnot : currentNode ∉ st.visitedNodes := fun hmem =>
          hv (Sset.has_iff_mem.mpr hmem)
        have hinv := stepsInv_visit h1 h2 h3 h4 hcnot
          { currentNode := currentNode,
            visitedNodes := st.visitedNodes.add currentNode,
            previousNodes := st.previousNodes,
            path := reconstructPath st.previousNodes cfg.startNode currentNode,
            isComplete := decide (currentNode = cfg.endNode) } rfl rfl
        split
        · exact hinv
        · refine ih _ ?_
          refine ⟨?_, ?_, ?_, ?_⟩
          · rw [(dfsPush_history _ _ _).1, (dfsPush_history _ _ _).2]
            exact hinv.1
          · rw [(dfsPush_history _ _ _).1, (dfsPush_history _ _ _).2]
            exact hinv.2.1
          · rw [(dfsPush_history _ _ _).1]
            exact hinv.2.2.1
          · rw [(dfsPush_history _ _ _).1]
            exact hinv.2.2.2

/-- The step-history invariant of a BFS run: BFS marks nodes visited at
enqueue time, so the queue is tracked too — queued ids are already
visited, and the queue plus the finalized ids stay duplicate-free. -/
def StepsInvB (st : BState) : Prop :=
  (∀ ps ∈ st.steps, ∀ x ∈ ps.visitedNodes, x ∈ st.visitedNodes) ∧
  (∀ x ∈ st.queue, x ∈ st.visitedNodes) ∧
  (∀ ps ∈ st.steps, ps.currentNode ∈ st.visitedNodes) ∧
  List.Chain' StepSub st.steps ∧
  (st.queue ++ st.steps.map PathStep.currentNode).Nodup

/-- One BFS enqueue preserves the invariant. -/
theorem bfsEnqueueOne_stepsInv (currentNode : String) (st : BState)
    (nb : String) (h : StepsInvB st) :
    StepsInvB (bfsEnqueueOne currentNode st nb) := by
  obtain ⟨h1, h2, h3, h4, h5⟩ := h
  unfold bfsEnqueueOne
  split
  · exact ⟨h1, h2, h3, h4, h5⟩
  · next hnb =>
    have hnbnot : nb ∉ st.visitedNodes := fun hmem =>
      hnb (Sset.has_iff_mem.mpr hmem)
    refine ⟨?_, ?_, ?_, h4, ?_⟩
    · intro ps hps x hx
      exact Sset.mem_add_of_mem nb (h1 ps hps x hx)
    · intro x hx
      rcases List.mem_append.mp hx with hq | hq
      · exact Sset.mem_add_of_mem nb (h2 x hq)
      · simp only [List.mem_singleton] at hq
        rw [hq]
        exact Sset.mem_add_self _ nb
    · intro ps hps
      exact Sset.mem_add_of_mem nb (h3 ps hps)
    · have hassoc : (st.queue ++ [nb]) ++ st.steps.map PathStep.currentNode =
          st.queue ++ (nb :: st.steps.map PathStep.currentNode) := by
        rw [List.append_assoc]
        rfl
      rw [hassoc]
      refine (List.perm_middle).nodup_iff.mpr ?_
      refine List.nodup_cons.mpr ⟨?_, h5⟩
      intro hmem
      rcases List.mem_append.mp hmem with hq | hq
      · exact hnbnot (h2 nb hq)
      · rcases List.mem_map.mp hq with ⟨ps, hps, hpc⟩
        exact hnbnot (hpc ▸ h3 ps hps)

/-- The BFS enqueue loop preserves the invariant. -/
theorem bfsEnqueue_stepsInv (currentNode : String) (neighbors : List String) :
    ∀ st : BState, StepsInvB st →
      StepsInvB (bfsEnqueue currentNode st neighbors) := by
  induction neighbors with
  | nil => intro st h; exact h
  | cons nb t ih =>
    intro st h
    exact ih _ (bfsEnqueueOne_stepsInv currentNode st nb h)

/-- The BFS loop preserves the step-history invariant. -/
theorem bfsLoop_stepsInv (cfg : AlgorithmConfig) (adj : Smap (List String)) :
    ∀ (fuel : Nat) (st : BState), StepsInvB st →
      StepsInvB (bfsLoop cfg adj fuel st) := by
  intro fuel
  induction fuel with
  | zero => intro st h; exact h
  | succ n ih =>
    intro st h
    obtain ⟨h1, h2, h3, h4, h5⟩ := h
    unfold bfsLoop
    cases hq : st.queue with
    | nil => exact ⟨h1, h2, h3, h4, h5⟩
    | cons currentNode queue' =>
      simp only []
      rw [hq] at h2 h5
      have hc : currentNode ∈ st.visitedNodes := h2 currentNode (List.mem_cons_self _ _)
      have h5' : (queue' ++ (st.steps.map PathStep.currentNode ++ [currentNode])).Nodup := by
        have : queue' ++ (st.steps.map PathStep.currentNode ++ [currentNode]) =
            (queue' ++ st.steps.map PathStep.currentNode) ++ [currentNode] := by
          rw [List.append_assoc]
        rw [this]
        refine (List.perm_append_singleton _ _).nodup_iff.mpr ?_
        simpa using h5
      have hst1 : StepsInvB
          { previousNodes := st.previousNodes, visitedNodes := st.visitedNodes,
            queue := queue',
            steps := st.steps ++
              [{ currentNode := currentNode, visitedNodes := st.visitedNodes,
                 previousNodes := st.previousNodes,
                 path := reconstructPath st.previousNodes cfg.startNode currentNode,
                 isComplete := decide (currentNode = cfg.endNode) }] } := by
        refine ⟨?_, ?_, ?_, ?_, ?_⟩
        · intro ps hps x hx
          rcases List.mem_append.mp hps with hm | hm
          · exact h1 ps hm x hx
          · simp only [List.mem_singleton] at hm
            rw [hm] at hx
            exact hx
        · intro x hx
          exact h2 x (List.mem_cons_of_mem _ hx)
        · intro ps hps
          rcases List.mem_append.mp hps with hm | hm
          · exact h3 ps hm
          · simp only [List.mem_singleton] at hm
            rw [hm]
            exact hc
        · refine chain'_append_single h4 ?_
          intro a ha x hx
          exact h1 a (List.mem_of_mem_getLast? (by simpa using ha)) x hx
        · simp only [List.map_append, List.map_cons, List.map_nil]
          exact h5'
      split
      · exact hst1
      · exact ih _ (bfsEnqueue_stepsInv currentNode _ _ hst1)

/-- C8: for every graph, start and end, and each of the four
strategies, the emitted step sequence has monotonically non-decreasing
visited-set snapshots (each step's `visitedNodes` contains its
predecessor's), and no node id appears as the `currentNode` of more
than one emitted step. -/
theorem c8_visited_monotone_currentNode_unique :
    (∀ cfg : AlgorithmConfig,
      List.Chain' StepSub (dijkstra cfg).steps ∧
      ((dijkstra cfg).steps.map PathStep.currentNode).Nodup) ∧
    (∀ (hfun : String → ℤ) (cfg : AlgorithmConfig),
      List.Chain' StepSub (astarH hfun cfg).steps ∧
      ((astarH hfun cfg).steps.map PathStep.currentNode).Nodup) ∧
    (∀ cfg : AlgorithmConfig,
      List.Chain' StepSub (bfs cfg).steps ∧
      ((bfs cfg).steps.map PathStep.currentNode).Nodup) ∧
    (∀ cfg : AlgorithmConfig,
      List.Chain' StepSub (dfs cfg).steps ∧
      ((dfs cfg).steps.map PathStep.currentNode).Nodup) := by
  refine ⟨?_, ?_, ?_, ?_⟩
  · intro cfg
    have h := dijkstraLoop_stepsInv cfg (buildAdjacencyW cfg.graph)
      (loopFuel cfg.graph) (dijkstraInit cfg)
      ⟨fun ps hps => absurd hps (List.not_mem_nil ps),
       fun ps hps => absurd hps (List.not_mem_nil ps),
       List.chain'_nil, List.nodup_nil⟩
    exact ⟨h.2.2.1, h.2.2.2⟩
  · intro hfun cfg
    have h := astarLoop_stepsInv hfun cfg (buildAdjacencyW cfg.graph)
      (loopFuel cfg.graph) (astarInitH hfun cfg)
      ⟨fun ps hps => absurd hps (List.not_mem_nil ps),
       fun ps hps => absurd hps (List.not_mem_nil ps),
       List.chain'_nil, List.nodup_nil⟩
    exact ⟨h.2.2.1, h.2.2.2⟩
  · intro cfg
    have h := bfsLoop_stepsInv cfg (buildAdjacencyU cfg.graph)
      (loopFuel cfg.graph) (bfsInit cfg)
      ⟨fun ps hps => absurd hps (List.not_mem_nil ps),
       fun x hx => by
         simp only [bfsInit, Sset.add, Sset.empty, Sset.has] at hx ⊢
         simpa using hx,
       fun ps hps => absurd hps (List.not_mem_nil ps),
       List.chain'_nil, by simp [bfsInit, Sset.add, Sset.empty, Sset.has]⟩
    exact ⟨h.2.2.2.1, List.Nodup.of_append_right h.2.2.2.2⟩
  · intro cfg
    have h := dfsLoop_stepsInv cfg (buildAdjacencyU cfg.graph)
      (loopFuel cfg.graph) (dfsInit cfg)
      ⟨fun ps hps => absurd hps (List.not_mem_nil ps),
       fun ps hps => absurd hps (List.not_mem_nil ps),
       List.chain'_nil, List.nodup_nil⟩
    exact ⟨h.2.2.1, h.2.2.2⟩

/-! ## C6 -/

/-- The weights of the edges joining `u` and `v` (either direction). -/
def edgeWeightsBetween (g : Graph) (u v : String) : List ℤ :=
  (g.edges.filter (fun e =>
    decide ((e.fromId = u ∧ e.toId = v) ∨ (e.fromId = v ∧ e.toId = u)))).map Edge.weight

/-- Minimum of a list of weights, `none` when empty. -/
def minWeight? : List ℤ → Option ℤ
  | [] => none
  | w :: ws => some (ws.foldl min w)

/-- The total edge weight of a node-sequence path: for each consecutive
pair the cheapest edge joining the two nodes contributes (the natural
reading of the weight of a node path in a multigraph), and the weight
is undefined (`none`) when some pair is not joined by any edge. -/
def pathWeight (g : Graph) : List String → Option ℤ
  | [] => some 0
  | [_] => some 0
  | u :: v :: rest =>
    match minWeight? (edgeWeightsBetween g u v), pathWeight g (v :: rest) with
    | some w, some c => some (w + c)
    | _, _ => none

/-- The A* counterexample graph: `s` and `t` share a position while `m`
sits 2000 units away, so the source heuristic
`sqrt(dx*dx+dy*dy)/20` is exactly 0 on `s` and `t` and exactly
`sqrt(2000^2)/20 = 100` on `m` — all square roots exact. -/
def astarCeGraph : Graph :=
  { nodes := [{ id := "s", x := 0, y := 0 }, { id := "m", x := 0, y := 2000 },
              { id := "t", x := 0, y := 0 }],
    edges := [{ fromId := "s", toId := "m", weight := 1 },
              { fromId := "m", toId := "t", weight := 1 },
              { fromId := "s", toId := "t", weight := 3 }] }

/-- The exact values of the source heuristic (distance to `t` divided
by 20) on `astarCeGraph`. -/
def astarCeHeuristic : String → ℤ := fun n => if n = "m" then 100 else 0

/-- C6 counterexample: on `astarCeGraph` (start `s`, end `t`) the
Euclid/20 heuristic overestimates through `m`, so `astar` returns the
direct path `[s, t]` of total weight 3 while `dijkstra` returns
`[s, m, t]` of total weight 2 — the two final paths' total edge weights
differ. -/
theorem c6_counterexample_inadmissible_heuristic :
    (astarH astarCeHeuristic { startNode := "s", endNode := "t", graph := astarCeGraph }).path
      = ["s", "t"] ∧
    (dijkstra { startNode := "s", endNode := "t", graph := astarCeGraph }).path
      = ["s", "m", "t"] ∧
    pathWeight astarCeGraph
      (astarH astarCeHeuristic { startNode := "s", endNode := "t", graph := astarCeGraph }).path
      = some 3 ∧
    pathWeight astarCeGraph
      (dijkstra { startNode := "s", endNode := "t", graph := astarCeGraph }).path
      = some 2 := by
  decide


/-- Inject a Dijkstra state into an A* state by duplicating the
distance map into both score maps: with the zero heuristic
`fScore = gScore` throughout a run. -/
def mkA (d : DState) : AState :=
  { gScore := d.distances, fScore := d.distances,
    previousNodes := d.previousNodes, visitedNodes := d.visitedNodes,
    openSet := d.pq, steps := d.steps }

/-- With the zero heuristic, one A* relaxation step on an injected
state is one Dijkstra relaxation step. -/
theorem astarRelaxOne_zero (c : String) (d : DState) (nb : String × ℤ) :
    astarRelaxOneH (fun _ => 0) c (mkA d) nb = mkA (dijkstraRelaxOne c d nb) := by
  unfold astarRelaxOneH dijkstraRelaxOne mkA
  simp only []
  by_cases hv : d.visitedNodes.has nb.1 = true
  · rw [if_pos hv, if_pos hv]
  · rw [if_neg hv, if_neg hv]
    by_cases hlt : jsLt (jsAdd (d.distances.find? c) (some (nb.2 : QInf)))
        (d.distances.find? nb.1) = true
    · rw [if_pos hlt, if_pos hlt]
      cases htg : jsAdd (d.distances.find? c) (some (nb.2 : QInf)) with
      | none =>
        rw [htg, jsLt_none_left] at hlt
      | some tg =>
        simp only []
        rw [show tg + (((0 : ℤ) : ℤ) : QInf) = tg from by
          rw [show ((((0 : ℤ) : ℤ)) : QInf) = (0 : QInf) from rfl, add_zero]]
    · rw [if_neg hlt, if_neg hlt]

/-- With the zero heuristic, A* relaxation over a neighbor list on an
injected state matches Dijkstra relaxation. -/
theorem astarRelax_zero (c : String) (neighbors : List (String × ℤ)) :
    ∀ d : DState, astarRelaxH (fun _ => 0) c (mkA d) neighbors =
      mkA (dijkstraRelax c d neighbors) := by
  induction neighbors with
  | nil => intro d; rfl
  | cons nb t ih =>
    intro d
    show astarRelaxH (fun _ => 0) c (astarRelaxOneH (fun _ => 0) c (mkA d) nb) t =
      mkA (dijkstraRelax c (dijkstraRelaxOne c d nb) t)
    rw [astarRelaxOne_zero]
    exact ih _

/-- A* relaxation is a no-op when the current node has no `gScore`
entry: `tentativeG` is `NaN`-poisoned and the `<` guard is `false`. -/
theorem astarRelax_skip (hfun : String → ℤ) (c : String)
    (nbrs : List (String × ℤ)) :
    ∀ st : AState, st.gScore.find? c = none →
      astarRelaxH hfun c st nbrs = st := by
  induction nbrs with
  | nil => intro st _; rfl
  | cons nb t ih =>
    intro st h
    have h1 : astarRelaxOneH hfun c st nb = st := by
      unfold astarRelaxOneH
      split
      · rfl
      · rw [h]
        rw [show jsAdd none (some ((nb.2 : ℤ) : QInf)) = none from rfl]
        simp only []
        rw [jsLt_none_left]
        simp only [Bool.false_eq_true, if_false]
    show astarRelaxH hfun c (astarRelaxOneH hfun c st nb) t = st
    rw [h1]
    exact ih st h

/-- Dijkstra relaxation is a no-op when the current node has no
distance entry. -/
theorem dijkstraRelax_skip (c : String) (nbrs : List (String × ℤ)) :
    ∀ st : DState, st.distances.find? c = none →
      dijkstraRelax c st nbrs = st := by
  induction nbrs with
  | nil => intro st _; rfl
  | cons nb t ih =>
    intro st h
    have h1 : dijkstraRelaxOne c st nb = st := by
      unfold dijkstraRelaxOne
      split
      · rfl
      · rw [h]
        rw [show jsAdd none (some ((nb.2 : ℤ) : QInf)) = none from rfl]
        simp only []
        rw [jsLt_none_left]
        simp only [Bool.false_eq_true, if_false]
    show dijkstraRelax c (dijkstraRelaxOne c st nb) t = st
    rw [h1]
    exact ih st h

/-- `mkA` on a constructor literal, spelled out. -/
theorem mkA_mk (D : Smap QInf) (P : Smap (Option String)) (V : Sset)
    (Q : MinHeap) (S : List PathStep) :
    mkA ⟨D, P, V, Q, S⟩ = ⟨D, D, P, V, Q, S⟩ := rfl

/-- With the zero heuristic, the A* main loop on an injected state is
the Dijkstra main loop: priorities, pops, stale checks and relaxations
all coincide. -/
theorem astarLoop_zero (cfg : AlgorithmConfig)
    (adj : Smap (List (String × ℤ))) :
    ∀ (fuel : Nat) (d : DState),
      astarLoopH (fun _ => 0) cfg adj fuel (mkA d) =
        mkA (dijkstraLoop cfg adj fuel d) := by
  intro fuel
  induction fuel with
  | zero => intro d; rfl
  | succ n ih =>
    intro d
    obtain ⟨D, P, V, Q, S⟩ := d
    unfold astarLoopH dijkstraLoop
    simp only [mkA]
    cases hpop : Q.pop with
    | none => rfl
    | some pr =>
      obtain ⟨current, pq'⟩ := pr
      simp only []
      by_cases hv : V.has current.2 = true
      · rw [if_pos hv, if_pos hv]
        exact ih { distances := D, previousNodes := P, visitedNodes := V,
                   pq := pq', steps := S }
      · rw [if_neg hv, if_neg hv]
        by_cases hend : current.2 = cfg.endNode
        · rw [if_pos hend, if_pos hend]
        · rw [if_neg hend, if_neg hend]
          by_cases hstale : jsGt current.1 (Smap.find? D current.2) = true
          · rw [if_pos hstale, if_pos hstale]
            exact ih ⟨D, P, V.add current.2, pq',
              S ++ [⟨current.2, V.add current.2, P,
                reconstructPath P cfg.startNode current.2,
                decide (current.2 = cfg.endNode)⟩]⟩
          · rw [if_neg hstale, if_neg hstale]
            rw [show ((⟨D, D, P, V.add current.2, pq',
                S ++ [⟨current.2, V.add current.2, P,
                  reconstructPath P cfg.startNode current.2,
                  decide (current.2 = cfg.endNode)⟩]⟩ : AState)
              = mkA ⟨D, P, V.add current.2, pq',
                S ++ [⟨current.2, V.add current.2, P,
                  reconstructPath P cfg.startNode current.2,
                  decide (current.2 = cfg.endNode)⟩]⟩) from rfl]
            rw [astarRelax_zero]
            exact ih (dijkstraRelax current.2
              ⟨D, P, V.add current.2, pq',
                S ++ [⟨current.2, V.add current.2, P,
                  reconstructPath P cfg.startNode current.2,
                  decide (current.2 = cfg.endNode)⟩]⟩
              ((adj.find? current.2).getD []))

/-- A per-node initialization fold whose value depends only on the key
stores that value at every present key. -/
theorem find?_nodesFold_mem {α : Type} (f : String → α) (k : String) :
    ∀ (nodes : List Node) (m : Smap α), k ∈ nodes.map Node.id →
      (nodes.foldl (fun m n => m.set n.id (f n.id)) m).find? k = some (f k) := by
  intro nodes
  induction nodes with
  | nil => intro m h; cases h
  | cons nd tl ih =>
    intro m hk
    rw [List.foldl_cons]
    by_cases ht : k ∈ tl.map Node.id
    · exact ih _ ht
    · have hk1 : nd.id = k := by
        simp only [List.map_cons, List.mem_cons] at hk
        rcases hk with h | h
        · exact h.symm
        · exact absurd h ht
      have hrest := find?_nodesFold_notmem (fun n => f n.id) k tl
        (m.set nd.id (f nd.id)) ht
      rw [show (tl.foldl (fun m n => m.set n.id (f n.id))
          (m.set nd.id (f nd.id))).find? k =
          (m.set nd.id (f nd.id)).find? k from hrest]
      rw [hk1, Smap.find?_set_self]

/-- With the zero heuristic and a start id that is a graph node, the
A* initial state is the injected Dijkstra initial state (in particular
the seeded frontier priority `fScore.get(startNode)` is `0`). -/
theorem astarInit_zero (cfg : AlgorithmConfig)
    (hs : cfg.startNode ∈ nodeIds cfg.graph) :
    astarInitH (fun _ => 0) cfg = mkA (dijkstraInit cfg) := by
  unfold astarInitH dijkstraInit mkA
  simp only []
  have hfind : (cfg.graph.nodes.foldl
      (fun (m : Smap QInf) n => m.set n.id
        (if n.id = cfg.startNode then (((0 : ℤ) : ℤ) : QInf) else ⊤))
      Smap.empty).find? cfg.startNode = some (((0 : ℤ) : ℤ) : QInf) := by
    have := find?_nodesFold_mem
      (fun s => if s = cfg.startNode then (((0 : ℤ) : ℤ) : QInf) else ⊤)
      cfg.startNode cfg.graph.nodes Smap.empty hs
    simp only [if_true] at this
    exact this
  rw [hfind]
  rfl

/-- With the zero heuristic, when the seeded start id has no `gScore`
entry (a start id that is not a graph node), the A* and Dijkstra loops
still agree whatever the two seeded priorities are: the start is
popped and finalized once, its stale check fails on the absent score,
its relaxation is `NaN`-poisoned into a no-op, and the loops continue
on injected states. -/
theorem astarLoop_zero_unsettled (cfg : AlgorithmConfig)
    (adj : Smap (List (String × ℤ))) (G : Smap QInf)
    (P : Smap (Option String)) (pa pd : Option QInf) (F : Nat)
    (hG : G.find? cfg.startNode = none) :
    astarLoopH (fun _ => 0) cfg adj (F + 1)
      ⟨G, G, P, Sset.empty, ⟨[(pa, cfg.startNode)]⟩, []⟩ =
      mkA (dijkstraLoop cfg adj (F + 1)
        ⟨G, P, Sset.empty, ⟨[(pd, cfg.startNode)]⟩, []⟩) := by
  unfold astarLoopH dijkstraLoop
  rw [show (MinHeap.pop ⟨[(pa, cfg.startNode)]⟩ :
      Option ((Option QInf × String) × MinHeap)) =
      some ((pa, cfg.startNode), ⟨[]⟩) from rfl]
  rw [show (MinHeap.pop ⟨[(pd, cfg.startNode)]⟩ :
      Option ((Option QInf × String) × MinHeap)) =
      some ((pd, cfg.startNode), ⟨[]⟩) from rfl]
  simp only []
  rw [if_neg (show ¬(Sset.has Sset.empty cfg.startNode = true) from
        fun h => nomatch h),
      if_neg (show ¬(Sset.has Sset.empty cfg.startNode = true) from
        fun h => nomatch h)]
  by_cases hend : cfg.startNode = cfg.endNode
  · rw [if_pos hend, if_pos hend]
    rfl
  · rw [if_neg hend, if_neg hend]
    have hstA : jsGt pa (Smap.find? G cfg.startNode) = false := by
      rw [hG]
      unfold jsGt
      exact jsLt_none_left pa
    have hstD : jsGt pd (Smap.find? G cfg.startNode) = false := by
      rw [hG]
      unfold jsGt
      exact jsLt_none_left pd
    rw [hstA, hstD]
    simp only [Bool.false_eq_true, if_false]
    rw [astarRelax_skip, dijkstraRelax_skip]
    · exact astarLoop_zero cfg adj F
        ⟨G, P, Sset.empty.add cfg.startNode, ⟨[]⟩,
          [⟨cfg.startNode, Sset.empty.add cfg.startNode, P,
            reconstructPath P cfg.startNode cfg.startNode,
            decide (cfg.startNode = cfg.endNode)⟩]⟩
    · exact hG
    · exact hG

/-- C6: the claim says the `astar` function (with its Euclidean/20
heuristic) always matches `dijkstra`'s final path weight.  That is
refuted by `c6_counterexample_inadmissible_heuristic`: the heuristic is
not admissible on graphs whose edge weights are small relative to node
coordinates, and there A* returns a strictly heavier path.  Amended
claim: the agreement does hold for the heuristic value `0` (the
source's `heuristic` returns `0` exactly when the two node positions
coincide or an id is missing), and in the strongest possible form —
`astar` with the zero heuristic is *extensionally identical* to
`dijkstra` on every config: same final path, same steps, same visited
set, hence in particular the same total path weight. -/
theorem c6_zero_heuristic_equals_dijkstra (cfg : AlgorithmConfig) :
    astarH (fun _ => 0) cfg = dijkstra cfg := by
  have hloop : astarLoopH (fun _ => 0) cfg (buildAdjacencyW cfg.graph)
      (loopFuel cfg.graph) (astarInitH (fun _ => 0) cfg) =
      mkA (dijkstraLoop cfg (buildAdjacencyW cfg.graph)
        (loopFuel cfg.graph) (dijkstraInit cfg)) := by
    by_cases hs : cfg.startNode ∈ nodeIds cfg.graph
    · rw [astarInit_zero cfg hs]
      exact astarLoop_zero cfg (buildAdjacencyW cfg.graph)
        (loopFuel cfg.graph) (dijkstraInit cfg)
    · have h2 : 2 ≤ loopFuel cfg.graph := by
        unfold loopFuel
        exact Nat.le_add_left 2 _
      have hF : loopFuel cfg.graph = (loopFuel cfg.graph - 1) + 1 := by omega
      rw [hF]
      have hgf : (cfg.graph.nodes.foldl
          (fun (m : Smap QInf) n => m.set n.id
            (if n.id = cfg.startNode then (0 : QInf) else ⊤))
          Smap.empty).find? cfg.startNode = none :=
        find?_nodesFold_notmem
          (fun n => if n.id = cfg.startNode then (0 : QInf) else ⊤)
          cfg.startNode cfg.graph.nodes Smap.empty hs
      exact astarLoop_zero_unsettled cfg (buildAdjacencyW cfg.graph) _ _ _
        (some 0) (loopFuel cfg.graph - 1) hgf
  unfold astarH dijkstra
  simp only []
  rw [hloop]
  rfl

/-! ## C2 -/

/-- `jsLt` on two present finite values is the integer comparison. -/
theorem jsLt_some_coe (a b : ℤ) :
    jsLt (some ((a : ℤ) : QInf)) (some ((b : ℤ) : QInf)) = true ↔ a < b := by
  simp [jsLt]

/-- `jsLt` on two present values is the `WithTop ℤ` comparison. -/
theorem jsLt_some_some (x y : QInf) :
    jsLt (some x) (some y) = true ↔ x < y := by
  simp [jsLt]

/-- The head of a list survives appending on the right. -/
theorem head?_append_left {α : Type} {l : List α} (l' : List α) {a : α}
    (h : l.head? = some a) : (l ++ l').head? = some a := by
  cases l with
  | nil => cases h
  | cons x t => simpa using h

/-- A left fold of `min` yields the seed or a list element. -/
theorem foldl_min_mem : ∀ (l : List ℤ) (a : ℤ), l.foldl min a ∈ a :: l := by
  intro l
  induction l with
  | nil => intro a; simp
  | cons b t ih =>
    intro a
    rw [List.foldl_cons]
    rcases List.mem_cons.mp (ih (min a b)) with h | h
    · rw [h]
      rcases min_choice a b with h1 | h1 <;> rw [h1] <;> simp
    · simp [h]

/-- A left fold of `min` is below the seed. -/
theorem foldl_min_le_seed : ∀ (l : List ℤ) (a : ℤ), l.foldl min a ≤ a := by
  intro l
  induction l with
  | nil => intro a; simp
  | cons b t ih =>
    intro a
    rw [List.foldl_cons]
    exact le_trans (ih (min a b)) (min_le_left a b)

/-- A left fold of `min` is below every list element. -/
theorem foldl_min_le_mem : ∀ (l : List ℤ) (a x : ℤ), x ∈ l → l.foldl min a ≤ x := by
  intro l
  induction l with
  | nil => intro a x h; cases h
  | cons b t ih =>
    intro a x hx
    rw [List.foldl_cons]
    rcases List.mem_cons.mp hx with h | h
    · rw [h]
      exact le_trans (foldl_min_le_seed t (min a b)) (min_le_right a b)
    · exact ih (min a b) x h

/-- The minimum of a weight list is one of the weights. -/
theorem minWeight?_mem {l : List ℤ} {m : ℤ} (h : minWeight? l = some m) :
    m ∈ l := by
  cases l with
  | nil => cases h
  | cons w ws =>
    simp only [minWeight?, Option.some.injEq] at h
    rw [← h]
    exact foldl_min_mem ws w

/-- The minimum of a weight list bounds every weight. -/
theorem minWeight?_le {l : List ℤ} {m x : ℤ} (h : minWeight? l = some m)
    (hx : x ∈ l) : m ≤ x := by
  cases l with
  | nil => cases h
  | cons w ws =>
    simp only [minWeight?, Option.some.injEq] at h
    rw [← h]
    rcases List.mem_cons.mp hx with h1 | h1
    · rw [h1]; exact foldl_min_le_seed ws w
    · exact foldl_min_le_mem ws w x h1

/-- Membership in the joining-weight list, unfolded. -/
theorem mem_edgeWeightsBetween {g : Graph} {u v : String} {w : ℤ} :
    w ∈ edgeWeightsBetween g u v ↔
    ∃ e ∈ g.edges,
      ((e.fromId = u ∧ e.toId = v) ∨ (e.fromId = v ∧ e.toId = u)) ∧
      e.weight = w := by
  unfold edgeWeightsBetween
  simp only [List.mem_map, List.mem_filter, decide_eq_true_eq]
  constructor
  · rintro ⟨e, ⟨he, hj⟩, hw⟩
    exact ⟨e, he, hj, hw⟩
  · rintro ⟨e, he, hj, hw⟩
    exact ⟨e, ⟨he, hj⟩, hw⟩

/-- With positive edge weights, every joining minimum is at least 1. -/
theorem minWeight?_pos {g : Graph} {u v : String} {m : ℤ}
    (HW : ∀ e ∈ g.edges, 1 ≤ e.weight)
    (h : minWeight? (edgeWeightsBetween g u v) = some m) : 1 ≤ m := by
  obtain ⟨e, he, _, hw⟩ := mem_edgeWeightsBetween.mp (minWeight?_mem h)
  rw [← hw]
  exact HW e he

/-- A joined pair's endpoints are graph nodes when every edge's
endpoints are. -/
theorem minWeight?_endpoints {g : Graph} {u v : String} {m : ℤ}
    (HWF : ∀ e ∈ g.edges, e.fromId ∈ nodeIds g ∧ e.toId ∈ nodeIds g)
    (h : minWeight? (edgeWeightsBetween g u v) = some m) :
    u ∈ nodeIds g ∧ v ∈ nodeIds g := by
  obtain ⟨e, he, hj, _⟩ := mem_edgeWeightsBetween.mp (minWeight?_mem h)
  rcases hj with ⟨h1, h2⟩ | ⟨h1, h2⟩
  · exact ⟨h1 ▸ (HWF e he).1, h2 ▸ (HWF e he).2⟩
  · exact ⟨h2 ▸ (HWF e he).2, h1 ▸ (HWF e he).1⟩

/-- Inversion of `pathWeight` on a two-or-more-node path. -/
theorem pathWeight_cons_cons {g : Graph} {u v : String} {rest : List String}
    {w : ℤ} (h : pathWeight g (u :: v :: rest) = some w) :
    ∃ m c, minWeight? (edgeWeightsBetween g u v) = some m ∧
      pathWeight g (v :: rest) = some c ∧ w = m + c := by
  unfold pathWeight at h
  cases hm : minWeight? (edgeWeightsBetween g u v) with
  | none => rw [hm] at h; cases h
  | some m =>
    rw [hm] at h
    cases hc : pathWeight g (v :: rest) with
    | none => rw [hc] at h; cases h
    | some c =>
      rw [hc] at h
      simp only [Option.some.injEq] at h
      exact ⟨m, c, rfl, rfl, h.symm⟩

/-- With positive edge weights every path weight is nonnegative. -/
theorem pathWeight_nonneg {g : Graph} (HW : ∀ e ∈ g.edges, 1 ≤ e.weight) :
    ∀ {p : List String} {w : ℤ}, pathWeight g p = some w → 0 ≤ w := by
  intro p
  induction p with
  | nil => intro w h; simp only [pathWeight, Option.some.injEq] at h; omega
  | cons u rest ih =>
    intro w h
    cases rest with
    | nil => simp only [pathWeight, Option.some.injEq] at h; omega
    | cons v rest' =>
      obtain ⟨m, c, hm, hc, hw⟩ := pathWeight_cons_cons h
      have h1 := minWeight?_pos HW hm
      have h2 := ih hc
      omega

/-- Forward evaluation of `pathWeight` on a two-or-more-node path. -/
theorem pathWeight_cons_cons_eq {g : Graph} {u v : String} {rest : List String}
    {m c : ℤ} (hm : minWeight? (edgeWeightsBetween g u v) = some m)
    (hc : pathWeight g (v :: rest) = some c) :
    pathWeight g (u :: v :: rest) = some (m + c) := by
  unfold pathWeight
  rw [hm, hc]

/-- Extending a path by one joined node adds the joining minimum. -/
theorem pathWeight_append_single {g : Graph} (v : String) (m : ℤ) :
    ∀ (A : List String) (u : String) (wA : ℤ), A.getLast? = some u →
      pathWeight g A = some wA →
      minWeight? (edgeWeightsBetween g u v) = some m →
      pathWeight g (A ++ [v]) = some (wA + m) := by
  intro A
  induction A with
  | nil => intro u wA h; cases h
  | cons x A' ih =>
    intro u wA hlast hw hm
    cases A' with
    | nil =>
      simp only [List.getLast?_singleton, Option.some.injEq] at hlast
      simp only [pathWeight, Option.some.injEq] at hw
      rw [hlast]
      rw [show ([u] ++ [v] : List String) = [u, v] from rfl]
      rw [pathWeight_cons_cons_eq hm (show pathWeight g [v] = some 0 from rfl)]
      rw [← hw]
      congr 1
      omega
    | cons y rest =>
      rw [List.getLast?_cons_cons] at hlast
      obtain ⟨m1, c, hm1, hc, hwsum⟩ := pathWeight_cons_cons hw
      have := ih u c hlast hc hm
      rw [show ((x :: y :: rest) ++ [v] : List String) =
        x :: y :: (rest ++ [v]) from rfl]
      rw [hwsum, show m1 + c + m = m1 + (c + m) from by omega]
      exact pathWeight_cons_cons_eq hm1 this

/-- Inversion of `pathWeight` at the last node of a path. -/
theorem pathWeight_append_single_inv {g : Graph} (v : String) :
    ∀ (A : List String) (u : String) (w : ℤ), A.getLast? = some u →
      pathWeight g (A ++ [v]) = some w →
      ∃ wA m, pathWeight g A = some wA ∧
        minWeight? (edgeWeightsBetween g u v) = some m ∧ w = wA + m := by
  intro A
  induction A with
  | nil => intro u w h; cases h
  | cons x A' ih =>
    intro u w hlast hw
    cases A' with
    | nil =>
      simp only [List.getLast?_singleton, Option.some.injEq] at hlast
      rw [hlast] at hw ⊢
      rw [show ([u] ++ [v] : List String) = [u, v] from rfl] at hw
      obtain ⟨m, c, hm, hc, hsum⟩ := pathWeight_cons_cons hw
      simp only [pathWeight, Option.some.injEq] at hc
      exact ⟨0, m, rfl, hm, by omega⟩
    | cons y rest =>
      rw [List.getLast?_cons_cons] at hlast
      rw [show ((x :: y :: rest) ++ [v] : List String) =
        x :: y :: (rest ++ [v]) from rfl] at hw
      obtain ⟨m1, c, hm1, hc, hsum⟩ := pathWeight_cons_cons hw
      obtain ⟨wA', m, hwA', hm, hsum'⟩ := ih u c hlast hc
      refine ⟨m1 + wA', m, pathWeight_cons_cons_eq hm1 hwA', hm, by omega⟩

/-- The `adjacencyList.get(k)?.push(x)` step shared by both directions
of `addEdgeW`/`addEdgeU`: append to the list at `k` when the key is
present, do nothing otherwise. -/
def appendAt {α : Type} (m : Smap (List α)) (k : String) (x : α) :
    Smap (List α) :=
  match m.find? k with
  | some l => m.set k (l ++ [x])
  | none => m

/-- `addEdgeW` is two `appendAt` steps. -/
theorem addEdgeW_eq (m : Smap (List (String × ℤ))) (e : Edge) :
    addEdgeW m e =
      appendAt (appendAt m e.fromId (e.toId, e.weight)) e.toId
        (e.fromId, e.weight) := by
  unfold addEdgeW appendAt
  simp only []
  cases m.find? e.fromId with
  | none =>
    simp only []
    cases m.find? e.toId <;> rfl
  | some l =>
    simp only []
    cases (m.set e.fromId (l ++ [(e.toId, e.weight)])).find? e.toId <;> rfl

/-- `appendAt` preserves key presence. -/
theorem appendAt_isSome {α : Type} (m : Smap (List α)) (k : String) (x : α)
    (u : String) :
    ((appendAt m k x).find? u).isSome = (m.find? u).isSome := by
  unfold appendAt
  cases hm : m.find? k with
  | none => rfl
  | some l =>
    by_cases hu : k = u
    · rw [← hu, Smap.find?_set_self, hm]
      rfl
    · rw [Smap.find?_set_ne _ _ hu]

/-- `appendAt` only grows neighbor lists. -/
theorem appendAt_mono {α : Type} {m : Smap (List α)} {k : String} {x : α}
    {u : String} {y : α} (h : y ∈ (m.find? u).getD []) :
    y ∈ ((appendAt m k x).find? u).getD [] := by
  unfold appendAt
  cases hm : m.find? k with
  | none => exact h
  | some l =>
    by_cases hu : k = u
    · rw [← hu] at h ⊢
      rw [Smap.find?_set_self]
      rw [hm] at h
      simp only [Option.getD] at h ⊢
      exact List.mem_append_left _ h
    · rw [Smap.find?_set_ne _ _ hu]
      exact h

/-- Inversion of membership after an `appendAt` step. -/
theorem appendAt_inv {α : Type} {m : Smap (List α)} {k : String} {x : α}
    {u : String} {y : α} (h : y ∈ ((appendAt m k x).find? u).getD []) :
    y ∈ (m.find? u).getD [] ∨ (u = k ∧ y = x) := by
  unfold appendAt at h
  cases hm : m.find? k with
  | none => rw [hm] at h; exact Or.inl h
  | some l =>
    rw [hm] at h
    by_cases hu : k = u
    · rw [← hu, Smap.find?_set_self] at h
      simp only [Option.getD] at h
      rcases List.mem_append.mp h with h1 | h1
      · rw [← hu, hm]; exact Or.inl h1
      · simp only [List.mem_singleton] at h1
        exact Or.inr ⟨hu.symm, h1⟩
    · rw [Smap.find?_set_ne _ _ hu] at h
      exact Or.inl h

/-- `appendAt` records its element at a present key. -/
theorem appendAt_adds {α : Type} {m : Smap (List α)} {k : String} (x : α)
    (h : (m.find? k).isSome = true) :
    x ∈ ((appendAt m k x).find? k).getD [] := by
  unfold appendAt
  cases hm : m.find? k with
  | none => rw [hm] at h; cases h
  | some l =>
    rw [Smap.find?_set_self]
    simp

/-- `appendAt` grows a neighbor list by at most one entry. -/
theorem appendAt_len {α : Type} (m : Smap (List α)) (k : String) (x : α)
    (u : String) :
    (((appendAt m k x).find? u).getD []).length ≤
      ((m.find? u).getD []).length + 1 := by
  unfold appendAt
  cases hm : m.find? k with
  | none => simp only []; omega
  | some l =>
    simp only []
    by_cases hu : k = u
    · rw [← hu, Smap.find?_set_self, hm]
      simp
    · rw [Smap.find?_set_ne _ _ hu]
      omega

/-- A nonempty weight list has a minimum. -/
theorem minWeight?_of_mem {l : List ℤ} {x : ℤ} (h : x ∈ l) :
    ∃ m, minWeight? l = some m := by
  cases l with
  | nil => cases h
  | cons w ws => exact ⟨ws.foldl min w, rfl⟩

/-- Key presence is invariant under the whole edge fold. -/
theorem foldAdjW_isSome : ∀ (edges : List Edge) (m : Smap (List (String × ℤ)))
    (u : String),
    ((edges.foldl addEdgeW m).find? u).isSome = (m.find? u).isSome := by
  intro edges
  induction edges with
  | nil => intro m u; rfl
  | cons e tl ih =>
    intro m u
    rw [List.foldl_cons, ih, addEdgeW_eq, appendAt_isSome, appendAt_isSome]

/-- Neighbor lists only grow along the edge fold. -/
theorem foldAdjW_mono : ∀ (edges : List Edge) (m : Smap (List (String × ℤ)))
    (u : String) (y : String × ℤ),
    y ∈ (m.find? u).getD [] →
    y ∈ ((edges.foldl addEdgeW m).find? u).getD [] := by
  intro edges
  induction edges with
  | nil => intro m u y h; exact h
  | cons e tl ih =>
    intro m u y h
    rw [List.foldl_cons]
    refine ih _ u y ?_
    rw [addEdgeW_eq]
    exact appendAt_mono (appendAt_mono h)

/-- Every neighbor entry produced by the edge fold comes from the seed
map or from one of the folded edges. -/
theorem foldAdjW_inv : ∀ (edges : List Edge) (m : Smap (List (String × ℤ)))
    (u : String) (y : String × ℤ),
    y ∈ ((edges.foldl addEdgeW m).find? u).getD [] →
    y ∈ (m.find? u).getD [] ∨
      ∃ e ∈ edges,
        ((e.fromId = u ∧ e.toId = y.1) ∨ (e.toId = u ∧ e.fromId = y.1)) ∧
        e.weight = y.2 := by
  intro edges
  induction edges with
  | nil => intro m u y h; exact Or.inl h
  | cons e tl ih =>
    intro m u y h
    rw [List.foldl_cons] at h
    rcases ih _ u y h with h1 | ⟨e', he', hj, hw⟩
    · rw [addEdgeW_eq] at h1
      rcases appendAt_inv h1 with h2 | ⟨hu, hy⟩
      · rcases appendAt_inv h2 with h3 | ⟨hu, hy⟩
        · exact Or.inl h3
        · exact Or.inr ⟨e, List.mem_cons_self e tl,
            Or.inl ⟨hu.symm, by rw [hy]⟩, by rw [hy]⟩
      · exact Or.inr ⟨e, List.mem_cons_self e tl,
          Or.inr ⟨hu.symm, by rw [hy]⟩, by rw [hy]⟩
    · exact Or.inr ⟨e', List.mem_cons_of_mem e he', hj, hw⟩

/-- Each folded edge records both its directions at present keys. -/
theorem foldAdjW_complete : ∀ (edges : List Edge)
    (m : Smap (List (String × ℤ))) (e : Edge), e ∈ edges →
    ∀ u v : String,
    ((u = e.fromId ∧ v = e.toId) ∨ (u = e.toId ∧ v = e.fromId)) →
    (m.find? u).isSome = true →
    (v, e.weight) ∈ ((edges.foldl addEdgeW m).find? u).getD [] := by
  intro edges
  induction edges with
  | nil => intro m e he; cases he
  | cons hd tl ih =>
    intro m e he u v hdir hkey
    rw [List.foldl_cons]
    rcases List.mem_cons.mp he with rfl | he'
    · refine foldAdjW_mono tl _ u _ ?_
      rw [addEdgeW_eq]
      rcases hdir with ⟨hu, hv⟩ | ⟨hu, hv⟩
      · refine appendAt_mono ?_
        rw [hu, hv]
        exact appendAt_adds _ (by rw [← hu]; exact hkey)
      · rw [hu, hv]
        refine appendAt_adds _ ?_
        rw [appendAt_isSome, ← hu]
        exact hkey
    · refine ih _ e he' u v hdir ?_
      rw [addEdgeW_eq, appendAt_isSome, appendAt_isSome]
      exact hkey

/-- Neighbor lists grow by at most two entries per folded edge. -/
theorem foldAdjW_len : ∀ (edges : List Edge) (m : Smap (List (String × ℤ)))
    (u : String),
    (((edges.foldl addEdgeW m).find? u).getD []).length ≤
      ((m.find? u).getD []).length + 2 * edges.length := by
  intro edges
  induction edges with
  | nil => intro m u; simp
  | cons e tl ih =>
    intro m u
    rw [List.foldl_cons]
    have h1 := ih (addEdgeW m e) u
    have h2 : (((addEdgeW m e).find? u).getD []).length ≤
        ((m.find? u).getD []).length + 2 := by
      rw [addEdgeW_eq]
      have := appendAt_len (appendAt m e.fromId (e.toId, e.weight)) e.toId
        (e.fromId, e.weight) u
      have := appendAt_len m e.fromId (e.toId, e.weight) u
      omega
    simp only [List.length_cons]
    omega

/-- The adjacency seed map holds the empty list at every key. -/
theorem initAdjW_getD_nil (g : Graph) (u : String) :
    ((g.nodes.foldl (fun (m : Smap (List (String × ℤ))) n => m.set n.id [])
      Smap.empty).find? u).getD [] = [] := by
  by_cases hu : u ∈ g.nodes.map Node.id
  · rw [find?_nodesFold_mem (fun _ => ([] : List (String × ℤ))) u g.nodes
      Smap.empty hu]
    rfl
  · rw [find?_nodesFold_notmem (fun _ => ([] : List (String × ℤ))) u g.nodes
      Smap.empty hu]
    rfl

/-- Node keys are present in the adjacency seed map. -/
theorem initAdjW_isSome (g : Graph) (u : String) (hu : u ∈ nodeIds g) :
    ((g.nodes.foldl (fun (m : Smap (List (String × ℤ))) n => m.set n.id [])
      Smap.empty).find? u).isSome = true := by
  rw [find?_nodesFold_mem (fun _ => ([] : List (String × ℤ))) u g.nodes
    Smap.empty hu]
  rfl

/-- Adjacency soundness: every recorded neighbor entry is an edge of
the graph. -/
theorem buildAdjacencyW_sound {g : Graph} {u : String} {y : String × ℤ}
    (h : y ∈ (((buildAdjacencyW g).find? u).getD [])) :
    ∃ e ∈ g.edges,
      ((e.fromId = u ∧ e.toId = y.1) ∨ (e.toId = u ∧ e.fromId = y.1)) ∧
      e.weight = y.2 := by
  unfold buildAdjacencyW at h
  rcases foldAdjW_inv g.edges _ u y h with h1 | h1
  · rw [initAdjW_getD_nil] at h1
    cases h1
  · exact h1

/-- Adjacency completeness: both directions of every edge are recorded
at node keys. -/
theorem buildAdjacencyW_complete {g : Graph} {e : Edge} (he : e ∈ g.edges)
    {u v : String}
    (hdir : (u = e.fromId ∧ v = e.toId) ∨ (u = e.toId ∧ v = e.fromId))
    (hu : u ∈ nodeIds g) :
    (v, e.weight) ∈ (((buildAdjacencyW g).find? u).getD []) :=
  foldAdjW_complete g.edges _ e he u v hdir (initAdjW_isSome g u hu)

/-- A node's recorded neighbor list has at most two entries per edge. -/
theorem buildAdjacencyW_len (g : Graph) (u : String) :
    (((buildAdjacencyW g).find? u).getD []).length ≤ 2 * g.edges.length := by
  unfold buildAdjacencyW
  have := foldAdjW_len g.edges
    (g.nodes.foldl (fun (m : Smap (List (String × ℤ))) n => m.set n.id [])
      Smap.empty) u
  rw [initAdjW_getD_nil] at this
  simpa using this

/-- The cheapest edge joining two nodes is itself a recorded neighbor
entry of either endpoint. -/
theorem buildAdjacencyW_minW_mem {g : Graph} {u v : String} {m : ℤ}
    (hm : minWeight? (edgeWeightsBetween g u v) = some m)
    (hu : u ∈ nodeIds g) :
    (v, m) ∈ (((buildAdjacencyW g).find? u).getD []) := by
  obtain ⟨e, he, hj, hw⟩ := mem_edgeWeightsBetween.mp (minWeight?_mem hm)
  rcases hj with ⟨h1, h2⟩ | ⟨h1, h2⟩
  · have := buildAdjacencyW_complete he (Or.inl ⟨h1.symm, h2.symm⟩) hu
    rw [hw] at this
    exact this
  · have := buildAdjacencyW_complete he (Or.inr ⟨h2.symm, h1.symm⟩) hu
    rw [hw] at this
    exact this

/-- Every recorded neighbor entry dominates the joining minimum. -/
theorem buildAdjacencyW_mem_minW {g : Graph} {u : String} {y : String × ℤ}
    (h : y ∈ (((buildAdjacencyW g).find? u).getD [])) :
    ∃ mw, minWeight? (edgeWeightsBetween g u y.1) = some mw ∧ mw ≤ y.2 := by
  obtain ⟨e, he, hj, hw⟩ := buildAdjacencyW_sound h
  have hmem : y.2 ∈ edgeWeightsBetween g u y.1 := by
    refine mem_edgeWeightsBetween.mpr ⟨e, he, ?_, hw⟩
    rcases hj with ⟨h1, h2⟩ | ⟨h1, h2⟩
    · exact Or.inl ⟨h1, h2⟩
    · exact Or.inr ⟨h2, h1⟩
  obtain ⟨mw, hmw⟩ := minWeight?_of_mem hmem
  exact ⟨mw, hmw, minWeight?_le hmw hmem⟩

/-- Every recorded neighbor entry is an edge weight with node
endpoints (under edge well-formedness) and positive weight (under
positive weights). -/
theorem buildAdjacencyW_mem_props {g : Graph} {u : String} {y : String × ℤ}
    (HW : ∀ e ∈ g.edges, 1 ≤ e.weight)
    (HWF : ∀ e ∈ g.edges, e.fromId ∈ nodeIds g ∧ e.toId ∈ nodeIds g)
    (h : y ∈ (((buildAdjacencyW g).find? u).getD [])) :
    1 ≤ y.2 ∧ y.1 ∈ nodeIds g := by
  obtain ⟨e, he, hj, hw⟩ := buildAdjacencyW_sound h
  constructor
  · rw [← hw]; exact HW e he
  · rcases hj with ⟨_, h2⟩ | ⟨_, h2⟩
    · exact h2 ▸ (HWF e he).2
    · exact h2 ▸ (HWF e he).1

/-- `jsLt`-minimality composes through a present middle score:
nothing below `b`, `b` not below `e`, hence nothing below `e`. -/
theorem jsLt_false_trans {x e : Option QInf} {b : QInf}
    (h1 : jsLt x (some b) = false) (h2 : jsLt (some b) e = false) :
    jsLt x e = false := by
  cases x with
  | none => exact jsLt_none_left e
  | some a =>
    cases e with
    | none => exact jsLt_none_right (some a)
    | some c =>
      simp only [jsLt, decide_eq_false_iff_not, not_lt] at h1 h2
      simp only [jsLt, decide_eq_false_iff_not, not_lt]
      exact le_trans h2 h1

/-- The extracted entry of `popMinAux` has a minimal score. -/
theorem popMinAux_min :
    ∀ {l : List (Option QInf × String)} {e : Option QInf × String}
      {rest : List (Option QInf × String)},
      (∀ x ∈ l, ∃ q : QInf, x.1 = some q) →
      popMinAux l = some (e, rest) → ∀ x ∈ l, jsLt x.1 e.1 = false := by
  intro l
  induction l with
  | nil => intro e rest _ h; cases h
  | cons a t ih =>
    intro e rest hall h x hx
    simp only [popMinAux] at h
    cases ht : popMinAux t with
    | none =>
      rw [ht] at h
      rw [popMinAux_eq_none_iff] at ht
      simp only [Option.some.injEq, Prod.mk.injEq] at h
      rcases List.mem_cons.mp hx with rfl | hx'
      · rw [← h.1]
        cases hxx : jsLt x.1 x.1 with
        | false => rfl
        | true =>
          cases hx1 : x.1 with
          | none => rw [hx1] at hxx; rw [jsLt_none_left] at hxx; exact hxx.symm
          | some q =>
            rw [hx1] at hxx
            rw [jsLt_some_some] at hxx
            exact absurd hxx (lt_irrefl q)
      · rw [ht] at hx'; cases hx'
    | some p =>
      obtain ⟨m, rest'⟩ := p
      rw [ht] at h
      simp only [] at h
      by_cases hc : jsLt m.1 a.1 = true
      · rw [if_pos hc] at h
        simp only [Option.some.injEq, Prod.mk.injEq] at h
        rcases List.mem_cons.mp hx with rfl | hx'
        · rw [← h.1]
          cases hxm : jsLt x.1 m.1 with
          | false => rfl
          | true =>
            cases hm1 : m.1 with
            | none => rw [hm1, jsLt_none_right] at hxm; exact hxm.symm
            | some b =>
              cases hx1 : x.1 with
              | none => rw [hx1, jsLt_none_left] at hxm; exact hxm.symm
              | some a' =>
                rw [hm1, hx1] at hc hxm
                rw [jsLt_some_some] at hc hxm
                exact absurd (lt_trans hxm hc) (lt_irrefl a')
        · rw [← h.1]
          exact ih (fun y hy => hall y (List.mem_cons_of_mem a hy)) ht x hx'
      · rw [if_neg hc] at h
        simp only [Option.some.injEq, Prod.mk.injEq] at h
        rcases List.mem_cons.mp hx with rfl | hx'
        · rw [← h.1]
          cases hxx : jsLt x.1 x.1 with
          | false => rfl
          | true =>
            cases hx1 : x.1 with
            | none => rw [hx1, jsLt_none_left] at hxx; exact hxx.symm
            | some q =>
              rw [hx1, jsLt_some_some] at hxx
              exact absurd hxx (lt_irrefl q)
        · rw [← h.1]
          obtain ⟨q, hq⟩ := hall m
            (List.mem_cons_of_mem a (popMinAux_mem ht).1)
          have hxm := ih (fun y hy => hall y (List.mem_cons_of_mem a hy)) ht x hx'
          rw [hq] at hxm
          refine jsLt_false_trans hxm ?_
          rw [← hq]
          exact Bool.eq_false_iff.mpr hc

/-- `popMinAux` removes exactly one occurrence of the extracted
entry. -/
theorem popMinAux_split :
    ∀ {l : List (Option QInf × String)} {e : Option QInf × String}
      {rest : List (Option QInf × String)},
      popMinAux l = some (e, rest) →
      ∃ l1 l2, l = l1 ++ e :: l2 ∧ rest = l1 ++ l2 := by
  intro l
  induction l with
  | nil => intro e rest h; cases h
  | cons a t ih =>
    intro e rest h
    simp only [popMinAux] at h
    cases ht : popMinAux t with
    | none =>
      rw [ht] at h
      rw [popMinAux_eq_none_iff] at ht
      simp only [Option.some.injEq, Prod.mk.injEq] at h
      refine ⟨[], [], ?_, by rw [← h.2]; rfl⟩
      rw [← h.1, ht]
      rfl
    | some p =>
      obtain ⟨m, rest'⟩ := p
      rw [ht] at h
      simp only [] at h
      by_cases hc : jsLt m.1 a.1 = true
      · rw [if_pos hc] at h
        simp only [Option.some.injEq, Prod.mk.injEq] at h
        obtain ⟨l1, l2, hl, hr⟩ := ih ht
        refine ⟨a :: l1, l2, ?_, ?_⟩
        · rw [← h.1, hl]; rfl
        · rw [← h.2, hr]; rfl
      · rw [if_neg hc] at h
        simp only [Option.some.injEq, Prod.mk.injEq] at h
        refine ⟨[], t, ?_, ?_⟩
        · rw [← h.1, List.nil_append]
        · rw [← h.2, List.nil_append]

/-- After `popMinAux`, every entry other than the extracted occurrence
is still present. -/
theorem popMinAux_rest_mem {l : List (Option QInf × String)}
    {e x : Option QInf × String} {rest : List (Option QInf × String)}
    (h : popMinAux l = some (e, rest)) (hx : x ∈ l) (hne : x ≠ e) :
    x ∈ rest := by
  obtain ⟨l1, l2, hl, hr⟩ := popMinAux_split h
  rw [hl] at hx
  rw [hr]
  rcases List.mem_append.mp hx with h1 | h1
  · exact List.mem_append_left _ h1
  · rcases List.mem_cons.mp h1 with h2 | h2
    · exact absurd h2 hne
    · exact List.mem_append_right _ h2

/-- `popMinAux` shortens the entry list by exactly one. -/
theorem popMinAux_rest_length {l : List (Option QInf × String)}
    {e : Option QInf × String} {rest : List (Option QInf × String)}
    (h : popMinAux l = some (e, rest)) :
    rest.length + 1 = l.length := by
  obtain ⟨l1, l2, hl, hr⟩ := popMinAux_split h
  rw [hl, hr]
  simp
  omega

/-- A start-to-target node path of a given total weight. -/
def IsPathW (g : Graph) (s t : String) (p : List String) (w : ℤ) : Prop :=
  p.head? = some s ∧ p.getLast? = some t ∧ pathWeight g p = some w

/-- The relaxed-frontier property of the Dijkstra loop at one visited
node: every unvisited node joined to it has a recorded distance at
most the visited distance plus the cheapest joining edge. -/
def FrontAt (cfg : AlgorithmConfig) (st : DState) (x : String) : Prop :=
  ∀ v (m : ℤ), v ∉ st.visitedNodes →
    minWeight? (edgeWeightsBetween cfg.graph x v) = some m →
    ∃ dx dv : ℤ, st.distances.find? x = some ((dx : ℤ) : QInf) ∧
      st.distances.find? v = some ((dv : ℤ) : QInf) ∧ dv ≤ dx + m

/-- Core invariant of the batch Dijkstra loop: distance keys are the
node ids, finite distances are nonnegative, the start keeps a
nonpositive distance, the visited set is duplicate-free and consists of
nodes with finite distances, every frontier entry carries a present
score dominating the recorded distance of its node, every unvisited
node with a finite distance has a fresh frontier entry, every non-start
node with a finite distance has a parent one cheapest-edge below it,
and every visited distance is a lower bound on all start paths. -/
structure DijkCore (cfg : AlgorithmConfig) (st : DState) : Prop where
  keys : ∀ v, (st.distances.find? v).isSome = true ↔ v ∈ nodeIds cfg.graph
  nonneg : ∀ v (dv : ℤ), st.distances.find? v = some ((dv : ℤ) : QInf) → 0 ≤ dv
  startLe : ∃ ds : ℤ,
    st.distances.find? cfg.startNode = some ((ds : ℤ) : QInf) ∧ ds ≤ 0
  visNodup : st.visitedNodes.Nodup
  visSub : ∀ v ∈ st.visitedNodes, v ∈ nodeIds cfg.graph
  visFin : ∀ v ∈ st.visitedNodes, ∃ dv : ℤ,
    st.distances.find? v = some ((dv : ℤ) : QInf)
  heapSound : ∀ pr ∈ st.pq.entries, ∃ (pz dv : ℤ),
    pr.1 = some ((pz : ℤ) : QInf) ∧
    st.distances.find? pr.2 = some ((dv : ℤ) : QInf) ∧ dv ≤ pz
  fresh : ∀ v (dv : ℤ), v ∉ st.visitedNodes →
    st.distances.find? v = some ((dv : ℤ) : QInf) →
    (some ((dv : ℤ) : QInf), v) ∈ st.pq.entries
  parent : ∀ v (dv : ℤ), v ≠ cfg.startNode →
    st.distances.find? v = some ((dv : ℤ) : QInf) →
    ∃ (u : String) (du : ℤ) (w : ℤ) (mw : ℤ),
      st.previousNodes.find? v = some (some u) ∧
      u ∈ nodeIds cfg.graph ∧
      st.distances.find? u = some ((du : ℤ) : QInf) ∧
      minWeight? (edgeWeightsBetween cfg.graph u v) = some mw ∧
      mw ≤ w ∧ 1 ≤ w ∧ du + w ≤ dv
  visLB : ∀ v ∈ st.visitedNodes, ∀ (dv : ℤ),
    st.distances.find? v = some ((dv : ℤ) : QInf) →
    ∀ q w, IsPathW cfg.graph cfg.startNode v q w → dv ≤ w

/-- `set` at a present key preserves key presence everywhere. -/
theorem Smap.isSome_set_of_mem {α : Type} {m : Smap α} {k : String} (v : α)
    (hk : (m.find? k).isSome = true) (k' : String) :
    ((m.set k v).find? k').isSome = (m.find? k').isSome := by
  by_cases h : k = k'
  · rw [← h, Smap.find?_set_self]
    cases hm : m.find? k with
    | none => rw [hm] at hk; cases hk
    | some l => rfl
  · rw [Smap.find?_set_ne _ _ h]

/-- Inversion of the improvement guard of `dijkstraRelaxOne`: the
current node's distance is present and finite, the neighbor's distance
is present, and the sum strictly improves it. -/
theorem relax_guard_inv {D : Smap QInf} {c v : String} {w : ℤ}
    (h : jsLt (jsAdd (D.find? c) (some ((w : ℤ) : QInf))) (D.find? v) = true) :
    ∃ (dc : ℤ) (old : QInf), D.find? c = some ((dc : ℤ) : QInf) ∧
      D.find? v = some old ∧ (((dc + w : ℤ) : ℤ) : QInf) < old ∧
      jsAdd (D.find? c) (some ((w : ℤ) : QInf)) =
        some (((dc + w : ℤ) : ℤ) : QInf) := by
  cases hc : D.find? c with
  | none =>
    rw [hc] at h
    rw [show jsAdd none (some ((w : ℤ) : QInf)) = none from rfl] at h
    rw [jsLt_none_left] at h
    cases h
  | some x =>
    rw [hc] at h
    rw [show jsAdd (some x) (some ((w : ℤ) : QInf)) =
      some (x + ((w : ℤ) : QInf)) from rfl] at h
    cases hv : D.find? v with
    | none => rw [hv, jsLt_none_right] at h; cases h
    | some old =>
      rw [hv, jsLt_some_some] at h
      induction x using WithTop.recTopCoe with
      | top =>
        rw [WithTop.top_add] at h
        exact absurd h (not_top_lt)
      | coe dc =>
        rw [← WithTop.coe_add] at h
        refine ⟨dc, old, rfl, rfl, h, ?_⟩
        rw [show jsAdd (some ((dc : ℤ) : QInf)) (some ((w : ℤ) : QInf)) =
          some (((dc : ℤ) : QInf) + ((w : ℤ) : QInf)) from rfl]
        rw [← WithTop.coe_add]

/-- One relaxation step preserves the core Dijkstra invariant, given
that the relaxing node is a graph node and the neighbor entry comes
from the adjacency index (positive weight dominating the joining
minimum). -/
theorem dijkstraRelaxOne_core (cfg : AlgorithmConfig) (c : String)
    (st : DState) (nb : String × ℤ)
    (hc : c ∈ nodeIds cfg.graph)
    (hw1 : 1 ≤ nb.2)
    (hmw : ∃ mw : ℤ,
      minWeight? (edgeWeightsBetween cfg.graph c nb.1) = some mw ∧ mw ≤ nb.2)
    (h : DijkCore cfg st) : DijkCore cfg (dijkstraRelaxOne c st nb) := by
  obtain ⟨D, P, V, PQ, S⟩ := st
  obtain ⟨keys, nonneg, startLe, visNodup, visSub, visFin, heapSound,
    fresh, parent, visLB⟩ := h
  unfold dijkstraRelaxOne
  simp only [] at keys nonneg startLe visSub visFin heapSound ⊢
  simp only [] at fresh
  simp only [] at parent
  simp only [] at visLB
  split
  · exact ⟨keys, nonneg, startLe, visNodup, visSub, visFin, heapSound,
      fresh, parent, visLB⟩
  · next hvnb =>
    have hvm : nb.1 ∉ V := fun hm => hvnb (Sset.has_iff_mem.mpr hm)
    split
    · next hlt =>
      obtain ⟨dc, old, hdc, hold, hord, hsum⟩ := relax_guard_inv hlt
      rw [hsum]
      simp only []
      have hknb : (D.find? nb.1).isSome = true := by rw [hold]; rfl
      have hdc0 : 0 ≤ dc := nonneg c dc hdc
      have hcne : c ≠ nb.1 := by
        intro he
        rw [he, hold] at hdc
        have hoe : old = ((dc : ℤ) : QInf) := Option.some.inj hdc
        rw [hoe] at hord
        have : (dc + nb.2 : ℤ) < dc := by exact_mod_cast hord
        omega
      refine ⟨?_, ?_, ?_, visNodup, visSub, ?_, ?_, ?_, ?_, ?_⟩
      · intro v
        rw [Smap.isSome_set_of_mem _ hknb v]
        exact keys v
      · intro v dv h1
        rcases Smap.find?_set_cases h1 with he | h2
        · rw [he, Smap.find?_set_self] at h1
          have := Option.some.inj h1
          have hz := WithTop.coe_inj.mp this
          omega
        · exact nonneg v dv h2
      · obtain ⟨ds, hds, hds0⟩ := startLe
        by_cases hsnb : cfg.startNode = nb.1
        · rw [hsnb] at hds
          rw [hold] at hds
          have : old = ((ds : ℤ) : QInf) := Option.some.inj hds.symm |>.symm
          · rw [this] at hord
            have hlt2 : (dc + nb.2 : ℤ) < ds := by exact_mod_cast hord
            exact ⟨dc + nb.2, by rw [hsnb, Smap.find?_set_self], by omega⟩
        · exact ⟨ds, by
            rw [Smap.find?_set_ne _ _ (fun hh => hsnb hh.symm)]
            exact hds, hds0⟩
      · intro v hv
        have hne : nb.1 ≠ v := fun he => hvm (he ▸ hv)
        obtain ⟨dv, hdv⟩ := visFin v hv
        exact ⟨dv, by rw [Smap.find?_set_ne _ _ hne]; exact hdv⟩
      · intro pr hpr
        simp only [MinHeap.push] at hpr
        rcases List.mem_append.mp hpr with h1 | h1
        · obtain ⟨pz, dv, hpz, hdv, hle⟩ := heapSound pr h1
          by_cases he : nb.1 = pr.2
          · refine ⟨pz, dc + nb.2, hpz, ?_, ?_⟩
            · rw [← he, Smap.find?_set_self]
            · rw [← he, hold] at hdv
              have : old = ((dv : ℤ) : QInf) := Option.some.inj hdv
              rw [this] at hord
              have : (dc + nb.2 : ℤ) < dv := by exact_mod_cast hord
              omega
          · exact ⟨pz, dv, hpz, by rw [Smap.find?_set_ne _ _ he]; exact hdv, hle⟩
        · simp only [List.mem_singleton] at h1
          rw [h1]
          exact ⟨dc + nb.2, dc + nb.2, rfl, by rw [Smap.find?_set_self], le_refl _⟩
      · intro v dv hvv h1
        simp only [MinHeap.push]
        by_cases he : nb.1 = v
        · rw [← he, Smap.find?_set_self] at h1
          have := Option.some.inj h1
          rw [← he, ← this]
          exact List.mem_append_right _ (List.mem_singleton.mpr rfl)
        · rw [Smap.find?_set_ne _ _ he] at h1
          exact List.mem_append_left _ (fresh v dv hvv h1)
      · intro v dv hvs h1
        obtain ⟨mw, hmw1, hmw2⟩ := hmw
        by_cases he : nb.1 = v
        · rw [← he, Smap.find?_set_self] at h1
          have hz := WithTop.coe_inj.mp (Option.some.inj h1)
          refine ⟨c, dc, nb.2, mw, ?_, hc, ?_, ?_, hmw2, hw1, by omega⟩
          · rw [← he, Smap.find?_set_self]
          · rw [Smap.find?_set_ne _ _ (fun hh => hcne hh.symm)]
            exact hdc
          · rw [← he]
            exact hmw1
        · rw [Smap.find?_set_ne _ _ he] at h1
          obtain ⟨u, du, w, mw', hp, hun, hdu, hmw', hle1, hle2, hle3⟩ :=
            parent v dv hvs h1
          by_cases hue : nb.1 = u
          · refine ⟨u, dc + nb.2, w, mw', ?_, hun, ?_, hmw', hle1, hle2, ?_⟩
            · rw [Smap.find?_set_ne _ _ he]
              exact hp
            · rw [← hue, Smap.find?_set_self]
            · rw [← hue, hold] at hdu
              have : old = ((du : ℤ) : QInf) := Option.some.inj hdu
              rw [this] at hord
              have : (dc + nb.2 : ℤ) < du := by exact_mod_cast hord
              omega
          · refine ⟨u, du, w, mw', ?_, hun, ?_, hmw', hle1, hle2, hle3⟩
            · rw [Smap.find?_set_ne _ _ he]
              exact hp
            · rw [Smap.find?_set_ne _ _ hue]
              exact hdu
      · intro v hv dv h1 q w hq
        have hne : nb.1 ≠ v := fun he => hvm (he ▸ hv)
        rw [Smap.find?_set_ne _ _ hne] at h1
        exact visLB v hv dv h1 q w hq
    · exact ⟨keys, nonneg, startLe, visNodup, visSub, visFin, heapSound,
        fresh, parent, visLB⟩

/-- The visited set is invariant under one relaxation. -/
theorem dijkstraRelaxOne_visited (c : String) (st : DState) (nb : String × ℤ) :
    (dijkstraRelaxOne c st nb).visitedNodes = st.visitedNodes := by
  unfold dijkstraRelaxOne
  split
  · rfl
  · simp only []
    split
    · split
      · rfl
      · rfl
    · rfl

/-- A visited node's recorded distance is invariant under one
relaxation (the visited guard skips it). -/
theorem dijkstraRelaxOne_find?_vis (c : String) (st : DState)
    (nb : String × ℤ) (v : String) (hv : v ∈ st.visitedNodes) :
    (dijkstraRelaxOne c st nb).distances.find? v = st.distances.find? v := by
  unfold dijkstraRelaxOne
  split
  · rfl
  · next hvnb =>
    simp only []
    split
    · next hlt =>
      obtain ⟨dc, old, hdc, hold, hord, hsum⟩ := relax_guard_inv hlt
      rw [hsum]
      simp only []
      refine Smap.find?_set_ne _ _ ?_
      intro he
      exact hvnb (Sset.has_iff_mem.mpr (he ▸ hv))
    · rfl

/-- Key presence is invariant under one relaxation. -/
theorem dijkstraRelaxOne_isSome (c : String) (st : DState) (nb : String × ℤ)
    (v : String) :
    ((dijkstraRelaxOne c st nb).distances.find? v).isSome =
      (st.distances.find? v).isSome := by
  unfold dijkstraRelaxOne
  split
  · rfl
  · simp only []
    split
    · next hlt =>
      obtain ⟨dc, old, hdc, hold, hord, hsum⟩ := relax_guard_inv hlt
      rw [hsum]
      simp only []
      exact Smap.isSome_set_of_mem _ (by rw [hold]; rfl) v
    · rfl

/-- One relaxation only lowers recorded distances. -/
theorem dijkstraRelaxOne_mono (c : String) (st : DState) (nb : String × ℤ)
    (v : String) (x : QInf) (h : st.distances.find? v = some x) :
    ∃ y : QInf, (dijkstraRelaxOne c st nb).distances.find? v = some y ∧
      y ≤ x := by
  unfold dijkstraRelaxOne
  split
  · exact ⟨x, h, le_refl x⟩
  · simp only []
    split
    · next hlt =>
      obtain ⟨dc, old, hdc, hold, hord, hsum⟩ := relax_guard_inv hlt
      rw [hsum]
      simp only []
      by_cases he : nb.1 = v
      · refine ⟨(((dc + nb.2 : ℤ) : ℤ) : QInf), by rw [← he, Smap.find?_set_self], ?_⟩
        rw [← he] at h
        rw [hold] at h
        have : old = x := Option.some.inj h
        rw [← this]
        exact le_of_lt hord
      · exact ⟨x, by rw [Smap.find?_set_ne _ _ he]; exact h, le_refl x⟩
    · exact ⟨x, h, le_refl x⟩

/-- Relaxation over a list only lowers recorded distances. -/
theorem dijkstraRelax_mono (c : String) :
    ∀ (nbrs : List (String × ℤ)) (st : DState) (v : String) (x : QInf),
      st.distances.find? v = some x →
      ∃ y : QInf, (dijkstraRelax c st nbrs).distances.find? v = some y ∧
        y ≤ x := by
  intro nbrs
  induction nbrs with
  | nil => intro st v x h; exact ⟨x, h, le_refl x⟩
  | cons nb t ih =>
    intro st v x h
    obtain ⟨y, hy, hyx⟩ := dijkstraRelaxOne_mono c st nb v x h
    obtain ⟨z, hz, hzy⟩ := ih (dijkstraRelaxOne c st nb) v y hy
    exact ⟨z, hz, le_trans hzy hyx⟩

/-- Relaxation over a list leaves the visited set unchanged. -/
theorem dijkstraRelax_visited (c : String) :
    ∀ (nbrs : List (String × ℤ)) (st : DState),
      (dijkstraRelax c st nbrs).visitedNodes = st.visitedNodes := by
  intro nbrs
  induction nbrs with
  | nil => intro st; rfl
  | cons nb t ih =>
    intro st
    show (dijkstraRelax c (dijkstraRelaxOne c st nb) t).visitedNodes = _
    rw [ih, dijkstraRelaxOne_visited]

/-- Relaxation over a list leaves visited nodes' distances unchanged. -/
theorem dijkstraRelax_find?_vis (c : String) :
    ∀ (nbrs : List (String × ℤ)) (st : DState) (v : String),
      v ∈ st.visitedNodes →
      (dijkstraRelax c st nbrs).distances.find? v = st.distances.find? v := by
  intro nbrs
  induction nbrs with
  | nil => intro st v _; rfl
  | cons nb t ih =>
    intro st v hv
    show (dijkstraRelax c (dijkstraRelaxOne c st nb) t).distances.find? v = _
    rw [ih _ v (by rw [dijkstraRelaxOne_visited]; exact hv),
      dijkstraRelaxOne_find?_vis c st nb v hv]

/-- Relaxation over an adjacency-sourced neighbor list preserves the
core invariant. -/
theorem dijkstraRelax_core (cfg : AlgorithmConfig) (c : String)
    (hc : c ∈ nodeIds cfg.graph) :
    ∀ (nbrs : List (String × ℤ)) (st : DState),
      (∀ nb ∈ nbrs, 1 ≤ nb.2 ∧
        ∃ mw : ℤ, minWeight? (edgeWeightsBetween cfg.graph c nb.1) = some mw ∧
          mw ≤ nb.2) →
      DijkCore cfg st → DijkCore cfg (dijkstraRelax c st nbrs) := by
  intro nbrs
  induction nbrs with
  | nil => intro st _ h; exact h
  | cons nb t ih =>
    intro st hnb h
    show DijkCore cfg (dijkstraRelax c (dijkstraRelaxOne c st nb) t)
    refine ih _ (fun x hx => hnb x (List.mem_cons_of_mem nb hx)) ?_
    exact dijkstraRelaxOne_core cfg c st nb hc
      (hnb nb (List.mem_cons_self nb t)).1
      (hnb nb (List.mem_cons_self nb t)).2 h

/-- One relaxation preserves the relaxed-frontier property at a
visited node. -/
theorem dijkstraRelaxOne_frontAt (cfg : AlgorithmConfig) (c : String)
    (st : DState) (nb : String × ℤ) (x : String) (hx : x ∈ st.visitedNodes)
    (hf : FrontAt cfg st x) : FrontAt cfg (dijkstraRelaxOne c st nb) x := by
  intro v m hv hm
  rw [dijkstraRelaxOne_visited] at hv
  obtain ⟨dx, dv, hdx, hdv, hle⟩ := hf v m hv hm
  refine ⟨dx, ?_⟩
  rw [dijkstraRelaxOne_find?_vis c st nb x hx]
  obtain ⟨y, hy, hyle⟩ := dijkstraRelaxOne_mono c st nb v _ hdv
  obtain ⟨dv', hdv', hdvle⟩ := WithTop.le_coe_iff.mp hyle
  refine ⟨dv', hdx, ?_, by omega⟩
  rw [hy, hdv']

/-- Relaxation over a list preserves the relaxed-frontier property at
a visited node. -/
theorem dijkstraRelax_frontAt (cfg : AlgorithmConfig) (c : String) :
    ∀ (nbrs : List (String × ℤ)) (st : DState) (x : String),
      x ∈ st.visitedNodes → FrontAt cfg st x →
      FrontAt cfg (dijkstraRelax c st nbrs) x := by
  intro nbrs
  induction nbrs with
  | nil => intro st x _ hf; exact hf
  | cons nb t ih =>
    intro st x hx hf
    show FrontAt cfg (dijkstraRelax c (dijkstraRelaxOne c st nb) t) x
    refine ih _ x ?_ (dijkstraRelaxOne_frontAt cfg c st nb x hx hf)
    rw [dijkstraRelaxOne_visited]
    exact hx

/-- After relaxing the whole neighbor list from a visited node with a
finite distance, every unvisited listed neighbor with a present
distance key ends at most one edge beyond it. -/
theorem dijkstraRelax_le (c : String) :
    ∀ (nbrs : List (String × ℤ)) (st : DState),
      c ∈ st.visitedNodes →
      ∀ dc : ℤ, st.distances.find? c = some ((dc : ℤ) : QInf) →
      ∀ nb ∈ nbrs, nb.1 ∉ st.visitedNodes →
        (st.distances.find? nb.1).isSome = true →
        ∃ dv : ℤ,
          (dijkstraRelax c st nbrs).distances.find? nb.1 =
            some ((dv : ℤ) : QInf) ∧ dv ≤ dc + nb.2 := by
  intro nbrs
  induction nbrs with
  | nil => intro st _ dc _ nb hnb; cases hnb
  | cons nb' t ih =>
    intro st hcv dc hdc nb hnb hnv hkey
    rcases List.mem_cons.mp hnb with rfl | hnb'
    · have h1 : ∃ y : QInf,
          (dijkstraRelaxOne c st nb).distances.find? nb.1 = some y ∧
          y ≤ (((dc + nb.2 : ℤ) : ℤ) : QInf) := by
        unfold dijkstraRelaxOne
        rw [if_neg (fun hh => hnv (Sset.has_iff_mem.mp hh))]
        simp only []
        rw [hdc]
        rw [show jsAdd (some ((dc : ℤ) : QInf)) (some ((nb.2 : ℤ) : QInf)) =
          some (((dc + nb.2 : ℤ) : ℤ) : QInf) from by
          rw [show jsAdd (some ((dc : ℤ) : QInf)) (some ((nb.2 : ℤ) : QInf)) =
            some (((dc : ℤ) : QInf) + ((nb.2 : ℤ) : QInf)) from rfl]
          rw [← WithTop.coe_add]]
        cases hold : st.distances.find? nb.1 with
        | none => rw [hold] at hkey; cases hkey
        | some x =>
          by_cases hg : jsLt (some (((dc + nb.2 : ℤ) : ℤ) : QInf)) (some x) = true
          · rw [if_pos hg]
            simp only []
            exact ⟨_, Smap.find?_set_self _ _ _, le_refl _⟩
          · rw [if_neg hg]
            rw [jsLt_some_some] at hg
            exact ⟨x, hold, le_of_not_lt hg⟩
      obtain ⟨y, hy, hyle⟩ := h1
      obtain ⟨z, hz, hzy⟩ := dijkstraRelax_mono c t _ nb.1 y hy
      obtain ⟨dv, hdv, hdvle⟩ := WithTop.le_coe_iff.mp (le_trans hzy hyle)
      exact ⟨dv, by rw [← hdv]; exact hz, hdvle⟩
    · refine ih (dijkstraRelaxOne c st nb') ?_ dc ?_ nb hnb' ?_ ?_
      · rw [dijkstraRelaxOne_visited]; exact hcv
      · rw [dijkstraRelaxOne_find?_vis c st nb' c hcv]; exact hdc
      · rw [dijkstraRelaxOne_visited]; exact hnv
      · rw [dijkstraRelaxOne_isSome]; exact hkey

/-- A failed strict comparison of present finite scores is a reverse
bound. -/
theorem le_of_jsLt_false {a b : ℤ}
    (h : jsLt (some ((a : ℤ) : QInf)) (some ((b : ℤ) : QInf)) = false) :
    b ≤ a := by
  by_contra hc
  rw [(jsLt_some_coe a b).mpr (by omega)] at h
  cases h

/-- The cut argument: when the frontier minimum has score `pz`, every
start path to an unvisited node weighs at least `pz` (decompose the
path at its last step; a visited last-but-one node has relaxed the
target, an unvisited one is covered by induction on the prefix). -/
theorem dijkstra_cut (cfg : AlgorithmConfig) (st : DState)
    (hcore : DijkCore cfg st)
    (hfront : ∀ x ∈ st.visitedNodes, FrontAt cfg st x)
    (HW : ∀ e ∈ cfg.graph.edges, 1 ≤ e.weight)
    {e : Option QInf × String} {rest : List (Option QInf × String)}
    (hpop : popMinAux st.pq.entries = some (e, rest))
    {pz : ℤ} (hpz : e.1 = some ((pz : ℤ) : QInf)) :
    ∀ (q : List String) (v : String) (w : ℤ),
      IsPathW cfg.graph cfg.startNode v q w → v ∉ st.visitedNodes →
      pz ≤ w := by
  have hall : ∀ x ∈ st.pq.entries, ∃ qq : QInf, x.1 = some qq :=
    fun x hx => by
      obtain ⟨pz', dv, h1, _⟩ := hcore.heapSound x hx
      exact ⟨((pz' : ℤ) : QInf), h1⟩
  have hmin : ∀ x ∈ st.pq.entries, jsLt x.1 e.1 = false :=
    popMinAux_min hall hpop
  intro q
  induction q using List.reverseRecOn with
  | nil =>
    intro v w hq _
    obtain ⟨hh, _, _⟩ := hq
    cases hh
  | append_singleton l a ih =>
    intro v w hq hv
    obtain ⟨hh, hl, hw⟩ := hq
    rw [List.getLast?_concat] at hl
    have hav : a = v := Option.some.inj hl
    subst hav
    cases l with
    | nil =>
      simp only [List.nil_append, List.head?_cons, Option.some.injEq] at hh
      simp only [List.nil_append] at hw
      simp only [pathWeight, Option.some.injEq] at hw
      obtain ⟨ds, hds, hds0⟩ := hcore.startLe
      rw [hh] at hv
      have hmem := hcore.fresh cfg.startNode ds hv hds
      have hjl := hmin _ hmem
      rw [hpz] at hjl
      have := le_of_jsLt_false hjl
      omega
    | cons b l' =>
      obtain ⟨y, hly⟩ : ∃ y, (b :: l').getLast? = some y := by
        cases hg : (b :: l').getLast? with
        | some y => exact ⟨y, rfl⟩
        | none => rw [List.getLast?_eq_none_iff] at hg; cases hg
      obtain ⟨wl, m, hwl, hm, hsum⟩ :=
        pathWeight_append_single_inv a (b :: l') y w hly hw
      have hhead : (b :: l').head? = some cfg.startNode := by
        simpa using hh
      by_cases hyv : y ∈ st.visitedNodes
      · obtain ⟨dy, hdy⟩ := hcore.visFin y hyv
        have hlb := hcore.visLB y hyv dy hdy (b :: l') wl ⟨hhead, hly, hwl⟩
        obtain ⟨dx, dv, hdx, hdv, hle⟩ := hfront y hyv a m hv hm
        have hxy : dx = dy := by
          rw [hdy] at hdx
          exact (WithTop.coe_inj.mp (Option.some.inj hdx)).symm
        have hmem := hcore.fresh a dv hv hdv
        have hjl := hmin _ hmem
        rw [hpz] at hjl
        have := le_of_jsLt_false hjl
        omega
      · have hpre := ih y wl ⟨hhead, hly, hwl⟩ hyv
        have hm1 := minWeight?_pos HW hm
        omega

/-- `MinHeap.pop` in terms of `popMinAux`. -/
theorem MinHeap.pop_popMinAux {h : MinHeap} {e : Option QInf × String}
    {pq' : MinHeap} (hp : h.pop = some (e, pq')) :
    popMinAux h.entries = some (e, pq'.entries) := by
  unfold MinHeap.pop at hp
  cases hm : popMinAux h.entries with
  | none => rw [hm] at hp; cases hp
  | some p =>
    obtain ⟨e0, r0⟩ := p
    rw [hm] at hp
    simp only [Option.some.injEq, Prod.mk.injEq] at hp
    rw [hp.1, ← hp.2]

/-- `Set.add` keeps the visited list duplicate-free. -/
theorem Sset.add_nodup {s : Sset} (h : s.Nodup) (k : String) :
    (s.add k).Nodup := by
  unfold Sset.add
  by_cases hc : s.has k = true
  · rw [if_pos hc]; exact h
  · rw [if_neg hc]
    exact nodup_append_single h (fun hm => hc (Sset.has_iff_mem.mpr hm))

/-- Finalizing the popped frontier minimum preserves the core
invariant and the frontier property of previously visited nodes, and
the popped score equals the recorded distance of the popped node. -/
theorem dijkstra_visit_core (cfg : AlgorithmConfig) (D : Smap QInf)
    (P : Smap (Option String)) (V : Sset) (PQ : MinHeap)
    (S S2 : List PathStep)
    (HW : ∀ e ∈ cfg.graph.edges, 1 ≤ e.weight)
    (hcore : DijkCore cfg ⟨D, P, V, PQ, S⟩)
    (hfront : ∀ x ∈ V, FrontAt cfg ⟨D, P, V, PQ, S⟩ x)
    {current : Option QInf × String} {rest : List (Option QInf × String)}
    (hpop : popMinAux PQ.entries = some (current, rest))
    (hv : current.2 ∉ V) :
    DijkCore cfg ⟨D, P, V.add current.2, ⟨rest⟩, S2⟩ ∧
    (∀ x ∈ V, FrontAt cfg ⟨D, P, V.add current.2, ⟨rest⟩, S2⟩ x) ∧
    ∃ du : ℤ, current.1 = some ((du : ℤ) : QInf) ∧
      D.find? current.2 = some ((du : ℤ) : QInf) := by
  obtain ⟨keys, nonneg, startLe, visNodup, visSub, visFin, heapSound,
    fresh, parent, visLB⟩ := hcore
  simp only [] at keys nonneg startLe visSub visFin heapSound
  simp only [] at fresh
  simp only [] at parent
  simp only [] at visLB
  obtain ⟨pz, du, hpz, hdu, hdule⟩ :=
    heapSound current (popMinAux_mem hpop).1
  have hfreshu := fresh current.2 du hv hdu
  have hall : ∀ x ∈ PQ.entries, ∃ qq : QInf, x.1 = some qq :=
    fun x hx => by
      obtain ⟨pz', dv, h1, _⟩ := heapSound x hx
      exact ⟨((pz' : ℤ) : QInf), h1⟩
  have hjl := popMinAux_min hall hpop _ hfreshu
  rw [hpz] at hjl
  have hpzdu : pz ≤ du := le_of_jsLt_false hjl
  have hdueq : du = pz := by omega
  refine ⟨?_, ?_, ⟨du, by rw [hpz, hdueq], hdu⟩⟩
  · refine ⟨keys, nonneg, startLe, ?_, ?_, ?_, ?_, ?_, parent, ?_⟩
    · exact Sset.add_nodup visNodup current.2
    · intro v hvm
      rcases Sset.mem_add hvm with h1 | h1
      · exact visSub v h1
      · rw [h1]
        exact (keys current.2).mp (by rw [hdu]; rfl)
    · intro v hvm
      rcases Sset.mem_add hvm with h1 | h1
      · exact visFin v h1
      · rw [h1]
        exact ⟨du, hdu⟩
    · intro pr hpr
      exact heapSound pr ((popMinAux_mem hpop).2 pr hpr)
    · intro v dv hvm hdv
      have hvV : v ∉ V := fun hm => hvm (Sset.mem_add_of_mem current.2 hm)
      have hvne : v ≠ current.2 := by
        intro he
        exact hvm (he ▸ Sset.mem_add_self V current.2)
      refine popMinAux_rest_mem hpop (fresh v dv hvV hdv) ?_
      intro he
      exact hvne (congrArg Prod.snd he)
    · intro v hvm dv hdv q w hq
      rcases Sset.mem_add hvm with h1 | h1
      · exact visLB v h1 dv hdv q w hq
      · rw [h1] at hdv
        rw [hdu] at hdv
        have : du = dv := WithTop.coe_inj.mp (Option.some.inj hdv)
        have hcut := dijkstra_cut cfg ⟨D, P, V, PQ, S⟩
          ⟨keys, nonneg, startLe, visNodup, visSub, visFin, heapSound,
            fresh, parent, visLB⟩
          hfront HW hpop hpz q v w hq (by rw [h1]; exact hv)
        omega
  · intro x hx v m hvm hm
    have hvV : v ∉ V := fun hmm =>
      hvm (Sset.mem_add_of_mem current.2 hmm)
    exact hfront x hx v m hvV hm

/-- The Dijkstra loop preserves the core invariant; on return either
the end node was finalized (the early-exit branch) or every visited
node still satisfies the relaxed-frontier property. -/
theorem dijkstraLoop_inv (cfg : AlgorithmConfig)
    (HW : ∀ e ∈ cfg.graph.edges, 1 ≤ e.weight)
    (HWF : ∀ e ∈ cfg.graph.edges,
      e.fromId ∈ nodeIds cfg.graph ∧ e.toId ∈ nodeIds cfg.graph) :
    ∀ (fuel : Nat) (st : DState),
      DijkCore cfg st →
      (∀ x ∈ st.visitedNodes, FrontAt cfg st x) →
      cfg.endNode ∉ st.visitedNodes →
      DijkCore cfg (dijkstraLoop cfg (buildAdjacencyW cfg.graph) fuel st) ∧
      (cfg.endNode ∈
          (dijkstraLoop cfg (buildAdjacencyW cfg.graph) fuel st).visitedNodes ∨
        ∀ x ∈ (dijkstraLoop cfg (buildAdjacencyW cfg.graph) fuel st).visitedNodes,
          FrontAt cfg (dijkstraLoop cfg (buildAdjacencyW cfg.graph) fuel st) x) := by
  intro fuel
  induction fuel with
  | zero => intro st hcore hfront _; exact ⟨hcore, Or.inr hfront⟩
  | succ n ih =>
    intro st hcore hfront hend
    obtain ⟨D, P, V, PQ, S⟩ := st
    unfold dijkstraLoop
    simp only []
    cases hpop : PQ.pop with
    | none => exact ⟨hcore, Or.inr hfront⟩
    | some pr =>
      obtain ⟨current, pq'⟩ := pr
      have hpop0 : popMinAux PQ.entries = some (current, pq'.entries) :=
        MinHeap.pop_popMinAux hpop
      simp only []
      by_cases hvB : V.has current.2 = true
      · rw [if_pos hvB]
        have hvP : current.2 ∈ V := Sset.has_iff_mem.mp hvB
        obtain ⟨keys, nonneg, startLe, visNodup, visSub, visFin, heapSound,
          fresh, parent, visLB⟩ := hcore
        simp only [] at keys nonneg startLe visSub visFin heapSound
        simp only [] at fresh
        simp only [] at parent
        simp only [] at visLB
        refine ih ⟨D, P, V, pq', S⟩
          ⟨keys, nonneg, startLe, visNodup, visSub, visFin, ?_, ?_,
            parent, visLB⟩ ?_ hend
        · intro p hp
          exact heapSound p ((popMinAux_mem hpop0).2 p hp)
        · intro v dv hvV hdv
          refine popMinAux_rest_mem hpop0 (fresh v dv hvV hdv) ?_
          intro he
          have hv2 : v = current.2 := congrArg Prod.snd he
          exact hvV (by rw [hv2]; exact hvP)
        · intro x hx
          exact hfront x hx
      · rw [if_neg hvB]
        have hvP : current.2 ∉ V := fun hm => hvB (Sset.has_iff_mem.mpr hm)
        obtain ⟨core2, front2, du, hcur1, hcurD⟩ :=
          dijkstra_visit_core cfg D P V PQ S
            (S ++ [⟨current.2, V.add current.2, P,
              reconstructPath P cfg.startNode current.2,
              decide (current.2 = cfg.endNode)⟩])
            HW hcore hfront hpop0 hvP
        by_cases hendB : current.2 = cfg.endNode
        · rw [if_pos hendB]
          refine ⟨core2, Or.inl ?_⟩
          rw [← hendB]
          exact Sset.mem_add_self V current.2
        · rw [if_neg hendB]
          have hstale : jsGt current.1 (Smap.find? D current.2) = false := by
            rw [hcur1, hcurD]
            simp [jsGt, jsLt]
          rw [hstale]
          simp only [Bool.false_eq_true, if_false]
          have hu_node : current.2 ∈ nodeIds cfg.graph :=
            (core2.keys current.2).mp (by
              rw [show (⟨D, P, V.add current.2, pq',
                S ++ [⟨current.2, V.add current.2, P,
                  reconstructPath P cfg.startNode current.2,
                  decide (current.2 = cfg.endNode)⟩]⟩ : DState).distances = D
                from rfl, hcurD]
              rfl)
          have hhyps : ∀ nb ∈ (((buildAdjacencyW cfg.graph).find?
              current.2).getD []), 1 ≤ nb.2 ∧
              ∃ mw : ℤ, minWeight? (edgeWeightsBetween cfg.graph current.2 nb.1)
                = some mw ∧ mw ≤ nb.2 := by
            intro nb hnb
            exact ⟨(buildAdjacencyW_mem_props HW HWF hnb).1,
              buildAdjacencyW_mem_minW hnb⟩
          refine ih _ (dijkstraRelax_core cfg current.2 hu_node _ _ hhyps core2)
            ?_ ?_
          · intro x hx
            rw [dijkstraRelax_visited] at hx
            rcases Sset.mem_add hx with h1 | h1
            · exact dijkstraRelax_frontAt cfg current.2 _ _ x
                (Sset.mem_add_of_mem current.2 h1) (front2 x h1)
            · subst h1
              intro v m hvm hm
              rw [dijkstraRelax_visited] at hvm
              have hvnode : v ∈ nodeIds cfg.graph :=
                (minWeight?_endpoints HWF hm).2
              have hmem : (v, m) ∈ (((buildAdjacencyW cfg.graph).find?
                  current.2).getD []) :=
                buildAdjacencyW_minW_mem hm hu_node
              obtain ⟨dv, hdv, hle⟩ := dijkstraRelax_le current.2 _ _
                (Sset.mem_add_self V current.2) du hcurD (v, m) hmem hvm
                ((core2.keys v).mpr hvnode)
              refine ⟨du, dv, ?_, hdv, hle⟩
              exact (dijkstraRelax_find?_vis current.2 _ _ current.2
                (Sset.mem_add_self V current.2)).trans hcurD
          · rw [dijkstraRelax_visited]
            intro hm
            rcases Sset.mem_add hm with h1 | h1
            · exact hend h1
            · exact hendB h1.symm

/-- Adding a fresh element to a `Set` grows it by one. -/
theorem Sset.add_length_of_not_mem {s : Sset} {k : String} (h : k ∉ s) :
    (s.add k).length = s.length + 1 := by
  unfold Sset.add
  rw [if_neg (fun hc => h (Sset.has_iff_mem.mp hc))]
  simp

/-- One relaxation pushes at most one frontier entry. -/
theorem dijkstraRelaxOne_pq_len (c : String) (st : DState) (nb : String × ℤ) :
    (dijkstraRelaxOne c st nb).pq.entries.length ≤
      st.pq.entries.length + 1 := by
  unfold dijkstraRelaxOne
  split
  · omega
  · simp only []
    split
    · next hlt =>
      obtain ⟨dc, old, hdc, hold, hord, hsum⟩ := relax_guard_inv hlt
      rw [hsum]
      simp only [MinHeap.push]
      simp
    · omega

/-- Relaxing a neighbor list pushes at most one entry per neighbor. -/
theorem dijkstraRelax_pq_len (c : String) :
    ∀ (nbrs : List (String × ℤ)) (st : DState),
      (dijkstraRelax c st nbrs).pq.entries.length ≤
        st.pq.entries.length + nbrs.length := by
  intro nbrs
  induction nbrs with
  | nil => intro st; simp [dijkstraRelax]
  | cons nb t ih =>
    intro st
    have h1 := ih (dijkstraRelaxOne c st nb)
    have h2 := dijkstraRelaxOne_pq_len c st nb
    show (dijkstraRelax c (dijkstraRelaxOne c st nb) t).pq.entries.length ≤ _
    simp only [List.length_cons]
    omega

/-- With enough fuel — the supplied `loopFuel` bound suffices — the
Dijkstra loop reaches a genuine termination state: either the frontier
is exhausted or the end node was finalized.  The measure
`(unfinalized-slots) * (max pushes per visit) + frontier size` drops on
every iteration. -/
theorem dijkstraLoop_final (cfg : AlgorithmConfig) :
    ∀ (fuel : Nat) (st : DState),
      st.visitedNodes.Nodup →
      ConfinedD cfg st →
      ((nodeIds cfg.graph).length + 2 - st.visitedNodes.length) *
          (2 * cfg.graph.edges.length + 2) + st.pq.entries.length < fuel →
      popMinAux
          (dijkstraLoop cfg (buildAdjacencyW cfg.graph) fuel st).pq.entries
          = none ∨
        cfg.endNode ∈
          (dijkstraLoop cfg (buildAdjacencyW cfg.graph) fuel st).visitedNodes := by
  intro fuel
  induction fuel with
  | zero => intro st _ _ hm; omega
  | succ n ih =>
    intro st hnodup hconf hm
    obtain ⟨D, P, V, PQ, S⟩ := st
    obtain ⟨hpq, hvis, hsteps, hdist⟩ := hconf
    simp only [] at hpq hvis hsteps hdist hm hnodup
    have hVlen : V.length ≤ (nodeIds cfg.graph).length + 1 := by
      have hsp : List.Subperm V (cfg.startNode :: nodeIds cfg.graph) :=
        List.Nodup.subperm hnodup (fun v hv => hvis v hv)
      have := hsp.length_le
      simpa using this
    unfold dijkstraLoop
    simp only []
    cases hpop : PQ.pop with
    | none =>
      left
      unfold MinHeap.pop at hpop
      cases hm2 : popMinAux PQ.entries with
      | none => rfl
      | some p =>
        rw [hm2] at hpop
        obtain ⟨e0, r0⟩ := p
        cases hpop
    | some pr =>
      obtain ⟨current, pq'⟩ := pr
      have hpop0 : popMinAux PQ.entries = some (current, pq'.entries) :=
        MinHeap.pop_popMinAux hpop
      have hlen : pq'.entries.length + 1 = PQ.entries.length :=
        popMinAux_rest_length hpop0
      simp only []
      by_cases hvB : V.has current.2 = true
      · rw [if_pos hvB]
        refine ih ⟨D, P, V, pq', S⟩ hnodup
          ⟨fun p hp => hpq p ((popMinAux_mem hpop0).2 p hp),
            hvis, hsteps, hdist⟩ ?_
        simp only []
        omega
      · rw [if_neg hvB]
        have hvP : current.2 ∉ V := fun hmm => hvB (Sset.has_iff_mem.mpr hmm)
        have hcur : current.2 ∈ cfg.startNode :: nodeIds cfg.graph :=
          hpq current (popMinAux_mem hpop0).1
        by_cases hendB : current.2 = cfg.endNode
        · rw [if_pos hendB]
          right
          simp only []
          rw [← hendB]
          exact Sset.mem_add_self V current.2
        · rw [if_neg hendB]
          have hvis2 : ∀ v ∈ V.add current.2,
              v ∈ cfg.startNode :: nodeIds cfg.graph := by
            intro v hv
            rcases Sset.mem_add hv with h1 | h1
            · exact hvis v h1
            · rw [h1]; exact hcur
          have hsteps2 : ∀ ps ∈ S ++ [⟨current.2, V.add current.2, P,
              reconstructPath P cfg.startNode current.2,
              decide (current.2 = cfg.endNode)⟩],
              PathStep.currentNode ps ∈ cfg.startNode :: nodeIds cfg.graph := by
            intro ps hps
            rcases List.mem_append.mp hps with h1 | h1
            · exact hsteps ps h1
            · simp only [List.mem_singleton] at h1
              rw [h1]
              exact hcur
          have hnodup2 : (V.add current.2).Nodup :=
            Sset.add_nodup hnodup current.2
          have hVlen2 : (V.add current.2).length = V.length + 1 :=
            Sset.add_length_of_not_mem hvP
          have hconf2 : ConfinedD cfg ⟨D, P, V.add current.2, pq',
              S ++ [⟨current.2, V.add current.2, P,
                reconstructPath P cfg.startNode current.2,
                decide (current.2 = cfg.endNode)⟩]⟩ :=
            ⟨fun p hp => hpq p ((popMinAux_mem hpop0).2 p hp),
              hvis2, hsteps2, hdist⟩
          split
          · refine ih _ hnodup2 hconf2 ?_
            simp only []
            have hfac : 1 ≤ (nodeIds cfg.graph).length + 2 - V.length := by
              omega
            have hsm := Nat.sub_mul ((nodeIds cfg.graph).length + 2 - V.length)
              1 (2 * cfg.graph.edges.length + 2)
            have hkk := Nat.le_mul_of_pos_left
              (2 * cfg.graph.edges.length + 2) (by omega :
                0 < (nodeIds cfg.graph).length + 2 - V.length)
            rw [hVlen2]
            rw [show (nodeIds cfg.graph).length + 2 - (V.length + 1) =
              (nodeIds cfg.graph).length + 2 - V.length - 1 from by omega]
            omega
          · refine ih _ (by
                rw [dijkstraRelax_visited]
                exact hnodup2)
              (dijkstraRelax_confined cfg current.2 _ _ hconf2) ?_
            have hrlen := dijkstraRelax_pq_len current.2
              (((buildAdjacencyW cfg.graph).find? current.2).getD [])
              ⟨D, P, V.add current.2, pq',
                S ++ [⟨current.2, V.add current.2, P,
                  reconstructPath P cfg.startNode current.2,
                  decide (current.2 = cfg.endNode)⟩]⟩
            have hadjlen := buildAdjacencyW_len cfg.graph current.2
            rw [dijkstraRelax_visited]
            simp only [] at hrlen ⊢
            have hfac : 1 ≤ (nodeIds cfg.graph).length + 2 - V.length := by
              omega
            have hsm := Nat.sub_mul ((nodeIds cfg.graph).length + 2 - V.length)
              1 (2 * cfg.graph.edges.length + 2)
            have hkk := Nat.le_mul_of_pos_left
              (2 * cfg.graph.edges.length + 2) (by omega :
                0 < (nodeIds cfg.graph).length + 2 - V.length)
            rw [hVlen2]
            rw [show (nodeIds cfg.graph).length + 2 - (V.length + 1) =
              (nodeIds cfg.graph).length + 2 - V.length - 1 from by omega]
            omega

/-- With an exhausted frontier, every node reachable from the start by
a path is visited (an unvisited reachable node would keep a fresh
frontier entry alive). -/
theorem dijkstra_empty_reach (cfg : AlgorithmConfig) (st : DState)
    (hcore : DijkCore cfg st)
    (hfront : ∀ x ∈ st.visitedNodes, FrontAt cfg st x)
    (hempty : popMinAux st.pq.entries = none) :
    ∀ (q : List String) (v : String) (w : ℤ),
      IsPathW cfg.graph cfg.startNode v q w → v ∈ st.visitedNodes := by
  rw [popMinAux_eq_none_iff] at hempty
  intro q
  induction q using List.reverseRecOn with
  | nil =>
    intro v w hq
    obtain ⟨hh, _, _⟩ := hq
    cases hh
  | append_singleton l a ih =>
    intro v w hq
    obtain ⟨hh, hl, hw⟩ := hq
    rw [List.getLast?_concat] at hl
    have hav : a = v := Option.some.inj hl
    subst hav
    cases l with
    | nil =>
      simp only [List.nil_append, List.head?_cons, Option.some.injEq] at hh
      rw [hh]
      by_contra hv
      obtain ⟨ds, hds, _⟩ := hcore.startLe
      have := hcore.fresh cfg.startNode ds hv hds
      rw [hempty] at this
      cases this
    | cons b l' =>
      obtain ⟨y, hly⟩ : ∃ y, (b :: l').getLast? = some y := by
        cases hg : (b :: l').getLast? with
        | some y => exact ⟨y, rfl⟩
        | none => rw [List.getLast?_eq_none_iff] at hg; cases hg
      obtain ⟨wl, m, hwl, hm, _⟩ :=
        pathWeight_append_single_inv a (b :: l') y w hly hw
      have hhead : (b :: l').head? = some cfg.startNode := by simpa using hh
      have hyv : y ∈ st.visitedNodes := ih y wl ⟨hhead, hly, hwl⟩
      by_contra hv
      obtain ⟨dx, dv, _, hdv, _⟩ := hfront y hyv a m hv hm
      have := hcore.fresh a dv hv hdv
      rw [hempty] at this
      cases this

/-- Walking the parent chain from any node with a finite recorded
distance terminates at the start node: each parent hop strictly lowers
the finite nonnegative distance, so the walk revisits no key and the
accumulated path weighs at most the distance of the queried node. -/
theorem dijkstra_walk (cfg : AlgorithmConfig) (D : Smap QInf)
    (P : Smap (Option String))
    (HNE : "" ∉ nodeIds cfg.graph)
    (hnonneg : ∀ v (dv : ℤ), D.find? v = some ((dv : ℤ) : QInf) → 0 ≤ dv)
    (hparent : ∀ v (dv : ℤ), v ≠ cfg.startNode →
      D.find? v = some ((dv : ℤ) : QInf) →
      ∃ (u : String) (du : ℤ) (w : ℤ) (mw : ℤ),
        P.find? v = some (some u) ∧ u ∈ nodeIds cfg.graph ∧
        D.find? u = some ((du : ℤ) : QInf) ∧
        minWeight? (edgeWeightsBetween cfg.graph u v) = some mw ∧
        mw ≤ w ∧ 1 ≤ w ∧ du + w ≤ dv) :
    ∀ (fuel : Nat) (v : String) (dv : ℤ) (seen acc : List String),
      D.find? v = some ((dv : ℤ) : QInf) →
      (∀ x ∈ seen, ∃ dx : ℤ, D.find? x = some ((dx : ℤ) : QInf) ∧ dv < dx) →
      ((P.map Prod.fst).filter (fun x => !seen.contains x)).length + 1 ≤ fuel →
      ∃ (chain : List String) (wp : ℤ),
        reconstructWalk P cfg.startNode fuel v seen acc =
          some ((chain ++ [v]) ++ acc) ∧
        (chain ++ [v]).head? = some cfg.startNode ∧
        pathWeight cfg.graph (chain ++ [v]) = some wp ∧ wp ≤ dv := by
  intro fuel
  induction fuel with
  | zero => intro v dv seen acc _ _ hfuel; omega
  | succ n ih =>
    intro v dv seen acc hDv hseen hfuel
    unfold reconstructWalk
    simp only []
    by_cases hvs : v = cfg.startNode
    · rw [if_pos hvs]
      refine ⟨[], 0, by simp, by simpa using hvs, rfl, hnonneg v dv hDv⟩
    · rw [if_neg hvs]
      obtain ⟨u, du, w, mw, hPv, hun, hDu, hmw, hmwle, hw1, hsum⟩ :=
        hparent v dv hvs hDv
      have hune : u ≠ "" := fun he => HNE (he ▸ hun)
      have hgp : getParentJs P v = some u := by
        unfold getParentJs
        rw [hPv]
        simp only []
        rw [if_neg hune]
      rw [hgp]
      simp only []
      have hcont : ¬(seen.contains v = true) := by
        intro hc
        obtain ⟨dx, hdx, hlt⟩ := hseen v (by simpa using hc)
        rw [hDv] at hdx
        have : dv = dx := WithTop.coe_inj.mp (Option.some.inj hdx)
        omega
      rw [if_neg hcont]
      have hmem : v ∈ P.map Prod.fst := mem_keys_of_find?_eq_some hPv
      have hflt := filter_imp_length_lt
        (fun x => !seen.contains x) (fun x => !(v :: seen).contains x)
        (by
          intro a ha
          simp only [List.contains_cons, Bool.not_eq_true', Bool.or_eq_false_iff]
            at ha
          simp only [Bool.not_eq_true']
          exact ha.2)
        v
        (by simp)
        (by simpa using hcont)
        (P.map Prod.fst) hmem
      obtain ⟨chain', wp', hwalk, hhead, hpw, hle⟩ :=
        ih u du (v :: seen) (v :: acc) hDu
          (by
            intro x hx
            rcases List.mem_cons.mp hx with rfl | hx'
            · exact ⟨dv, hDv, by omega⟩
            · obtain ⟨dx, hdx, hlt⟩ := hseen x hx'
              exact ⟨dx, hdx, by omega⟩)
          (by omega)
      refine ⟨chain' ++ [u], wp' + mw, ?_, ?_, ?_, ?_⟩
      · rw [hwalk]
        congr 1
        simp
      · exact head?_append_left [v] hhead
      · exact pathWeight_append_single v mw (chain' ++ [u]) u wp'
          (List.getLast?_concat _) hpw hmw
      · omega

/-- `reconstructPath` at the end of a run returns a genuine
start-to-end path weighing at most the end node's recorded distance. -/
theorem dijkstra_path_upper (cfg : AlgorithmConfig) (D : Smap QInf)
    (P : Smap (Option String))
    (HNE : "" ∉ nodeIds cfg.graph)
    (hnonneg : ∀ v (dv : ℤ), D.find? v = some ((dv : ℤ) : QInf) → 0 ≤ dv)
    (hparent : ∀ v (dv : ℤ), v ≠ cfg.startNode →
      D.find? v = some ((dv : ℤ) : QInf) →
      ∃ (u : String) (du : ℤ) (w : ℤ) (mw : ℤ),
        P.find? v = some (some u) ∧ u ∈ nodeIds cfg.graph ∧
        D.find? u = some ((du : ℤ) : QInf) ∧
        minWeight? (edgeWeightsBetween cfg.graph u v) = some mw ∧
        mw ≤ w ∧ 1 ≤ w ∧ du + w ≤ dv)
    {dt : ℤ} (hDt : D.find? cfg.endNode = some ((dt : ℤ) : QInf)) :
    ∃ (p : List String) (wp : ℤ),
      reconstructPath P cfg.startNode cfg.endNode = p ∧
      p.head? = some cfg.startNode ∧ p.getLast? = some cfg.endNode ∧
      pathWeight cfg.graph p = some wp ∧ wp ≤ dt := by
  have hfuel : ((P.map Prod.fst).filter
      (fun x => !([] : List String).contains x)).length + 1 ≤ P.length + 2 := by
    have h1 := List.length_filter_le
      (fun x => !([] : List String).contains x) (P.map Prod.fst)
    have h2 : (P.map Prod.fst).length = P.length := List.length_map P Prod.fst
    omega
  obtain ⟨chain, wp, hwalk, hhead, hpw, hle⟩ :=
    dijkstra_walk cfg D P HNE hnonneg hparent (P.length + 2) cfg.endNode dt
      [] [] hDt (by intro x hx; cases hx) hfuel
  refine ⟨chain ++ [cfg.endNode], wp, ?_, hhead, List.getLast?_concat _,
    hpw, hle⟩
  unfold reconstructPath
  rw [hwalk]
  simp only []
  rw [List.append_nil]
  rw [if_pos hhead]

/-- The initial Dijkstra state satisfies the core invariant when the
start id is a graph node. -/
theorem dijkstraInit_core (cfg : AlgorithmConfig)
    (hs : cfg.startNode ∈ nodeIds cfg.graph) :
    DijkCore cfg (dijkstraInit cfg) := by
  have hchar : ∀ v ∈ nodeIds cfg.graph,
      (dijkstraInit cfg).distances.find? v =
        some (if v = cfg.startNode then (0 : QInf) else ⊤) := by
    intro v hv
    exact find?_nodesFold_mem
      (fun s => if s = cfg.startNode then (0 : QInf) else ⊤) v
      cfg.graph.nodes Smap.empty hv
  have hnot : ∀ v, v ∉ nodeIds cfg.graph →
      (dijkstraInit cfg).distances.find? v = none := by
    intro v hv
    exact find?_nodesFold_notmem
      (fun n => if n.id = cfg.startNode then (0 : QInf) else ⊤) v
      cfg.graph.nodes Smap.empty hv
  have hpq : (dijkstraInit cfg).pq.entries = [(some 0, cfg.startNode)] := rfl
  refine ⟨?_, ?_, ?_, List.nodup_nil, ?_, ?_, ?_, ?_, ?_, ?_⟩
  · intro v
    constructor
    · intro hv
      by_contra hc
      rw [hnot v hc] at hv
      cases hv
    · intro hv
      rw [hchar v hv]
      rfl
  · intro v dv hdv
    by_cases hv : v ∈ nodeIds cfg.graph
    · rw [hchar v hv] at hdv
      by_cases hvs : v = cfg.startNode
      · rw [if_pos hvs] at hdv
        have : ((dv : ℤ) : QInf) = (0 : QInf) := (Option.some.inj hdv).symm
        have : dv = 0 := by exact_mod_cast this
        omega
      · rw [if_neg hvs] at hdv
        exact absurd (Option.some.inj hdv).symm (WithTop.coe_ne_top)
    · rw [hnot v hv] at hdv
      cases hdv
  · refine ⟨0, ?_, le_refl 0⟩
    rw [hchar cfg.startNode hs, if_pos rfl]
    rfl
  · intro v hv
    cases hv
  · intro v hv
    cases hv
  · intro pr hpr
    rw [hpq] at hpr
    simp only [List.mem_singleton] at hpr
    refine ⟨0, 0, ?_, ?_, le_refl 0⟩
    · rw [hpr]
      rfl
    · rw [hpr]
      rw [hchar cfg.startNode hs, if_pos rfl]
      rfl
  · intro v dv _ hdv
    by_cases hv : v ∈ nodeIds cfg.graph
    · rw [hchar v hv] at hdv
      by_cases hvs : v = cfg.startNode
      · rw [if_pos hvs] at hdv
        have h0 : ((dv : ℤ) : QInf) = (0 : QInf) := (Option.some.inj hdv).symm
        rw [hpq, hvs, ← h0]
        exact List.mem_singleton.mpr rfl
      · rw [if_neg hvs] at hdv
        exact absurd (Option.some.inj hdv).symm (WithTop.coe_ne_top)
    · rw [hnot v hv] at hdv
      cases hdv
  · intro v dv hvs hdv
    by_cases hv : v ∈ nodeIds cfg.graph
    · rw [hchar v hv, if_neg hvs] at hdv
      exact absurd (Option.some.inj hdv).symm (WithTop.coe_ne_top)
    · rw [hnot v hv] at hdv
      cases hdv
  · intro v hv
    cases hv

/-- The backward walk started at the start id itself returns at once. -/
theorem reconstructWalk_self (P : Smap (Option String)) (s : String)
    (fuel : Nat) (seen acc : List String) :
    reconstructWalk P s (fuel + 1) s seen acc = some (s :: acc) := by
  unfold reconstructWalk
  simp only []
  rw [if_true]

/-- Reconstructing the path from the start to itself yields the
singleton. -/
theorem reconstructPath_self (P : Smap (Option String)) (s : String) :
    reconstructPath P s s = [s] := by
  unfold reconstructPath
  rw [show (P.length + 2) = (P.length + 1) + 1 from rfl]
  rw [reconstructWalk_self]
  simp

/-- When start and end coincide, `dijkstra` finalizes the seeded start
entry at once, hits the early-exit branch, and reconstructs `[start]`. -/
theorem dijkstra_start_eq_end (cfg : AlgorithmConfig)
    (hst : cfg.startNode = cfg.endNode) :
    (dijkstra cfg).path = [cfg.startNode] := by
  have h2 : 2 ≤ loopFuel cfg.graph := by
    unfold loopFuel
    exact Nat.le_add_left 2 _
  have hF : loopFuel cfg.graph = (loopFuel cfg.graph - 1) + 1 := by omega
  show reconstructPath (dijkstraLoop cfg (buildAdjacencyW cfg.graph)
    (loopFuel cfg.graph) (dijkstraInit cfg)).previousNodes
    cfg.startNode cfg.endNode = [cfg.startNode]
  rw [hF]
  unfold dijkstraLoop
  rw [show ((dijkstraInit cfg).pq.pop :
      Option ((Option QInf × String) × MinHeap)) =
      some ((some 0, cfg.startNode), ⟨[]⟩) from rfl]
  simp only []
  rw [if_neg (show ¬((dijkstraInit cfg).visitedNodes.has cfg.startNode = true)
    from fun h => nomatch h)]
  rw [if_pos hst]
  rw [← hst]
  exact reconstructPath_self _ cfg.startNode

/-- A start-to-end path with distinct endpoints forces the start to be
a graph node (its first edge has it as an endpoint). -/
theorem isPathW_start_node {g : Graph} {s t : String} {q : List String}
    {w : ℤ}
    (HWF : ∀ e ∈ g.edges, e.fromId ∈ nodeIds g ∧ e.toId ∈ nodeIds g)
    (hq : IsPathW g s t q w) (hst : s ≠ t) : s ∈ nodeIds g := by
  obtain ⟨hh, hl, hw⟩ := hq
  cases q with
  | nil => cases hh
  | cons x rest =>
    simp only [List.head?_cons, Option.some.injEq] at hh
    cases rest with
    | nil =>
      simp only [List.getLast?_singleton, Option.some.injEq] at hl
      exact absurd (hh.symm.trans hl) hst
    | cons y rest' =>
      obtain ⟨m, c, hm, _, _⟩ := pathWeight_cons_cons hw
      rw [hh] at hm
      exact (minWeight?_endpoints HWF hm).1

/-- A graph with a node whose id is the empty string on the cheap
route: `a —1— "" —1— b` plus a direct `a —5— b`. -/
def c2CeGraph : Graph :=
  { nodes := [{ id := "a", x := 0, y := 0 }, { id := "", x := 1, y := 0 },
              { id := "b", x := 2, y := 0 }],
    edges := [{ fromId := "a", toId := "", weight := 1 },
              { fromId := "", toId := "b", weight := 1 },
              { fromId := "a", toId := "b", weight := 5 }] }

/-- C2 counterexample: positive integer weights, well-formed edges and
a reachable end node, yet `dijkstra` returns the empty path — the
reconstruction loop reads the parent of `b`, the empty string, and
`previousNodes.get(current) || null` treats the falsy `""` as `null`,
so the walk stops before the start and the result is discarded. -/
theorem c2_counterexample_empty_string_id :
    (∀ e ∈ c2CeGraph.edges, 1 ≤ e.weight) ∧
    (∀ e ∈ c2CeGraph.edges,
      e.fromId ∈ nodeIds c2CeGraph ∧ e.toId ∈ nodeIds c2CeGraph) ∧
    IsPathW c2CeGraph "a" "b" ["a", "", "b"] 2 ∧
    (dijkstra { startNode := "a", endNode := "b",
                graph := c2CeGraph }).path = [] := by
  refine ⟨by decide, by decide, ⟨rfl, rfl, by decide⟩, by decide⟩

/-- C2 (amended): on every graph with positive integer edge weights,
well-formed edges (no dangling endpoints), no empty-string node id
(the counterexample `c2_counterexample_empty_string_id` shows the
original claim fails without this: `prev.get(x) || null` drops a falsy
`""` parent and the path collapses to `[]`), and an end node reachable
from the start, `dijkstra` returns a start-to-end path of minimal
total weight; and on the concrete triangle scenario it returns
`[a, b, c]` of total weight 2. -/
theorem c2_dijkstra_shortest_path :
    (∀ cfg : AlgorithmConfig,
      (∀ e ∈ cfg.graph.edges, 1 ≤ e.weight) →
      (∀ e ∈ cfg.graph.edges,
        e.fromId ∈ nodeIds cfg.graph ∧ e.toId ∈ nodeIds cfg.graph) →
      "" ∉ nodeIds cfg.graph →
      (∃ q w, IsPathW cfg.graph cfg.startNode cfg.endNode q w) →
      ∃ wp, IsPathW cfg.graph cfg.startNode cfg.endNode (dijkstra cfg).path wp ∧
        ∀ q w, IsPathW cfg.graph cfg.startNode cfg.endNode q w → wp ≤ w) ∧
    ((dijkstra triangleConfig).path = ["a", "b", "c"] ∧
      pathWeight triangleGraph ["a", "b", "c"] = some 2) := by
  constructor
  · intro cfg HW HWF HNE hreach
    obtain ⟨q0, w0, hq0⟩ := hreach
    by_cases hst : cfg.startNode = cfg.endNode
    · refine ⟨0, ⟨?_, ?_, ?_⟩, ?_⟩
      · rw [dijkstra_start_eq_end cfg hst]
        rfl
      · rw [dijkstra_start_eq_end cfg hst]
        rw [show ([cfg.startNode] : List String).getLast? =
          some cfg.startNode from rfl, hst]
      · rw [dijkstra_start_eq_end cfg hst]
        rfl
      · intro q w hq
        exact pathWeight_nonneg HW hq.2.2
    · have hs : cfg.startNode ∈ nodeIds cfg.graph :=
        isPathW_start_node HWF hq0 hst
      have hvinit : (dijkstraInit cfg).visitedNodes = [] := rfl
      have hinit_front : ∀ x ∈ (dijkstraInit cfg).visitedNodes,
          FrontAt cfg (dijkstraInit cfg) x := by
        intro x hx
        rw [hvinit] at hx
        cases hx
      have hend0 : cfg.endNode ∉ (dijkstraInit cfg).visitedNodes := by
        intro hx
        rw [hvinit] at hx
        cases hx
      obtain ⟨coreF, hdisj⟩ := dijkstraLoop_inv cfg HW HWF
        (loopFuel cfg.graph) (dijkstraInit cfg) (dijkstraInit_core cfg hs)
        hinit_front hend0
      have htF : cfg.endNode ∈ (dijkstraLoop cfg (buildAdjacencyW cfg.graph)
          (loopFuel cfg.graph) (dijkstraInit cfg)).visitedNodes := by
        rcases hdisj with h | hfrontF
        · exact h
        · have hconf0 : ConfinedD cfg (dijkstraInit cfg) := by
            refine ⟨?_, ?_, ?_, ?_⟩
            · intro pr hpr
              rw [show (dijkstraInit cfg).pq.entries =
                [(some 0, cfg.startNode)] from rfl] at hpr
              simp only [List.mem_singleton] at hpr
              rw [hpr]
              exact List.mem_cons_self _ _
            · intro v hv
              rw [hvinit] at hv
              cases hv
            · intro ps hps
              rw [show (dijkstraInit cfg).steps = [] from rfl] at hps
              cases hps
            · intro k v hk
              by_contra hc
              have h2 : (dijkstraInit cfg).distances.find? k = none :=
                find?_nodesFold_notmem
                  (fun n => if n.id = cfg.startNode then (0 : QInf) else ⊤) k
                  cfg.graph.nodes Smap.empty hc
              rw [h2] at hk
              cases hk
          have hmeas : ((nodeIds cfg.graph).length + 2 -
              (dijkstraInit cfg).visitedNodes.length) *
              (2 * cfg.graph.edges.length + 2) +
              (dijkstraInit cfg).pq.entries.length < loopFuel cfg.graph := by
            rw [hvinit]
            rw [show ((dijkstraInit cfg).pq.entries.length) = 1 from rfl]
            unfold loopFuel
            have hNN : (nodeIds cfg.graph).length = cfg.graph.nodes.length :=
              List.length_map cfg.graph.nodes Node.id
            have hmul : ((nodeIds cfg.graph).length + 2) *
                (2 * cfg.graph.edges.length + 2) ≤
                (cfg.graph.nodes.length + 2 * cfg.graph.edges.length + 2) *
                (2 * cfg.graph.edges.length + 2) :=
              Nat.mul_le_mul_right _ (by omega)
            simp only [List.length_nil, Nat.sub_zero]
            omega
          rcases dijkstraLoop_final cfg (loopFuel cfg.graph)
            (dijkstraInit cfg) List.nodup_nil hconf0 hmeas with hempty | ht
          · exact dijkstra_empty_reach cfg _ coreF hfrontF hempty q0
              cfg.endNode w0 hq0
          · exact ht
      obtain ⟨dt, hdt⟩ := coreF.visFin cfg.endNode htF
      have hlow := coreF.visLB cfg.endNode htF dt hdt
      obtain ⟨p, wp, hrp, hph, hpl, hpw, hwple⟩ :=
        dijkstra_path_upper cfg _ _ HNE coreF.nonneg coreF.parent hdt
      have hpath : (dijkstra cfg).path = reconstructPath
          (dijkstraLoop cfg (buildAdjacencyW cfg.graph) (loopFuel cfg.graph)
            (dijkstraInit cfg)).previousNodes
          cfg.startNode cfg.endNode := rfl
      refine ⟨wp, ⟨?_, ?_, ?_⟩, ?_⟩
      · rw [hpath, hrp]
        exact hph
      · rw [hpath, hrp]
        exact hpl
      · rw [hpath, hrp]
        exact hpw
      · intro q w hq
        have := hlow q w hq
        omega
  · exact ⟨by decide, by decide⟩

/-- C2 witness: on the triangle scenario the hypotheses hold
concretely (positive weights, well-formed edges, no empty-string id,
`[a, b, c]` a start-to-end path of weight 2), so the amended theorem
delivers an optimal returned path. -/
theorem c2_witness :
    ∃ wp, IsPathW triangleGraph "a" "c" (dijkstra triangleConfig).path wp ∧
      ∀ q w, IsPathW triangleGraph "a" "c" q w → wp ≤ w :=
  c2_dijkstra_shortest_path.1 triangleConfig (by decide) (by decide)
    (by decide) ⟨["a", "b", "c"], 2, ⟨rfl, rfl, by decide⟩⟩
